import Mathlib

/-!
# A scanf-style format-string lexer (`format_parser.c`)

Shallow embedding of `parse_format` and its sub-scanners.

Conventions of the embedding.

* A format string is a `List Nat` of byte values; the byte read at an offset
  past the end of the list is the terminating NUL (`byteAt`).  A C string is a
  list all of whose bytes lie in `1..255` (`CString`).
* The cursor `*p` is an offset into the format string, so that the pointer
  arithmetic of the source (`*(*p - 1)`, `*(*p + 1)`, `*p - start`) is kept.
* `char` values are carried as their `unsigned char` byte value; `isspace` and
  `isdigit` are those of the "C" locale.
* `size_t` is 64 bits wide: the width accumulator is reduced modulo `2 ^ 64`.
  The loop counter `unsigned char c` of the range loop is reduced modulo `256`.
* Every `while`/`for` loop is a function recursive on a fuel argument that
  bounds its number of iterations; running out of fuel is `none`.  The same
  budget `fuel` is handed to every loop of one `parse_format` call.
* `malloc`/`realloc` are assumed to succeed, and the three pointer arguments of
  `parse_format` to be non-null.
-/

namespace FormatParser

/-- Platform constant `SIZE_MAX` of `<stdint.h>` for a 64-bit `size_t`. -/
def SIZE_MAX : Nat := 2 ^ 64 - 1

/-- Modelled from the spec: the declaration of `length_t` is missing from the
sources; the enumerators are those used by `parse_length_modifier`, in the
order of the name table of `print_token`. -/
inductive length_t where
  | LEN_NONE
  | LEN_HH
  | LEN_H
  | LEN_L
  | LEN_LL
  | LEN_CAP_L
  deriving DecidableEq, Repr

/-- Modelled from the spec: the declaration of the token tag is missing from
the sources; the enumerators are those used in `format_parser.c`. -/
inductive token_type_t where
  | TOK_LITERAL
  | TOK_WS
  | TOK_CONV
  deriving DecidableEq, Repr

/-- Modelled from the spec: the declaration of `token_t` is missing from the
sources; the fields are those of the compound literals of `format_parser.c`.
`lit` is an offset into the format string (`none` for `NULL`), `spec` a byte
value and `scanset_table` the 256 cells of the membership table. -/
structure token_t where
  type : token_type_t
  lit : Option Nat
  lit_len : Nat
  is_suppress : Bool
  width : Nat
  length : length_t
  spec : Nat
  scanset_table : List Nat
  is_scanset_invert : Bool
  deriving DecidableEq, Repr

/-- Outcome of one sub-scanner call: the non-zero code it returned, or the
cursor it left and the token it wrote. -/
inductive scan_t where
  | fail (result : Int)
  | ok (p : Nat) (token : token_t)
  deriving DecidableEq, Repr

/-- Ghost record of one dispatcher iteration: the cursor before and after the
sub-scanner call, and the token appended to the buffer. -/
structure entry_t where
  start : Nat
  stop : Nat
  token : token_t
  deriving DecidableEq, Repr

/-- Outcome of `parse_format`: the non-zero code it returned, or the token
sequence handed to the caller (`*ntokens_out` is its length). -/
inductive parse_t where
  | fail (result : Int)
  | ok (tokens : List token_t)
  deriving DecidableEq, Repr

/-- The byte at offset `i`; offsets past the end read the terminating NUL. -/
def byteAt (s : List Nat) (i : Nat) : Nat := s.getD i 0

/-- A NUL-terminated string of bytes: no embedded NUL, every byte below 256. -/
def CString (s : List Nat) : Prop := ∀ b ∈ s, 0 < b ∧ b < 256

instance (s : List Nat) : Decidable (CString s) := by
  unfold CString
  infer_instance

/-- The `isspace` of the "C" locale: space, `\t`, `\n`, `\v`, `\f`, `\r`. -/
def isspace (c : Nat) : Bool := c == 32 || (9 ≤ c && c ≤ 13)

/-- The `isdigit` of `<ctype.h>`. -/
def isdigit (c : Nat) : Bool := 48 ≤ c && c ≤ 57

/-- The table `{0}` of 256 zero cells. -/
def zero_table : List Nat := List.replicate 256 0

/-- Membership of byte `b` in a table, the test `if (table[b])`. -/
def member (table : List Nat) (b : Nat) : Bool := table.getD b 0 != 0

/-- The loop `while (isspace( **p)) ( *p)++` of `parse_whitespace`. -/
def whitespace_loop (s : List Nat) : Nat → Nat → Option Nat
  | 0, _ => none
  | fuel + 1, p =>
    if isspace (byteAt s p) then whitespace_loop s fuel (p + 1) else some p

/-- The function `parse_whitespace`. -/
def parse_whitespace (fuel : Nat) (s : List Nat) (p : Nat) : Option scan_t :=
  match whitespace_loop s fuel p with
  | none => none
  | some p1 =>
    some (scan_t.ok p1
      { type := token_type_t.TOK_WS
        lit := none
        lit_len := 0
        is_suppress := false
        width := 0
        length := length_t.LEN_NONE
        spec := 0
        scanset_table := zero_table
        is_scanset_invert := false })

/-- The loop of `parse_literal`, stopping at NUL, whitespace or a percent. -/
def literal_loop (s : List Nat) : Nat → Nat → Option Nat
  | 0, _ => none
  | fuel + 1, p =>
    if byteAt s p != 0 && !isspace (byteAt s p) && byteAt s p != 37 then
      literal_loop s fuel (p + 1)
    else some p

/-- The function `parse_literal`. -/
def parse_literal (fuel : Nat) (s : List Nat) (p : Nat) : Option scan_t :=
  let start := p
  match literal_loop s fuel p with
  | none => none
  | some p1 =>
    let lit_len := p1 - start
    some (scan_t.ok p1
      { type := token_type_t.TOK_LITERAL
        lit := some start
        lit_len := lit_len
        is_suppress := false
        width := 0
        length := length_t.LEN_NONE
        spec := 0
        scanset_table := zero_table
        is_scanset_invert := false })

/-- The function `parse_length_modifier`: the modifier and the new cursor.
`strncmp( *p, "hh", 2) == 0` holds when the two bytes at the cursor are both
`h`. -/
def parse_length_modifier (s : List Nat) (p : Nat) : length_t × Nat :=
  if byteAt s p == 104 && byteAt s (p + 1) == 104 then (length_t.LEN_HH, p + 2)
  else if byteAt s p == 108 && byteAt s (p + 1) == 108 then (length_t.LEN_LL, p + 2)
  else if byteAt s p == 104 then (length_t.LEN_H, p + 1)
  else if byteAt s p == 108 then (length_t.LEN_L, p + 1)
  else if byteAt s p == 76 then (length_t.LEN_CAP_L, p + 1)
  else (length_t.LEN_NONE, p)

/-- The loop `for (unsigned char c = start; c <= end; c++) table[c] = 1` of
`parse_scanset`; the increment of the `unsigned char` counter wraps at 256. -/
def range_loop : Nat → List Nat → Nat → Nat → Option (List Nat)
  | 0, _, _, _ => none
  | fuel + 1, table, c, e =>
    if c ≤ e then range_loop fuel (table.set c 1) ((c + 1) % 256) e
    else some table

/-- The main loop of `parse_scanset`: the cursor and the table when it
exits. `budget` is the fuel of the inner range loop. -/
def scanset_loop (budget : Nat) (s : List Nat) :
    Nat → Nat → Bool → List Nat → Option (Nat × List Nat)
  | 0, _, _, _ => none
  | fuel + 1, p, first_char, table =>
    if byteAt s p != 0 && byteAt s p != 93 then
      if byteAt s p == 45 && !first_char && byteAt s (p + 1) != 0
          && byteAt s (p + 1) != 93 then
        let start := byteAt s (p - 1)
        let e := byteAt s (p + 1)
        if start ≤ e then
          match range_loop budget table start e with
          | none => none
          | some table1 => scanset_loop budget s fuel (p + 2) false table1
        else scanset_loop budget s fuel (p + 2) false table
      else scanset_loop budget s fuel (p + 1) false (table.set (byteAt s p) 1)
    else some (p, table)

/-- The function `parse_scanset`, entered with the cursor after the `[`. -/
def parse_scanset (fuel : Nat) (s : List Nat) (p : Nat) : Option scan_t :=
  let is_invert := byteAt s p == 94
  let p0 := if byteAt s p == 94 then p + 1 else p
  match scanset_loop fuel s fuel p0 true zero_table with
  | none => none
  | some (p1, table) =>
    if byteAt s p1 != 93 then some (scan_t.fail (-5))
    else
      some (scan_t.ok (p1 + 1)
        { type := token_type_t.TOK_CONV
          lit := none
          lit_len := 0
          is_suppress := false
          width := 0
          length := length_t.LEN_NONE
          spec := 91
          scanset_table := table
          is_scanset_invert := is_invert })

/-- The width loop of `parse_conversion`: the result code, the cursor and the
accumulated width when it exits. The multiply-add is that of `size_t`. -/
def width_loop (s : List Nat) : Nat → Nat → Nat → Option (Int × Nat × Nat)
  | 0, _, _ => none
  | fuel + 1, p, width =>
    if isdigit (byteAt s p) then
      if width > SIZE_MAX / 10 then some (-3, p, width)
      else width_loop s fuel (p + 1) ((width * 10 + (byteAt s p - 48)) % 2 ^ 64)
    else some (0, p, width)

/-- The function `parse_conversion`, entered with the cursor after the `%`. -/
def parse_conversion (fuel : Nat) (s : List Nat) (p : Nat) : Option scan_t :=
  if byteAt s p == 0 then some (scan_t.fail (-2))
  else if byteAt s p == 37 then
    some (scan_t.ok (p + 1)
      { type := token_type_t.TOK_LITERAL
        lit := some (p - 1)
        lit_len := 1
        is_suppress := false
        width := 0
        length := length_t.LEN_NONE
        spec := 0
        scanset_table := zero_table
        is_scanset_invert := false })
  else
    let is_suppress := byteAt s p == 42
    let p1 := if byteAt s p == 42 then p + 1 else p
    match width_loop s fuel p1 0 with
    | none => none
    | some (result, p2, width) =>
      if result != 0 then some (scan_t.fail result)
      else
        let (length, p3) := parse_length_modifier s p2
        if byteAt s p3 == 0 then some (scan_t.fail (-4))
        else
          let spec := byteAt s p3
          let p4 := p3 + 1
          if spec == 91 then
            match parse_scanset fuel s p4 with
            | none => none
            | some (scan_t.fail result1) => some (scan_t.fail result1)
            | some (scan_t.ok p5 token) =>
              some (scan_t.ok p5
                { token with is_suppress := is_suppress, width := width, length := length })
          else
            some (scan_t.ok p4
              { type := token_type_t.TOK_CONV
                lit := none
                lit_len := 0
                is_suppress := is_suppress
                width := width
                length := length
                spec := spec
                scanset_table := zero_table
                is_scanset_invert := false })

/-- One dispatch of the loop body of `parse_format` at cursor `p`. -/
def dispatch (fuel : Nat) (s : List Nat) (p : Nat) : Option scan_t :=
  if isspace (byteAt s p) then parse_whitespace fuel s p
  else if byteAt s p == 37 then parse_conversion fuel s (p + 1)
  else parse_literal fuel s p

/-- The loop of `parse_format`, recording for each appended token the cursor
before and after its sub-scanner call. A non-zero result frees the buffer and
ends the loop. -/
def format_loop (budget : Nat) (s : List Nat) :
    Nat → Nat → List entry_t → Option (Int × List entry_t)
  | 0, _, _ => none
  | fuel + 1, p, tokens =>
    if byteAt s p != 0 then
      match dispatch budget s p with
      | none => none
      | some (scan_t.fail result) => some (result, [])
      | some (scan_t.ok p1 token) =>
        format_loop budget s fuel p1 (tokens ++ [{ start := p, stop := p1, token := token }])
    else some (0, tokens)

/-- The dispatcher run from offset 0 with an empty buffer: the result code and
the recorded entries. -/
def parse_trace (fuel : Nat) (s : List Nat) : Option (Int × List entry_t) :=
  format_loop fuel s fuel 0 []

/-- The function `parse_format`. -/
def parse_format (fuel : Nat) (s : List Nat) : Option parse_t :=
  match parse_trace fuel s with
  | none => none
  | some (result, entries) =>
    if result != 0 then some (parse_t.fail result)
    else some (parse_t.ok (entries.map entry_t.token))

/-- The decimal value of a digit string read left to right from `acc`. -/
def decimal_from (acc : Nat) (w : List Nat) : Nat :=
  w.foldl (fun a d => a * 10 + (d - 48)) acc

/-- The decimal value of a digit string (0 for the empty string). -/
def decimal (w : List Nat) : Nat := decimal_from 0 w

/-- The bytes of the optional assignment-suppression star. -/
def star_bytes (suppress : Bool) : List Nat := if suppress then [42] else []

/-- The bytes that spell a length modifier. -/
def length_bytes : length_t → List Nat
  | length_t.LEN_NONE => []
  | length_t.LEN_HH => [104, 104]
  | length_t.LEN_H => [104]
  | length_t.LEN_L => [108]
  | length_t.LEN_LL => [108, 108]
  | length_t.LEN_CAP_L => [76]

/-- The Conversion token of a directive without scanset. -/
def conversion_token (suppress : Bool) (width : Nat) (length : length_t) (spec : Nat) :
    token_t :=
  { type := token_type_t.TOK_CONV
    lit := none
    lit_len := 0
    is_suppress := suppress
    width := width
    length := length
    spec := spec
    scanset_table := zero_table
    is_scanset_invert := false }

/-- The bytes `t` that can close a directive prefix without being read as part
of it: not a percent, a star, a digit or a length-modifier letter. -/
def closes_directive (t : Nat) : Prop :=
  t ≠ 37 ∧ t ≠ 42 ∧ isdigit t = false ∧ t ≠ 104 ∧ t ≠ 108 ∧ t ≠ 76

/-- The consumed ranges of the entries run contiguously from offset `a` to
offset `b`, each of them non-empty. -/
def contiguous : Nat → List entry_t → Nat → Prop
  | a, [], b => a = b
  | a, e :: es, b => e.start = a ∧ e.start < e.stop ∧ contiguous e.stop es b

/-- The span of a Literal entry against its consumed range: the Literal of the
literal scanner spans exactly the consumed range; the Literal of `%%` (the
consumed range starts at a percent) has a one-byte span at the start of its
two-byte consumed range. -/
def literal_span (s : List Nat) (e : entry_t) : Prop :=
  e.token.type = token_type_t.TOK_LITERAL →
    if byteAt s e.start = 37 then
      e.stop = e.start + 2 ∧ e.token.lit = some e.start ∧ e.token.lit_len = 1
    else e.token.lit = some e.start ∧ e.token.lit_len = e.stop - e.start

/-- The length modifier spelled at the head of the remaining bytes and the
number of bytes it takes, in the words of the specification: longest match in
the fixed priority `hh`, `ll`, then the single bytes `h`, `l`, `L`, else
none. -/
def longest_length_modifier : List Nat → length_t × Nat
  | 104 :: 104 :: _ => (length_t.LEN_HH, 2)
  | 108 :: 108 :: _ => (length_t.LEN_LL, 2)
  | 104 :: _ => (length_t.LEN_H, 1)
  | 108 :: _ => (length_t.LEN_L, 1)
  | 76 :: _ => (length_t.LEN_CAP_L, 1)
  | _ => (length_t.LEN_NONE, 0)

/-- The Whitespace token. -/
def whitespace_token : token_t :=
  { type := token_type_t.TOK_WS
    lit := none
    lit_len := 0
    is_suppress := false
    width := 0
    length := length_t.LEN_NONE
    spec := 0
    scanset_table := zero_table
    is_scanset_invert := false }

/-- The Literal token spanning `len` bytes from offset `start`. -/
def literal_token (start len : Nat) : token_t :=
  { type := token_type_t.TOK_LITERAL
    lit := some start
    lit_len := len
    is_suppress := false
    width := 0
    length := length_t.LEN_NONE
    spec := 0
    scanset_table := zero_table
    is_scanset_invert := false }

/-- The five ways in which one dispatcher iteration produces an entry: a
whitespace run, a literal run, an escaped percent, a directive whose conversion
byte at offset `q` is not `[`, and a scanset directive whose `[` is at offset
`q`. -/
inductive produced (fuel : Nat) (s : List Nat) : entry_t → Prop
  | whitespace (p p1 : Nat) (h : isspace (byteAt s p) = true)
      (hl : whitespace_loop s fuel p = some p1) :
      produced fuel s { start := p, stop := p1, token := whitespace_token }
  | literal (p p1 : Nat) (h0 : byteAt s p ≠ 0) (hsp : isspace (byteAt s p) = false)
      (h37 : byteAt s p ≠ 37) (hl : literal_loop s fuel p = some p1) :
      produced fuel s { start := p, stop := p1, token := literal_token p (p1 - p) }
  | percent (p : Nat) (h1 : byteAt s p = 37) (h2 : byteAt s (p + 1) = 37) :
      produced fuel s { start := p, stop := p + 2, token := literal_token p 1 }
  | conversion (p q : Nat) (sup : Bool) (w : Nat) (m : length_t) (h1 : byteAt s p = 37)
      (hq : p < q) (h0 : byteAt s q ≠ 0) (h91 : byteAt s q ≠ 91) :
      produced fuel s
        { start := p, stop := q + 1, token := conversion_token sup w m (byteAt s q) }
  | scanset (p q p1 : Nat) (sup : Bool) (w : Nat) (m : length_t) (token : token_t)
      (h1 : byteAt s p = 37) (hq : p < q) (h91 : byteAt s q = 91)
      (hs : parse_scanset fuel s (q + 1) = some (scan_t.ok p1 token)) :
      produced fuel s
        { start := p, stop := p1,
          token := { token with is_suppress := sup, width := w, length := m } }

/-- The offsets from `i` of the non-zero cells of a list of cells, in
increasing order. -/
def members_from : Nat → List Nat → List Nat
  | _, [] => []
  | i, c :: cells =>
    if c != 0 then i :: members_from (i + 1) cells else members_from (i + 1) cells

/-- The members of a table, in increasing order. -/
def members (table : List Nat) : List Nat := members_from 0 table

/-! ## The second implementation (`format_parser.h`)

The file `format_parser.h` holds a second copy of the parser whose
`parse_scanset` works in two passes. Its `parse_whitespace`, `parse_literal`,
`parse_length_modifier` and width loop are, statement for statement, those of
`format_parser.c` and are shared with it here. -/

namespace TwoPass

/-- The first pass of `parse_scanset`: `current_ptr` runs to the first `]` or
to the end of the string. -/
def find_loop (s : List Nat) : Nat → Nat → Option Nat
  | 0, _ => none
  | fuel + 1, current_ptr =>
    if byteAt s current_ptr != 0 && byteAt s current_ptr != 93 then
      find_loop s fuel (current_ptr + 1)
    else some current_ptr

/-- The second pass of `parse_scanset`, the loop `while (current_ptr < *p)`;
`p` is the cursor `*p`, which the function has not moved since it set
`start_ptr = *p`. -/
def mark_loop (budget : Nat) (s : List Nat) (p : Nat) :
    Nat → Nat → Bool → List Nat → Option (List Nat)
  | 0, _, _, _ => none
  | fuel + 1, current_ptr, first_char_in_set, table =>
    if current_ptr < p then
      if byteAt s current_ptr == 45 && !first_char_in_set && byteAt s (current_ptr + 1) != 0
          && byteAt s (current_ptr + 1) != 93 then
        let start_char := byteAt s (current_ptr - 1)
        let end_char := byteAt s (current_ptr + 1)
        if start_char ≤ end_char then
          match range_loop budget table start_char end_char with
          | none => none
          | some table1 => mark_loop budget s p fuel (current_ptr + 2) false table1
        else mark_loop budget s p fuel (current_ptr + 2) false table
      else
        mark_loop budget s p fuel (current_ptr + 1) false
          (table.set (byteAt s current_ptr) 1)
    else some table

/-- The function `parse_scanset` of `format_parser.h`. -/
def parse_scanset (fuel : Nat) (s : List Nat) (p : Nat) : Option scan_t :=
  let is_invert := byteAt s p == 94
  let p0 := if byteAt s p == 94 then p + 1 else p
  let start_ptr := p0
  match find_loop s fuel start_ptr with
  | none => none
  | some current_ptr =>
    let result : Int := if byteAt s current_ptr != 93 then -5 else 0
    match mark_loop fuel s p0 fuel start_ptr true zero_table with
    | none => none
    | some table =>
      let p1 := p0 + 1
      if result != 0 then some (scan_t.fail result)
      else
        some (scan_t.ok p1
          { type := token_type_t.TOK_CONV
            lit := none
            lit_len := 0
            is_suppress := false
            width := 0
            length := length_t.LEN_NONE
            spec := 91
            scanset_table := table
            is_scanset_invert := is_invert })

/-- The function `parse_conversion` of `format_parser.h`. -/
def parse_conversion (fuel : Nat) (s : List Nat) (p : Nat) : Option scan_t :=
  if byteAt s p == 0 then some (scan_t.fail (-2))
  else if byteAt s p == 37 then
    some (scan_t.ok (p + 1)
      { type := token_type_t.TOK_LITERAL
        lit := some (p - 1)
        lit_len := 1
        is_suppress := false
        width := 0
        length := length_t.LEN_NONE
        spec := 0
        scanset_table := zero_table
        is_scanset_invert := false })
  else
    let is_suppress := byteAt s p == 42
    let p1 := if byteAt s p == 42 then p + 1 else p
    match width_loop s fuel p1 0 with
    | none => none
    | some (result, p2, width) =>
      if result != 0 then some (scan_t.fail result)
      else
        let (length, p3) := parse_length_modifier s p2
        if byteAt s p3 == 0 then some (scan_t.fail (-4))
        else
          let spec := byteAt s p3
          let p4 := p3 + 1
          if spec == 91 then
            match parse_scanset fuel s p4 with
            | none => none
            | some (scan_t.fail result1) => some (scan_t.fail result1)
            | some (scan_t.ok p5 token) =>
              some (scan_t.ok p5
                { token with is_suppress := is_suppress, width := width, length := length })
          else
            some (scan_t.ok p4
              { type := token_type_t.TOK_CONV
                lit := none
                lit_len := 0
                is_suppress := is_suppress
                width := width
                length := length
                spec := spec
                scanset_table := zero_table
                is_scanset_invert := false })

/-- One dispatch of the loop body of `parse_format` of `format_parser.h`. -/
def dispatch (fuel : Nat) (s : List Nat) (p : Nat) : Option scan_t :=
  if isspace (byteAt s p) then parse_whitespace fuel s p
  else if byteAt s p == 37 then parse_conversion fuel s (p + 1)
  else parse_literal fuel s p

/-- The loop of `parse_format` of `format_parser.h`; a non-zero result frees
the buffer and returns. -/
def format_loop (budget : Nat) (s : List Nat) :
    Nat → Nat → List entry_t → Option (Int × List entry_t)
  | 0, _, _ => none
  | fuel + 1, p, tokens =>
    if byteAt s p != 0 then
      match dispatch budget s p with
      | none => none
      | some (scan_t.fail result) => some (result, [])
      | some (scan_t.ok p1 token) =>
        format_loop budget s fuel p1 (tokens ++ [{ start := p, stop := p1, token := token }])
    else some (0, tokens)

/-- The function `parse_format` of `format_parser.h`. -/
def parse_format (fuel : Nat) (s : List Nat) : Option parse_t :=
  match format_loop fuel s fuel 0 [] with
  | none => none
  | some (result, entries) =>
    if result != 0 then some (parse_t.fail result)
    else some (parse_t.ok (entries.map entry_t.token))

end TwoPass

/-- The marking loop of the ScansetScanner as the specification words it
(section 4.7), run on the bytes from the cursor to the end of the string over
a membership predicate. `slot` is the "previous literal byte" slot and `first`
the "first character processed" flag. A `-` that is not first and is followed
by a byte other than `]` is a range from the slot to that byte; any other byte
is marked and recorded in the slot. With `update = false` a range step leaves
the slot as it is (the wording of the specification); with `update = true` it
records the upper bound of the range in the slot. -/
def reference_loop (update : Bool) :
    List Nat → Option Nat → Bool → (Nat → Bool) → (Nat → Bool)
  | [], _, _, table => table
  | c :: rest, slot, first, table =>
    if c = 93 then table
    else if c = 45 ∧ first = false ∧ rest ≠ [] ∧ rest.headD 0 ≠ 93 then
      match rest with
      | [] => table
      | hi :: rest2 =>
        let lo := slot.getD 0
        reference_loop update rest2 (if update then some hi else slot) false
          (if lo ≤ hi then fun b => table b || (decide (lo ≤ b) && decide (b ≤ hi))
            else table)
    else reference_loop update rest (some c) false (fun b => table b || b == c)

/-- The ScansetScanner of the specification on the bytes after the `[`: the
invert flag of an optional leading `^`, and the membership predicate built by
the marking loop from the empty table, the empty slot and the raised
first-character flag. -/
def reference_scanset (update : Bool) : List Nat → Bool × (Nat → Bool)
  | 94 :: body => (true, reference_loop update body none true (fun _ => false))
  | body => (false, reference_loop update body none true (fun _ => false))

/-- The marking loop of section 4.7 walked over the bytes after the optional
`^`, as in `reference_loop`, to tell whether no range step comes directly
after a reversed range step. `slot` and `first` are those of the loop (the
slot is not updated by a range step) and `reversed` says that the step just
taken was a range whose upper bound is below the slot. -/
def no_range_after_reversed_loop : List Nat → Option Nat → Bool → Bool → Bool
  | [], _, _, _ => true
  | c :: rest, slot, first, reversed =>
    if c = 93 then true
    else if c = 45 ∧ first = false ∧ rest ≠ [] ∧ rest.headD 0 ≠ 93 then
      match rest with
      | [] => true
      | hi :: rest2 =>
        !reversed && no_range_after_reversed_loop rest2 slot false (decide (hi < slot.getD 0))
    else no_range_after_reversed_loop rest (some c) false false

/-- No range step of the scanset that starts the remaining input comes directly
after a reversed range step. -/
def no_range_after_reversed : List Nat → Bool
  | 94 :: body => no_range_after_reversed_loop body none true false
  | body => no_range_after_reversed_loop body none true false

/-- The marking loop of section 4.7 walked over the bytes after the optional
`^` to tell whether no range step has the byte 255 as its upper bound. -/
def no_range_to_255_loop : List Nat → Bool → Bool
  | [], _ => true
  | c :: rest, first =>
    if c = 93 then true
    else if c = 45 ∧ first = false ∧ rest ≠ [] ∧ rest.headD 0 ≠ 93 then
      match rest with
      | [] => true
      | hi :: rest2 => hi != 255 && no_range_to_255_loop rest2 false
    else no_range_to_255_loop rest false

/-- No range step of the scanset that starts the remaining input has the byte
255 as its upper bound. -/
def no_range_to_255 : List Nat → Bool
  | 94 :: body => no_range_to_255_loop body true
  | body => no_range_to_255_loop body true

/-- A token whose span offset is moved one byte to the right. -/
def shift_token (t : token_t) : token_t :=
  { t with lit := t.lit.map (fun l => l + 1) }

/-- A sub-scanner outcome on a string whose bytes from the cursor on are moved
one byte to the right. -/
def shift_scan : scan_t → scan_t
  | scan_t.fail result => scan_t.fail result
  | scan_t.ok p token => scan_t.ok (p + 1) (shift_token token)

/-- Two tokens agree in every field but the span offset `lit`. -/
def same_fields (t1 t2 : token_t) : Prop :=
  t1.type = t2.type ∧ t1.lit_len = t2.lit_len ∧ t1.is_suppress = t2.is_suppress ∧
    t1.width = t2.width ∧ t1.length = t2.length ∧ t1.spec = t2.spec ∧
    t1.scanset_table = t2.scanset_table ∧ t1.is_scanset_invert = t2.is_scanset_invert

/-- Two outcomes of `parse_format` agree: the same failure code, or token
sequences of the same length whose tokens agree in every field but `lit`. -/
def same_result : parse_t → parse_t → Prop
  | parse_t.fail r1, parse_t.fail r2 => r1 = r2
  | parse_t.ok ts1, parse_t.ok ts2 => List.Forall₂ same_fields ts1 ts2
  | _, _ => False

/-- The bytes of `s2` from offset 2 on are those of `s1` from offset 1 on. -/
def shifted (s1 s2 : List Nat) : Prop :=
  ∀ i : Nat, 1 ≤ i → byteAt s2 (i + 1) = byteAt s1 i

/-- The part of `parse_conversion` that follows the width loop, given the
suppress flag and the result code, cursor and width the loop left. -/
def conversion_tail (fuel : Nat) (s : List Nat) (is_suppress : Bool) :
    Int × Nat × Nat → Option scan_t
  | (result, p2, width) =>
    if result != 0 then some (scan_t.fail result)
    else
      let (length, p3) := parse_length_modifier s p2
      if byteAt s p3 == 0 then some (scan_t.fail (-4))
      else
        let spec := byteAt s p3
        let p4 := p3 + 1
        if spec == 91 then
          match parse_scanset fuel s p4 with
          | none => none
          | some (scan_t.fail result1) => some (scan_t.fail result1)
          | some (scan_t.ok p5 token) =>
            some (scan_t.ok p5
              { token with is_suppress := is_suppress, width := width, length := length })
        else
          some (scan_t.ok p4
            { type := token_type_t.TOK_CONV
              lit := none
              lit_len := 0
              is_suppress := is_suppress
              width := width
              length := length
              spec := spec
              scanset_table := zero_table
              is_scanset_invert := false })

/-! ## Reading bytes -/

theorem byteAt_nil (i : Nat) : byteAt [] i = 0 := by
  simp [byteAt]

theorem byteAt_cons_zero (x : Nat) (xs : List Nat) : byteAt (x :: xs) 0 = x := by
  simp [byteAt]

theorem byteAt_cons_succ (x : Nat) (xs : List Nat) (i : Nat) :
    byteAt (x :: xs) (i + 1) = byteAt xs i := by
  simp [byteAt]

theorem byteAt_append_right (pre rest : List Nat) (i : Nat) :
    byteAt (pre ++ rest) (pre.length + i) = byteAt rest i := by
  induction pre with
  | nil => simp
  | cons x xs ih =>
    have : (x :: xs).length + i = (xs.length + i) + 1 := by simp; omega
    rw [List.cons_append, this, byteAt_cons_succ, ih]

theorem byteAt_append_length (pre rest : List Nat) :
    byteAt (pre ++ rest) pre.length = byteAt rest 0 := by
  simpa using byteAt_append_right pre rest 0

theorem byteAt_of_length_le (s : List Nat) (i : Nat) (h : s.length ≤ i) : byteAt s i = 0 := by
  simp [byteAt, List.getElem?_eq_none h]

theorem byteAt_mem (s : List Nat) (i : Nat) (h : i < s.length) : byteAt s i ∈ s := by
  simp [byteAt, List.getElem?_eq_getElem h]

theorem CString.byteAt_pos {s : List Nat} (hs : CString s) {i : Nat} (h : i < s.length) :
    0 < byteAt s i :=
  (hs _ (byteAt_mem s i h)).1

theorem lt_length_of_byteAt_ne_zero {s : List Nat} {i : Nat} (h : byteAt s i ≠ 0) :
    i < s.length := by
  by_contra hlt
  exact h (byteAt_of_length_le s i (by omega))

theorem byteAt_cons_one (x : Nat) (xs : List Nat) : byteAt (x :: xs) 1 = byteAt xs 0 :=
  byteAt_cons_succ x xs 0

theorem SIZE_MAX_eq : SIZE_MAX = 18446744073709551615 := by
  norm_num [SIZE_MAX]

/-! ## The width loop on a digit string -/

theorem le_decimal_from (acc : Nat) (w : List Nat) : acc ≤ decimal_from acc w := by
  induction w generalizing acc with
  | nil => simp [decimal_from]
  | cons d w ih =>
    have h := ih (acc * 10 + (d - 48))
    simp only [decimal_from, List.foldl_cons] at h ⊢
    omega

theorem width_loop_digits (pre w rest : List Nat) (acc fuel : Nat)
    (hw : ∀ d ∈ w, isdigit d = true) (hrest : isdigit (byteAt rest 0) = false)
    (hval : decimal_from acc w ≤ SIZE_MAX) (hfuel : w.length < fuel) :
    width_loop (pre ++ w ++ rest) fuel pre.length acc
      = some (0, pre.length + w.length, decimal_from acc w) := by
  induction w generalizing pre acc fuel with
  | nil =>
    cases fuel with
    | zero => simp at hfuel
    | succ n => simp [width_loop, byteAt_append_length, hrest, decimal_from]
  | cons d w ih =>
    cases fuel with
    | zero => simp at hfuel
    | succ n =>
      have hd : isdigit d = true := hw d (by simp)
      have h1 : byteAt (pre ++ d :: w ++ rest) pre.length = d := by
        rw [List.append_assoc, byteAt_append_length]
        simp [byteAt]
      have hle := le_decimal_from (acc * 10 + (d - 48)) w
      have hval1 : decimal_from (acc * 10 + (d - 48)) w ≤ SIZE_MAX := by
        simpa [decimal_from] using hval
      have hsz := SIZE_MAX_eq
      have hacc : ¬ acc > SIZE_MAX / 10 := by omega
      have hmod : (acc * 10 + (d - 48)) % 2 ^ 64 = acc * 10 + (d - 48) := by
        apply Nat.mod_eq_of_lt
        norm_num
        omega
      have hstr : pre ++ d :: w ++ rest = (pre ++ [d]) ++ w ++ rest := by simp
      have hrec := ih (pre ++ [d]) (acc * 10 + (d - 48)) n
        (fun x hx => hw x (by simp [hx])) hval1 (by simp at hfuel; omega)
      rw [width_loop, h1, hd, if_pos rfl, if_neg hacc, hmod, hstr]
      have hlen : (pre ++ [d]).length = pre.length + 1 := by simp
      rw [hlen] at hrec
      rw [hrec]
      simp [decimal_from]
      omega

theorem parse_length_modifier_bytes (pre tail : List Nat) (m : length_t)
    (h1 : byteAt tail 0 ≠ 104) (h2 : byteAt tail 0 ≠ 108) (h3 : byteAt tail 0 ≠ 76) :
    parse_length_modifier (pre ++ length_bytes m ++ tail) pre.length
      = (m, pre.length + (length_bytes m).length) := by
  rw [List.append_assoc]
  cases m <;>
    simp [parse_length_modifier, length_bytes, byteAt_append_length, byteAt_append_right,
      byteAt_cons_zero, byteAt_cons_one, h1, h2, h3]

theorem isdigit_first_length_byte (m : length_t) (tail : List Nat)
    (ht : isdigit (byteAt tail 0) = false) :
    isdigit (byteAt (length_bytes m ++ tail) 0) = false := by
  cases m
  case LEN_NONE => simpa [length_bytes] using ht
  all_goals simp [length_bytes, byteAt_cons_zero, isdigit]

theorem first_directive_byte (sup : Bool) (w tail : List Nat) (m : length_t)
    (hw : ∀ d ∈ w, isdigit d = true) (ht : closes_directive (byteAt tail 0))
    (hne : sup = true ∨ w ≠ [] ∨ m ≠ length_t.LEN_NONE ∨ byteAt tail 0 ≠ 0) :
    byteAt (star_bytes sup ++ (w ++ (length_bytes m ++ tail))) 0 ≠ 0 ∧
    byteAt (star_bytes sup ++ (w ++ (length_bytes m ++ tail))) 0 ≠ 37 ∧
    (byteAt (star_bytes sup ++ (w ++ (length_bytes m ++ tail))) 0 == 42) = sup := by
  obtain ⟨t1, t2, _, _, _, _⟩ := ht
  cases sup with
  | true => simp [star_bytes, byteAt_cons_zero]
  | false =>
    cases w with
    | cons d w =>
      have hd : isdigit d = true := hw d (by simp)
      simp only [isdigit, Bool.and_eq_true, decide_eq_true_eq] at hd
      simp only [star_bytes, Bool.false_eq_true, if_false, List.nil_append, List.cons_append,
        byteAt_cons_zero, beq_eq_false_iff_ne]
      omega
    | nil =>
      cases m <;> simp_all [star_bytes, length_bytes, byteAt_cons_zero]

theorem parse_conversion_steps (fuel : Nat) (s : List Nat) (p p2 p3 width : Nat) (sup : Bool)
    (m : length_t) (h0 : byteAt s p ≠ 0) (h37 : byteAt s p ≠ 37)
    (h42 : (byteAt s p == 42) = sup)
    (hwl : width_loop s fuel (if sup = true then p + 1 else p) 0 = some (0, p2, width))
    (hlm : parse_length_modifier s p2 = (m, p3)) (h91 : byteAt s p3 ≠ 91) :
    parse_conversion fuel s p
      = if byteAt s p3 = 0 then some (scan_t.fail (-4))
        else some (scan_t.ok (p3 + 1) (conversion_token sup width m (byteAt s p3))) := by
  subst h42
  simp only [beq_iff_eq] at hwl
  unfold parse_conversion
  simp only [beq_iff_eq, h0, h37, if_false, hwl, bne_self_eq_false, Bool.false_eq_true, hlm,
    h91, conversion_token]

theorem parse_conversion_directive (pre tail w : List Nat) (sup : Bool) (m : length_t)
    (fuel : Nat) (hw : ∀ d ∈ w, isdigit d = true) (hval : decimal w ≤ SIZE_MAX)
    (hfuel : w.length < fuel) (ht : closes_directive (byteAt tail 0))
    (h91 : byteAt tail 0 ≠ 91)
    (hne : sup = true ∨ w ≠ [] ∨ m ≠ length_t.LEN_NONE ∨ byteAt tail 0 ≠ 0) :
    parse_conversion fuel (pre ++ star_bytes sup ++ w ++ length_bytes m ++ tail) pre.length
      = if byteAt tail 0 = 0 then some (scan_t.fail (-4))
        else some (scan_t.ok
          (pre.length + (star_bytes sup).length + w.length + (length_bytes m).length + 1)
          (conversion_token sup (decimal w) m (byteAt tail 0))) := by
  obtain ⟨f0, f37, f42⟩ := first_directive_byte sup w tail m hw ht hne
  have hb : byteAt (pre ++ star_bytes sup ++ w ++ length_bytes m ++ tail) pre.length
      = byteAt (star_bytes sup ++ (w ++ (length_bytes m ++ tail))) 0 := by
    simp only [List.append_assoc]
    exact byteAt_append_length _ _
  have hp1 : (if sup = true then pre.length + 1 else pre.length)
      = (pre ++ star_bytes sup).length := by
    cases sup <;> simp [star_bytes]
  have hwl := width_loop_digits (pre ++ star_bytes sup) w (length_bytes m ++ tail) 0 fuel hw
    (isdigit_first_length_byte m tail ht.2.2.1) hval hfuel
  have hlm := parse_length_modifier_bytes (pre ++ star_bytes sup ++ w) tail m
    ht.2.2.2.1 ht.2.2.2.2.1 ht.2.2.2.2.2
  have ht0 : byteAt (pre ++ star_bytes sup ++ w ++ length_bytes m ++ tail)
      ((pre ++ star_bytes sup ++ w).length + (length_bytes m).length) = byteAt tail 0 := by
    have := byteAt_append_length (pre ++ star_bytes sup ++ w ++ length_bytes m) tail
    simpa [Nat.add_assoc] using this
  simp only [← List.append_assoc] at hwl
  have hlen : (pre ++ star_bytes sup).length + w.length = (pre ++ star_bytes sup ++ w).length :=
    (List.length_append _ _).symm
  rw [hlen] at hwl
  rw [← hb] at f0 f37 f42
  rw [← hp1] at hwl
  have key := parse_conversion_steps fuel _ _ _ _ _ sup m f0 f37 f42 hwl hlm (by rw [ht0]; exact h91)
  rw [key, ht0]
  simp [decimal, Nat.add_assoc]

/-! ## The dispatcher loop -/

theorem format_loop_fail (budget fuel : Nat) (s : List Nat) (p : Nat) (acc : List entry_t)
    (result : Int) (h0 : byteAt s p ≠ 0) (hd : dispatch budget s p = some (scan_t.fail result)) :
    format_loop budget s (fuel + 1) p acc = some (result, []) := by
  simp [format_loop, h0, hd]

theorem format_loop_last (budget fuel : Nat) (s : List Nat) (p p1 : Nat) (acc : List entry_t)
    (token : token_t) (h0 : byteAt s p ≠ 0)
    (hd : dispatch budget s p = some (scan_t.ok p1 token)) (h1 : byteAt s p1 = 0) :
    format_loop budget s (fuel + 2) p acc
      = some (0, acc ++ [{ start := p, stop := p1, token := token }]) := by
  simp [format_loop, h0, hd, h1]

theorem parse_format_of_trace (fuel : Nat) (s : List Nat) (entries : List entry_t)
    (h : parse_trace fuel s = some (0, entries)) :
    parse_format fuel s = some (parse_t.ok (entries.map entry_t.token)) := by
  simp [parse_format, h]

theorem parse_format_of_trace_fail (fuel : Nat) (s : List Nat) (result : Int)
    (entries : List entry_t) (hr : result ≠ 0)
    (h : parse_trace fuel s = some (result, entries)) :
    parse_format fuel s = some (parse_t.fail result) := by
  simp [parse_format, h, hr]

theorem closes_directive_zero : closes_directive 0 := by
  simp [closes_directive, isdigit]

/-! ## Directives without scanset -/

/-- C1: a directive `%`, optional `*`, an in-range digit string `w`, a length
modifier `m` and a conversion byte `c` that is none of NUL, `[`, `%`, `*`, a
digit, `h`, `l`, `L` parses to exactly one Conversion token carrying the
suppress flag, the decimal value of `w`, `m` and `c`, with an all-zero table
and no inversion. -/
theorem parse_format_plain_directive (fuel : Nat) (sup : Bool) (w : List Nat) (m : length_t)
    (c : Nat) (hw : ∀ d ∈ w, isdigit d = true) (hval : decimal w ≤ SIZE_MAX)
    (hc : c ≠ 0 ∧ c ≠ 91 ∧ c ≠ 37 ∧ c ≠ 42 ∧ isdigit c = false ∧ c ≠ 104 ∧ c ≠ 108 ∧ c ≠ 76)
    (hfuel : w.length + 2 ≤ fuel) :
    parse_format fuel ([37] ++ star_bytes sup ++ w ++ length_bytes m ++ [c])
      = some (parse_t.ok
          [{ type := token_type_t.TOK_CONV
             lit := none
             lit_len := 0
             is_suppress := sup
             width := decimal w
             length := m
             spec := c
             scanset_table := List.replicate 256 0
             is_scanset_invert := false }]) := by
  obtain ⟨c0, c91, c37, c42, cdig, c104, c108, c76⟩ := hc
  have hconv := parse_conversion_directive [37] [c] w sup m fuel hw hval (by omega)
    (by simp [closes_directive, byteAt_cons_zero, *]) (by simpa [byteAt_cons_zero] using c91)
    (by simp [byteAt_cons_zero, c0])
  simp only [byteAt_cons_zero, c0, if_false] at hconv
  obtain ⟨n, rfl⟩ : ∃ n, fuel = n + 2 := ⟨fuel - 2, by omega⟩
  have hs0 : byteAt ([37] ++ star_bytes sup ++ w ++ length_bytes m ++ [c]) 0 = 37 := by
    simp [List.append_assoc, byteAt_cons_zero]
  have hd : dispatch (n + 2) ([37] ++ star_bytes sup ++ w ++ length_bytes m ++ [c]) 0
      = some (scan_t.ok
          ([37].length + (star_bytes sup).length + w.length + (length_bytes m).length + 1)
          (conversion_token sup (decimal w) m c)) := by
    rw [dispatch, hs0]
    simpa [isspace] using hconv
  have hend : byteAt ([37] ++ star_bytes sup ++ w ++ length_bytes m ++ [c])
      ([37].length + (star_bytes sup).length + w.length + (length_bytes m).length + 1) = 0 := by
    apply byteAt_of_length_le
    simp
    omega
  have htr := format_loop_last (n + 2) n _ 0 _ [] _ (by rw [hs0]; decide) hd hend
  rw [parse_format_of_trace (n + 2) _ _ htr]
  rfl

/-- C1, instance `"%*5lld"`: suppress, width 5, length LL, spec `d`. -/
theorem parse_format_plain_directive_witness :
    parse_format 8 [37, 42, 53, 108, 108, 100]
      = some (parse_t.ok
          [{ type := token_type_t.TOK_CONV
             lit := none
             lit_len := 0
             is_suppress := true
             width := 5
             length := length_t.LEN_LL
             spec := 100
             scanset_table := List.replicate 256 0
             is_scanset_invert := false }]) :=
  parse_format_plain_directive 8 true [53] length_t.LEN_LL 100 (by decide) (by decide)
    (by decide) (by decide)

/-! ## Plain text -/

theorem literal_loop_plain (s : List Nat) (k p fuel : Nat) (hk : p + k = s.length)
    (hfuel : k < fuel) (hplain : ∀ b ∈ s, b ≠ 0 ∧ b ≠ 37 ∧ isspace b = false) :
    literal_loop s fuel p = some s.length := by
  induction k generalizing p fuel with
  | zero =>
    cases fuel with
    | zero => omega
    | succ n =>
      have h0 : byteAt s p = 0 := byteAt_of_length_le s p (by omega)
      have hp : p = s.length := by omega
      rw [literal_loop, h0]
      simp [hp]
  | succ k ih =>
    cases fuel with
    | zero => omega
    | succ n =>
      obtain ⟨b0, b37, bsp⟩ := hplain _ (byteAt_mem s p (by omega))
      have hcond : (byteAt s p != 0 && !isspace (byteAt s p) && byteAt s p != 37) = true := by
        simp [b0, b37, bsp]
      rw [literal_loop, if_pos hcond]
      exact ih (p + 1) n (by omega) (by omega)

/-- C2, counterexample: the empty input has no `%` and no whitespace byte, and
parses to the empty token sequence, not to one Literal token. -/
theorem parse_format_empty_input :
    parse_format 1 [] = some (parse_t.ok []) ∧
      (∀ b ∈ ([] : List Nat), b ≠ 37 ∧ isspace b = false) ∧
      ∀ (fuel : Nat) (t : token_t), parse_format fuel [] ≠ some (parse_t.ok [t]) := by
  refine ⟨by decide, by simp, ?_⟩
  intro fuel t
  cases fuel with
  | zero => simp [parse_format, parse_trace, format_loop]
  | succ n => simp [parse_format, parse_trace, format_loop, byteAt_nil]

/-- C2, amended: a non-empty C string with no `%` and no whitespace byte parses
to exactly one Literal token whose span starts at offset 0 and has the length
of the whole input. -/
theorem parse_format_plain_text (fuel : Nat) (s : List Nat) (hs : CString s) (hne : s ≠ [])
    (hplain : ∀ b ∈ s, b ≠ 37 ∧ isspace b = false) (hfuel : s.length + 1 ≤ fuel) :
    parse_format fuel s
      = some (parse_t.ok
          [{ type := token_type_t.TOK_LITERAL
             lit := some 0
             lit_len := s.length
             is_suppress := false
             width := 0
             length := length_t.LEN_NONE
             spec := 0
             scanset_table := List.replicate 256 0
             is_scanset_invert := false }]) := by
  have hlen : 0 < s.length := List.length_pos.mpr hne
  obtain ⟨n, rfl⟩ : ∃ n, fuel = n + 2 := ⟨fuel - 2, by omega⟩
  have hall : ∀ b ∈ s, b ≠ 0 ∧ b ≠ 37 ∧ isspace b = false := fun b hb =>
    ⟨by have := (hs b hb).1; omega, (hplain b hb).1, (hplain b hb).2⟩
  obtain ⟨b0, b37, bsp⟩ := hall _ (byteAt_mem s 0 hlen)
  have hloop := literal_loop_plain s s.length 0 (n + 2) (by omega) (by omega) hall
  have hd : dispatch (n + 2) s 0 = some (scan_t.ok s.length
      { type := token_type_t.TOK_LITERAL
        lit := some 0
        lit_len := s.length
        is_suppress := false
        width := 0
        length := length_t.LEN_NONE
        spec := 0
        scanset_table := zero_table
        is_scanset_invert := false }) := by
    simp [dispatch, bsp, b37, parse_literal, hloop]
  have htr := format_loop_last (n + 2) n s 0 s.length [] _ b0 hd
    (byteAt_of_length_le s _ (le_refl _))
  rw [parse_format_of_trace (n + 2) _ _ htr]
  rfl

/-- C2, amended, instance `"abc"`. -/
theorem parse_format_plain_text_witness :
    parse_format 4 [97, 98, 99]
      = some (parse_t.ok
          [{ type := token_type_t.TOK_LITERAL
             lit := some 0
             lit_len := 3
             is_suppress := false
             width := 0
             length := length_t.LEN_NONE
             spec := 0
             scanset_table := List.replicate 256 0
             is_scanset_invert := false }]) :=
  parse_format_plain_text 4 [97, 98, 99] (by decide) (by decide) (by decide) (by decide)

/-! ## More fuel never changes a result -/

theorem whitespace_loop_mono (s : List Nat) {f g p r : Nat}
    (h : whitespace_loop s f p = some r) (hle : f ≤ g) : whitespace_loop s g p = some r := by
  induction f generalizing g p with
  | zero => simp [whitespace_loop] at h
  | succ n ih =>
    cases g with
    | zero => omega
    | succ k =>
      rw [whitespace_loop] at h ⊢
      split at h
      · rename_i hc
        rw [if_pos hc]
        exact ih h (by omega)
      · rename_i hc
        rw [if_neg hc]
        exact h

theorem literal_loop_mono (s : List Nat) {f g p r : Nat}
    (h : literal_loop s f p = some r) (hle : f ≤ g) : literal_loop s g p = some r := by
  induction f generalizing g p with
  | zero => simp [literal_loop] at h
  | succ n ih =>
    cases g with
    | zero => omega
    | succ k =>
      rw [literal_loop] at h ⊢
      split at h
      · rename_i hc
        rw [if_pos hc]
        exact ih h (by omega)
      · rename_i hc
        rw [if_neg hc]
        exact h

theorem width_loop_mono (s : List Nat) {f g p width : Nat} {r : Int × Nat × Nat}
    (h : width_loop s f p width = some r) (hle : f ≤ g) : width_loop s g p width = some r := by
  induction f generalizing g p width with
  | zero => simp [width_loop] at h
  | succ n ih =>
    cases g with
    | zero => omega
    | succ k =>
      rw [width_loop] at h ⊢
      split at h
      · rename_i hc
        rw [if_pos hc]
        split at h
        · rename_i hw
          rw [if_pos hw]
          exact h
        · rename_i hw
          rw [if_neg hw]
          exact ih h (by omega)
      · rename_i hc
        rw [if_neg hc]
        exact h

theorem range_loop_mono {f g c e : Nat} {table r : List Nat}
    (h : range_loop f table c e = some r) (hle : f ≤ g) : range_loop g table c e = some r := by
  induction f generalizing g c table with
  | zero => simp [range_loop] at h
  | succ n ih =>
    cases g with
    | zero => omega
    | succ k =>
      rw [range_loop] at h ⊢
      split at h
      · rename_i hc
        rw [if_pos hc]
        exact ih h (by omega)
      · rename_i hc
        rw [if_neg hc]
        exact h

theorem scanset_loop_mono (s : List Nat) {b b1 f g p : Nat} {first_char : Bool}
    {table : List Nat} {r : Nat × List Nat}
    (h : scanset_loop b s f p first_char table = some r) (hb : b ≤ b1) (hle : f ≤ g) :
    scanset_loop b1 s g p first_char table = some r := by
  induction f generalizing g p first_char table with
  | zero => simp [scanset_loop] at h
  | succ n ih =>
    cases g with
    | zero => omega
    | succ k =>
      rw [scanset_loop] at h ⊢
      split at h
      · rename_i hc
        rw [if_pos hc]
        split at h
        · rename_i hr
          rw [if_pos hr]
          simp only at h ⊢
          split at h
          · rename_i hse
            rw [if_pos hse]
            cases hrl : range_loop b table (byteAt s (p - 1)) (byteAt s (p + 1)) with
            | none =>
              rw [hrl] at h
              cases h
            | some t1 =>
              rw [hrl] at h
              rw [range_loop_mono hrl hb]
              exact ih h (by omega)
          · rename_i hse
            rw [if_neg hse]
            exact ih h (by omega)
        · rename_i hr
          rw [if_neg hr]
          exact ih h (by omega)
      · rename_i hc
        rw [if_neg hc]
        exact h

theorem parse_scanset_mono (s : List Nat) {f g p : Nat} {r : scan_t}
    (h : parse_scanset f s p = some r) (hle : f ≤ g) : parse_scanset g s p = some r := by
  unfold parse_scanset at h ⊢
  simp only at h ⊢
  cases hl : scanset_loop f s f (if (byteAt s p == 94) = true then p + 1 else p) true zero_table with
  | none =>
    rw [hl] at h
    cases h
  | some r1 =>
    rw [hl] at h
    rw [scanset_loop_mono s hl hle hle]
    exact h

theorem parse_conversion_mono (s : List Nat) {f g p : Nat} {r : scan_t}
    (h : parse_conversion f s p = some r) (hle : f ≤ g) : parse_conversion g s p = some r := by
  unfold parse_conversion at h ⊢
  split at h
  · rename_i h0
    rw [if_pos h0]
    exact h
  · rename_i h0
    rw [if_neg h0]
    split at h
    · rename_i h37
      rw [if_pos h37]
      exact h
    · rename_i h37
      rw [if_neg h37]
      simp only at h ⊢
      cases hw : width_loop s f (if (byteAt s p == 42) = true then p + 1 else p) 0 with
      | none =>
        rw [hw] at h
        cases h
      | some r1 =>
        obtain ⟨res, p2, width⟩ := r1
        rw [hw] at h
        rw [width_loop_mono s hw hle]
        simp only at h ⊢
        split at h
        · rename_i hres
          rw [if_pos hres]
          exact h
        · rename_i hres
          rw [if_neg hres]
          split at h
          · rename_i hz
            rw [if_pos hz]
            exact h
          · rename_i hz
            rw [if_neg hz]
            split at h
            · rename_i hsp
              rw [if_pos hsp]
              cases hps : parse_scanset f s ((parse_length_modifier s p2).2 + 1) with
              | none =>
                rw [hps] at h
                cases h
              | some r2 =>
                rw [hps] at h
                rw [parse_scanset_mono s hps hle]
                exact h
            · rename_i hsp
              rw [if_neg hsp]
              exact h

theorem dispatch_mono (s : List Nat) {f g p : Nat} {r : scan_t}
    (h : dispatch f s p = some r) (hle : f ≤ g) : dispatch g s p = some r := by
  unfold dispatch at h ⊢
  split at h
  · rename_i hc
    rw [if_pos hc]
    unfold parse_whitespace at h ⊢
    cases hl : whitespace_loop s f p with
    | none =>
      rw [hl] at h
      cases h
    | some p1 =>
      rw [hl] at h
      rw [whitespace_loop_mono s hl hle]
      exact h
  · rename_i hc
    rw [if_neg hc]
    split at h
    · rename_i h37
      rw [if_pos h37]
      exact parse_conversion_mono s h hle
    · rename_i h37
      rw [if_neg h37]
      unfold parse_literal at h ⊢
      simp only at h ⊢
      cases hl : literal_loop s f p with
      | none =>
        rw [hl] at h
        cases h
      | some p1 =>
        rw [hl] at h
        rw [literal_loop_mono s hl hle]
        exact h

theorem format_loop_mono (s : List Nat) {b b1 f g p : Nat} {acc : List entry_t}
    {r : Int × List entry_t} (h : format_loop b s f p acc = some r) (hb : b ≤ b1)
    (hle : f ≤ g) : format_loop b1 s g p acc = some r := by
  induction f generalizing g p acc with
  | zero => simp [format_loop] at h
  | succ n ih =>
    cases g with
    | zero => omega
    | succ k =>
      rw [format_loop] at h ⊢
      split at h
      · rename_i hc
        rw [if_pos hc]
        cases hd : dispatch b s p with
        | none =>
          rw [hd] at h
          cases h
        | some r1 =>
          rw [hd] at h
          rw [dispatch_mono s hd hb]
          cases r1 with
          | fail res => exact h
          | ok p1 token => exact ih h (by omega)
      · rename_i hc
        rw [if_neg hc]
        exact h

/-- A result of `parse_format` is the same at every larger fuel. -/
theorem parse_format_mono (s : List Nat) {f g : Nat} {r : parse_t}
    (h : parse_format f s = some r) (hle : f ≤ g) : parse_format g s = some r := by
  unfold parse_format at h ⊢
  cases ht : parse_trace f s with
  | none =>
    rw [ht] at h
    cases h
  | some r1 =>
    rw [ht] at h
    unfold parse_trace at ht ⊢
    rw [format_loop_mono s ht hle hle]
    exact h

/-! ## Width accumulation -/

/-- C3: the width digits `18446744073709551616` denote `SIZE_MAX + 1`, yet the
directive `%18446744073709551616d` is accepted and its token carries width 0:
the multiply-add of the last digit wraps modulo `2 ^ 64`. -/
theorem parse_format_width_wraps (fuel : Nat) (hfuel : 22 ≤ fuel) :
    decimal [49, 56, 52, 52, 54, 55, 52, 52, 48, 55, 51, 55, 48, 57, 53, 53, 49, 54, 49, 54]
        = SIZE_MAX + 1 ∧
      parse_format fuel
          [37, 49, 56, 52, 52, 54, 55, 52, 52, 48, 55, 51, 55, 48, 57, 53, 53, 49, 54, 49, 54, 100]
        = some (parse_t.ok
            [{ type := token_type_t.TOK_CONV
               lit := none
               lit_len := 0
               is_suppress := false
               width := 0
               length := length_t.LEN_NONE
               spec := 100
               scanset_table := List.replicate 256 0
               is_scanset_invert := false }]) := by
  refine ⟨by decide, parse_format_mono _ ?_ hfuel⟩
  rfl

/-- C3, at the least sufficient fuel. -/
theorem parse_format_width_wraps_witness :
    22 ≤ 22 ∧
      parse_format 22
          [37, 49, 56, 52, 52, 54, 55, 52, 52, 48, 55, 51, 55, 48, 57, 53, 53, 49, 54, 49, 54, 100]
        = some (parse_t.ok
            [{ type := token_type_t.TOK_CONV
               lit := none
               lit_len := 0
               is_suppress := false
               width := 0
               length := length_t.LEN_NONE
               spec := 100
               scanset_table := List.replicate 256 0
               is_scanset_invert := false }]) :=
  ⟨by decide, (parse_format_width_wraps 22 (by decide)).2⟩

/-! ## The range loop with upper bound 255 -/

theorem range_loop_255 (fuel : Nat) (table : List Nat) (c : Nat) (hc : c ≤ 255) :
    range_loop fuel table c 255 = none := by
  induction fuel generalizing table c with
  | zero => rfl
  | succ n ih =>
    rw [range_loop, if_pos hc]
    exact ih _ _ (by omega)

theorem scanset_loop_range_255 (budget fuel : Nat) (s : List Nat) (p : Nat) (table : List Nat)
    (h45 : byteAt s p = 45) (h255 : byteAt s (p + 1) = 255) (hlo : byteAt s (p - 1) ≤ 255) :
    scanset_loop budget s fuel p false table = none := by
  cases fuel with
  | zero => rfl
  | succ n =>
    rw [scanset_loop]
    simp [h45, h255, hlo, range_loop_255]

theorem parse_format_range_255 (fuel lo : Nat) (hlo : lo ≤ 255) (h0 : lo ≠ 0) (h93 : lo ≠ 93)
    (h94 : lo ≠ 94) : parse_format fuel [37, 91, lo, 45, 255, 93] = none := by
  cases fuel with
  | zero => rfl
  | succ n =>
    have hloop : scanset_loop (n + 1) [37, 91, lo, 45, 255, 93] n 3 false (zero_table.set lo 1)
        = none :=
      scanset_loop_range_255 _ _ _ 3 _ (by simp [byteAt]) (by simp [byteAt])
        (by simpa [byteAt] using hlo)
    simp [parse_format, parse_trace, format_loop, dispatch, parse_conversion, width_loop,
      parse_length_modifier, parse_scanset, scanset_loop, byteAt, isspace, isdigit, h0, h93, h94,
      hloop]

/-- C4: on the input `%[a-\xff]` no amount of fuel lets `parse_format` return:
the range loop `for (unsigned char c = start; c <= end; c++)` never exits when
`end` is 255. -/
theorem parse_format_diverges (fuel : Nat) :
    parse_format fuel [37, 91, 97, 45, 255, 93] = none :=
  parse_format_range_255 fuel 97 (by decide) (by decide) (by decide) (by decide)

/-- C6: entered on the remaining input `a-\xff]`, which contains a `]`, the
scanset scanner neither succeeds nor fails at any fuel; and on `a-\xff`, which
contains none, it does not fail with -5 either. -/
theorem parse_scanset_diverges :
    93 ∈ [97, 45, 255, 93] ∧
      (∀ fuel : Nat, parse_scanset fuel ([37, 91] ++ [97, 45, 255, 93]) 2 = none) ∧
      93 ∉ [97, 45, 255] ∧
      (∀ fuel : Nat, parse_scanset fuel ([37, 91] ++ [97, 45, 255]) 2 = none) := by
  refine ⟨by decide, ?_, by decide, ?_⟩
  · intro fuel
    cases fuel with
    | zero => rfl
    | succ n =>
      have hloop : scanset_loop (n + 1) [37, 91, 97, 45, 255, 93] n 3 false (zero_table.set 97 1)
          = none :=
        scanset_loop_range_255 _ _ _ 3 _ (by simp [byteAt]) (by simp [byteAt]) (by simp [byteAt])
      simp [parse_scanset, scanset_loop, byteAt, hloop]
  · intro fuel
    cases fuel with
    | zero => rfl
    | succ n =>
      have hloop : scanset_loop (n + 1) [37, 91, 97, 45, 255] n 3 false (zero_table.set 97 1)
          = none :=
        scanset_loop_range_255 _ _ _ 3 _ (by simp [byteAt]) (by simp [byteAt]) (by simp [byteAt])
      simp [parse_scanset, scanset_loop, byteAt, hloop]

/-- C8: for every admissible lower bound `lo`, the range `lo-\xff` makes
`parse_format` diverge on `%[lo-\xff]` instead of returning a table with the
members `lo..255`. -/
theorem parse_format_range_upper_255 (fuel lo : Nat) (hlo : lo ≤ 255) (h0 : lo ≠ 0)
    (h93 : lo ≠ 93) (h94 : lo ≠ 94) :
    parse_format fuel ([37, 91] ++ [lo] ++ [45] ++ [255] ++ [93]) = none :=
  parse_format_range_255 fuel lo hlo h0 h93 h94

/-- C8, instance `%[0-\xff]`. -/
theorem parse_format_range_upper_255_witness :
    parse_format 300 [37, 91, 48, 45, 255, 93] = none :=
  parse_format_range_upper_255 300 48 (by decide) (by decide) (by decide) (by decide)

/-! ## Directives cut short by the end of the string -/

/-- C7, counterexample: the bare `%` fails with code -2, but `%*` fails with
the different code -4. -/
theorem parse_format_end_codes_differ :
    parse_format 2 [37] = some (parse_t.fail (-2)) ∧
      parse_format 2 [37, 42] = some (parse_t.fail (-4)) ∧
      parse_format 2 [37, 42] ≠ parse_format 2 [37] := by
  decide

/-- C7, amended: an input made of `%`, an optional `*`, an in-range digit
string and an optional length modifier, with nothing after it, fails with code
-2 when nothing at all follows the `%`, and with code -4 otherwise. -/
theorem parse_format_cut_short (fuel : Nat) (sup : Bool) (w : List Nat) (m : length_t)
    (hw : ∀ d ∈ w, isdigit d = true) (hval : decimal w ≤ SIZE_MAX)
    (hfuel : w.length + 1 ≤ fuel) :
    parse_format fuel ([37] ++ star_bytes sup ++ w ++ length_bytes m)
      = some (parse_t.fail
          (if sup = false ∧ w = [] ∧ m = length_t.LEN_NONE then -2 else -4)) := by
  obtain ⟨n, rfl⟩ : ∃ n, fuel = n + 1 := ⟨fuel - 1, by omega⟩
  by_cases hall : sup = false ∧ w = [] ∧ m = length_t.LEN_NONE
  · obtain ⟨rfl, rfl, rfl⟩ := hall
    simp [parse_format, parse_trace, format_loop, dispatch, parse_conversion, byteAt, isspace,
      star_bytes, length_bytes]
  · have hne : sup = true ∨ w ≠ [] ∨ m ≠ length_t.LEN_NONE ∨ byteAt [] 0 ≠ 0 := by
      cases sup
      · by_cases hw0 : w = []
        · by_cases hm : m = length_t.LEN_NONE
          · exact absurd ⟨rfl, hw0, hm⟩ hall
          · exact Or.inr (Or.inr (Or.inl hm))
        · exact Or.inr (Or.inl hw0)
      · exact Or.inl rfl
    have hconv := parse_conversion_directive [37] [] w sup m (n + 1) hw hval (by omega)
      (by rw [byteAt_nil]; exact closes_directive_zero) (by rw [byteAt_nil]; decide) hne
    rw [byteAt_nil, if_pos rfl, List.append_nil] at hconv
    have hs0 : byteAt ([37] ++ star_bytes sup ++ w ++ length_bytes m) 0 = 37 := by
      simp [List.append_assoc, byteAt_cons_zero]
    have hd : dispatch (n + 1) ([37] ++ star_bytes sup ++ w ++ length_bytes m) 0
        = some (scan_t.fail (-4)) := by
      rw [dispatch, hs0]
      simpa [isspace] using hconv
    have htr := format_loop_fail (n + 1) n _ 0 [] (-4) (by rw [hs0]; decide) hd
    rw [parse_format_of_trace_fail (n + 1) _ (-4) [] (by decide) htr, if_neg hall]

/-- C7, amended, instance `"%*10ll"`: code -4. -/
theorem parse_format_cut_short_witness :
    parse_format 3 [37, 42, 49, 48, 108, 108] = some (parse_t.fail (-4)) :=
  parse_format_cut_short 3 true [49, 48] length_t.LEN_LL (by decide) (by decide) (by decide)

/-! ## Scansets -/

/-- C9: on `%[^]]` the scanset loop stops at the first `]`, so the directive is
the inverted scanset with an empty table, ended after four bytes, and the
fifth byte `]` becomes a Literal token of its own. -/
theorem parse_format_inverted_bracket (fuel : Nat) (hfuel : 3 ≤ fuel) :
    parse_format fuel [37, 91, 94, 93, 93]
      = some (parse_t.ok
          [{ type := token_type_t.TOK_CONV
             lit := none
             lit_len := 0
             is_suppress := false
             width := 0
             length := length_t.LEN_NONE
             spec := 91
             scanset_table := List.replicate 256 0
             is_scanset_invert := true },
           { type := token_type_t.TOK_LITERAL
             lit := some 4
             lit_len := 1
             is_suppress := false
             width := 0
             length := length_t.LEN_NONE
             spec := 0
             scanset_table := List.replicate 256 0
             is_scanset_invert := false }]) := by
  refine parse_format_mono _ ?_ hfuel
  rfl

/-- C9, at the least sufficient fuel. -/
theorem parse_format_inverted_bracket_witness :
    3 ≤ 3 ∧ parse_format 3 [37, 91, 94, 93, 93]
      = some (parse_t.ok
          [{ type := token_type_t.TOK_CONV
             lit := none
             lit_len := 0
             is_suppress := false
             width := 0
             length := length_t.LEN_NONE
             spec := 91
             scanset_table := List.replicate 256 0
             is_scanset_invert := true },
           { type := token_type_t.TOK_LITERAL
             lit := some 4
             lit_len := 1
             is_suppress := false
             width := 0
             length := length_t.LEN_NONE
             spec := 0
             scanset_table := List.replicate 256 0
             is_scanset_invert := false }]) :=
  ⟨by decide, parse_format_inverted_bracket 3 (by decide)⟩

theorem zero_table_length : zero_table.length = 256 :=
  List.length_replicate _ _

theorem member_zero_table (b : Nat) : member zero_table b = false := by
  simp only [member, zero_table, List.getD_eq_getElem?_getD, List.getElem?_replicate]
  split <;> simp

theorem member_set (table : List Nat) (i j : Nat) :
    member (table.set i 1) j = (decide (i = j ∧ i < table.length) || member table j) := by
  simp only [member, List.getD_eq_getElem?_getD, List.getElem?_set]
  by_cases hij : i = j
  · subst hij
    by_cases hlt : i < table.length
    · simp [hlt]
    · simp [hlt, List.getElem?_eq_none (not_lt.mp hlt)]
  · simp [hij]

/-- C10: a reversed range `lo-hi` with `lo > hi` is no failure and marks
nothing: `%[lo-hi]` parses to one scanset Conversion token whose table has `lo`
as its only member (so no byte other than `lo` and `hi` is a member). -/
theorem parse_format_reversed_range (fuel lo hi : Nat) (hlt : hi < lo) (hlo : lo < 256)
    (h93 : lo ≠ 93) (h94 : lo ≠ 94) (hhi0 : hi ≠ 0) (hhi93 : hi ≠ 93) (hfuel : 3 ≤ fuel) :
    parse_format fuel ([37, 91] ++ [lo] ++ [45] ++ [hi] ++ [93])
        = some (parse_t.ok
            [{ type := token_type_t.TOK_CONV
               lit := none
               lit_len := 0
               is_suppress := false
               width := 0
               length := length_t.LEN_NONE
               spec := 91
               scanset_table := zero_table.set lo 1
               is_scanset_invert := false }]) ∧
      member (zero_table.set lo 1) lo = true ∧
      ∀ b : Nat, b ≠ lo → member (zero_table.set lo 1) b = false := by
  have hlo0 : lo ≠ 0 := by omega
  have hnle : ¬ lo ≤ hi := by omega
  obtain ⟨n, rfl⟩ : ∃ n, fuel = n + 3 := ⟨fuel - 3, by omega⟩
  refine ⟨?_, ?_, ?_⟩
  · simp [parse_format, parse_trace, format_loop, dispatch, parse_conversion, width_loop,
      parse_length_modifier, parse_scanset, scanset_loop, byteAt, isspace, isdigit, hlo0, h93,
      h94, hhi0, hhi93, hnle]
  · rw [member_set, zero_table_length]
    simp [hlo]
  · intro b hb
    rw [member_set, member_zero_table]
    simp [Ne.symm hb]

/-- C10, instance `%[z-a]`: only `z` is marked. -/
theorem parse_format_reversed_range_witness :
    parse_format 3 [37, 91, 122, 45, 97, 93]
        = some (parse_t.ok
            [{ type := token_type_t.TOK_CONV
               lit := none
               lit_len := 0
               is_suppress := false
               width := 0
               length := length_t.LEN_NONE
               spec := 91
               scanset_table := zero_table.set 122 1
               is_scanset_invert := false }]) ∧
      member (zero_table.set 122 1) 122 = true ∧
      ∀ b : Nat, b ≠ 122 → member (zero_table.set 122 1) b = false :=
  parse_format_reversed_range 3 122 97 (by decide) (by decide) (by decide) (by decide)
    (by decide) (by decide) (by decide)

/-! ## Cursor bounds of the sub-scanners -/

theorem isspace_ne_zero {c : Nat} (h : isspace c = true) : c ≠ 0 := by
  rintro rfl
  simp [isspace] at h

theorem isdigit_ne_zero {c : Nat} (h : isdigit c = true) : c ≠ 0 := by
  rintro rfl
  simp [isdigit] at h

theorem whitespace_loop_bounds (s : List Nat) {f p p1 : Nat}
    (h : whitespace_loop s f p = some p1) (hp : p ≤ s.length) : p ≤ p1 ∧ p1 ≤ s.length := by
  induction f generalizing p with
  | zero => simp [whitespace_loop] at h
  | succ n ih =>
    rw [whitespace_loop] at h
    split at h
    · rename_i hc
      have hlt := lt_length_of_byteAt_ne_zero (isspace_ne_zero hc)
      have := ih h (by omega)
      omega
    · simp only [Option.some.injEq] at h
      omega

theorem literal_loop_bounds (s : List Nat) {f p p1 : Nat}
    (h : literal_loop s f p = some p1) (hp : p ≤ s.length) : p ≤ p1 ∧ p1 ≤ s.length := by
  induction f generalizing p with
  | zero => simp [literal_loop] at h
  | succ n ih =>
    rw [literal_loop] at h
    split at h
    · rename_i hc
      simp only [Bool.and_eq_true, bne_iff_ne, ne_eq] at hc
      have hlt := lt_length_of_byteAt_ne_zero hc.1.1
      have := ih h (by omega)
      omega
    · simp only [Option.some.injEq] at h
      omega

theorem width_loop_bounds (s : List Nat) {f p width p2 width2 : Nat} {res : Int}
    (h : width_loop s f p width = some (res, p2, width2)) (hp : p ≤ s.length) :
    p ≤ p2 ∧ p2 ≤ s.length := by
  induction f generalizing p width with
  | zero => simp [width_loop] at h
  | succ n ih =>
    rw [width_loop] at h
    split at h
    · rename_i hc
      have hlt := lt_length_of_byteAt_ne_zero (isdigit_ne_zero hc)
      split at h
      · simp only [Option.some.injEq, Prod.mk.injEq] at h
        omega
      · have := ih h (by omega)
        omega
    · simp only [Option.some.injEq, Prod.mk.injEq] at h
      omega

theorem parse_length_modifier_bounds (s : List Nat) (p : Nat) (hp : p ≤ s.length) :
    p ≤ (parse_length_modifier s p).2 ∧ (parse_length_modifier s p).2 ≤ s.length := by
  unfold parse_length_modifier
  split
  · rename_i hc
    simp only [Bool.and_eq_true, beq_iff_eq] at hc
    have := @lt_length_of_byteAt_ne_zero s (p + 1) (by omega)
    simp only
    omega
  · split
    · rename_i hc
      simp only [Bool.and_eq_true, beq_iff_eq] at hc
      have := @lt_length_of_byteAt_ne_zero s (p + 1) (by omega)
      simp only
      omega
    · split
      · rename_i hc
        simp only [beq_iff_eq] at hc
        have := @lt_length_of_byteAt_ne_zero s p (by omega)
        simp only
        omega
      · split
        · rename_i hc
          simp only [beq_iff_eq] at hc
          have := @lt_length_of_byteAt_ne_zero s p (by omega)
          simp only
          omega
        · split
          · rename_i hc
            simp only [beq_iff_eq] at hc
            have := @lt_length_of_byteAt_ne_zero s p (by omega)
            simp only
            omega
          · simp only
            omega

theorem scanset_loop_bounds (s : List Nat) {b f p p1 : Nat} {first_char : Bool}
    {table table1 : List Nat} (h : scanset_loop b s f p first_char table = some (p1, table1))
    (hp : p ≤ s.length) : p ≤ p1 ∧ p1 ≤ s.length := by
  induction f generalizing p first_char table with
  | zero => simp [scanset_loop] at h
  | succ n ih =>
    rw [scanset_loop] at h
    split at h
    · rename_i hc
      simp only [Bool.and_eq_true, bne_iff_ne, ne_eq] at hc
      have hlt := lt_length_of_byteAt_ne_zero hc.1
      split at h
      · rename_i hr
        simp only [Bool.and_eq_true, bne_iff_ne, ne_eq] at hr
        have hlt1 := lt_length_of_byteAt_ne_zero hr.1.2
        simp only at h
        split at h
        · cases hrl : range_loop b table (byteAt s (p - 1)) (byteAt s (p + 1)) with
          | none =>
            rw [hrl] at h
            cases h
          | some t1 =>
            rw [hrl] at h
            have := ih h (by omega)
            omega
        · have := ih h (by omega)
          omega
      · have := ih h (by omega)
        omega
    · simp only [Option.some.injEq, Prod.mk.injEq] at h
      omega

theorem parse_scanset_ok (s : List Nat) {f p p1 : Nat} {token : token_t}
    (h : parse_scanset f s p = some (scan_t.ok p1 token)) (hp : p ≤ s.length) :
    p < p1 ∧ p1 ≤ s.length ∧ token.type = token_type_t.TOK_CONV := by
  unfold parse_scanset at h
  simp only at h
  have hp0 : p ≤ (if (byteAt s p == 94) = true then p + 1 else p) ∧
      (if (byteAt s p == 94) = true then p + 1 else p) ≤ s.length := by
    split
    · rename_i hc
      simp only [beq_iff_eq] at hc
      have := @lt_length_of_byteAt_ne_zero s p (by omega)
      omega
    · omega
  cases hl : scanset_loop f s f (if (byteAt s p == 94) = true then p + 1 else p) true zero_table with
  | none =>
    rw [hl] at h
    cases h
  | some r =>
    obtain ⟨q, table⟩ := r
    rw [hl] at h
    have hb := scanset_loop_bounds s hl hp0.2
    simp only at h
    split at h
    · cases h
    · rename_i hc
      simp only [bne_iff_ne, ne_eq, not_not] at hc
      have hq := @lt_length_of_byteAt_ne_zero s q (by omega)
      simp only [Option.some.injEq, scan_t.ok.injEq] at h
      obtain ⟨h1, h2⟩ := h
      subst h2
      exact ⟨by omega, by omega, rfl⟩

theorem parse_scanset_fail_ne_zero (s : List Nat) {f p : Nat} {result : Int}
    (h : parse_scanset f s p = some (scan_t.fail result)) : result ≠ 0 := by
  unfold parse_scanset at h
  simp only at h
  cases hl : scanset_loop f s f (if (byteAt s p == 94) = true then p + 1 else p) true zero_table with
  | none =>
    rw [hl] at h
    cases h
  | some r =>
    obtain ⟨q, table⟩ := r
    rw [hl] at h
    simp only at h
    split at h
    · simp only [Option.some.injEq, scan_t.fail.injEq] at h
      omega
    · cases h

theorem parse_conversion_ok (s : List Nat) {f p p1 : Nat} {token : token_t}
    (h : parse_conversion f s p = some (scan_t.ok p1 token)) :
    p < p1 ∧ p1 ≤ s.length ∧
      (token.type = token_type_t.TOK_LITERAL →
        p1 = p + 1 ∧ token.lit = some (p - 1) ∧ token.lit_len = 1) := by
  unfold parse_conversion at h
  split at h
  · cases h
  · rename_i h0
    simp only [beq_iff_eq] at h0
    have hlt := lt_length_of_byteAt_ne_zero h0
    split at h
    · simp only [Option.some.injEq, scan_t.ok.injEq] at h
      obtain ⟨h1, h2⟩ := h
      subst h2
      exact ⟨by omega, by omega, fun _ => ⟨by omega, rfl, rfl⟩⟩
    · simp only at h
      have hp1 : p ≤ (if (byteAt s p == 42) = true then p + 1 else p) ∧
          (if (byteAt s p == 42) = true then p + 1 else p) ≤ s.length := by
        split <;> omega
      cases hw : width_loop s f (if (byteAt s p == 42) = true then p + 1 else p) 0 with
      | none =>
        rw [hw] at h
        cases h
      | some r =>
        obtain ⟨res, p2, width⟩ := r
        rw [hw] at h
        have hb2 := width_loop_bounds s hw hp1.2
        have hb3 := parse_length_modifier_bounds s p2 hb2.2
        simp only at h
        split at h
        · cases h
        · split at h
          · cases h
          · rename_i hz
            simp only [beq_iff_eq] at hz
            have hlt3 := lt_length_of_byteAt_ne_zero hz
            split at h
            · cases hps : parse_scanset f s ((parse_length_modifier s p2).2 + 1) with
              | none =>
                rw [hps] at h
                cases h
              | some r2 =>
                rw [hps] at h
                cases r2 with
                | fail res1 => cases h
                | ok p5 token5 =>
                  have hok := parse_scanset_ok s hps (by omega)
                  simp only [Option.some.injEq, scan_t.ok.injEq] at h
                  obtain ⟨h1, h2⟩ := h
                  subst h2
                  refine ⟨by omega, by omega, ?_⟩
                  intro ht
                  simp only [hok.2.2] at ht
                  cases ht
            · simp only [Option.some.injEq, scan_t.ok.injEq] at h
              obtain ⟨h1, h2⟩ := h
              subst h2
              refine ⟨by omega, by omega, ?_⟩
              intro ht
              cases ht

theorem parse_conversion_fail_ne_zero (s : List Nat) {f p : Nat} {result : Int}
    (h : parse_conversion f s p = some (scan_t.fail result)) : result ≠ 0 := by
  unfold parse_conversion at h
  split at h
  · simp only [Option.some.injEq, scan_t.fail.injEq] at h
    omega
  · split at h
    · cases h
    · simp only at h
      cases hw : width_loop s f (if (byteAt s p == 42) = true then p + 1 else p) 0 with
      | none =>
        rw [hw] at h
        cases h
      | some r =>
        obtain ⟨res, p2, width⟩ := r
        rw [hw] at h
        simp only at h
        split at h
        · rename_i hres
          simp only [Option.some.injEq, scan_t.fail.injEq] at h
          subst h
          simpa using hres
        · split at h
          · simp only [Option.some.injEq, scan_t.fail.injEq] at h
            omega
          · split at h
            · cases hps : parse_scanset f s ((parse_length_modifier s p2).2 + 1) with
              | none =>
                rw [hps] at h
                cases h
              | some r2 =>
                rw [hps] at h
                cases r2 with
                | fail res1 =>
                  simp only [Option.some.injEq, scan_t.fail.injEq] at h
                  subst h
                  exact parse_scanset_fail_ne_zero s hps
                | ok p5 token5 => cases h
            · cases h

theorem dispatch_fail_ne_zero (s : List Nat) {f p : Nat} {result : Int}
    (h : dispatch f s p = some (scan_t.fail result)) : result ≠ 0 := by
  unfold dispatch at h
  split at h
  · unfold parse_whitespace at h
    cases hl : whitespace_loop s f p with
    | none =>
      rw [hl] at h
      cases h
    | some q =>
      rw [hl] at h
      cases h
  · split at h
    · exact parse_conversion_fail_ne_zero s h
    · unfold parse_literal at h
      simp only at h
      cases hl : literal_loop s f p with
      | none =>
        rw [hl] at h
        cases h
      | some q =>
        rw [hl] at h
        cases h

theorem dispatch_ok (s : List Nat) {f p p1 : Nat} {token : token_t}
    (h : dispatch f s p = some (scan_t.ok p1 token)) (h0 : byteAt s p ≠ 0) :
    p < p1 ∧ p1 ≤ s.length ∧ literal_span s { start := p, stop := p1, token := token } := by
  have hlt := lt_length_of_byteAt_ne_zero h0
  unfold dispatch at h
  split at h
  · rename_i hsp
    unfold parse_whitespace at h
    cases hl : whitespace_loop s f p with
    | none =>
      rw [hl] at h
      cases h
    | some q =>
      rw [hl] at h
      simp only [Option.some.injEq, scan_t.ok.injEq] at h
      obtain ⟨h1, h2⟩ := h
      subst h1 h2
      cases f with
      | zero => simp [whitespace_loop] at hl
      | succ n =>
        rw [whitespace_loop, if_pos hsp] at hl
        have := whitespace_loop_bounds s hl (by omega)
        refine ⟨by omega, by omega, ?_⟩
        intro ht
        cases ht
  · rename_i hsp
    split at h
    · rename_i h37
      simp only [beq_iff_eq] at h37
      obtain ⟨hlt1, hle1, hlit⟩ := parse_conversion_ok s h
      refine ⟨by omega, hle1, ?_⟩
      intro ht
      obtain ⟨e1, e2, e3⟩ := hlit ht
      simp only [h37, if_true]
      exact ⟨by omega, by simpa using e2, e3⟩
    · rename_i h37
      simp only [beq_iff_eq] at h37
      unfold parse_literal at h
      simp only at h
      cases hl : literal_loop s f p with
      | none =>
        rw [hl] at h
        cases h
      | some q =>
        rw [hl] at h
        simp only [Option.some.injEq, scan_t.ok.injEq] at h
        obtain ⟨h1, h2⟩ := h
        subst h1 h2
        cases f with
        | zero => simp [literal_loop] at hl
        | succ n =>
          have hcond : (byteAt s p != 0 && !isspace (byteAt s p) && byteAt s p != 37) = true := by
            simp [h0, hsp, h37]
          rw [literal_loop, if_pos hcond] at hl
          have := literal_loop_bounds s hl (by omega)
          refine ⟨by omega, by omega, ?_⟩
          intro _
          simp [h37]

/-! ## The partition of the input -/

theorem contiguous_append {a p : Nat} {acc : List entry_t} (e : entry_t)
    (h : contiguous a acc p) (hs : e.start = p) (hlt : e.start < e.stop) :
    contiguous a (acc ++ [e]) e.stop := by
  induction acc generalizing a with
  | nil =>
    simp only [contiguous] at h
    simp only [List.nil_append, contiguous]
    exact ⟨by omega, hlt, trivial⟩
  | cons x xs ih =>
    simp only [contiguous] at h
    simp only [List.cons_append, contiguous]
    exact ⟨h.1, h.2.1, ih h.2.2⟩

theorem format_loop_partition (s : List Nat) (hs : CString s) {b f p : Nat}
    {acc entries : List entry_t} (h : format_loop b s f p acc = some (0, entries))
    (hp : p ≤ s.length) (hacc : contiguous 0 acc p) (hspan : ∀ e ∈ acc, literal_span s e) :
    contiguous 0 entries s.length ∧ ∀ e ∈ entries, literal_span s e := by
  induction f generalizing p acc with
  | zero => simp [format_loop] at h
  | succ n ih =>
    rw [format_loop] at h
    split at h
    · rename_i h0
      simp only [bne_iff_ne, ne_eq] at h0
      cases hd : dispatch b s p with
      | none =>
        rw [hd] at h
        cases h
      | some r =>
        rw [hd] at h
        cases r with
        | fail res =>
          simp only [Option.some.injEq, Prod.mk.injEq] at h
          exact absurd h.1 (dispatch_fail_ne_zero s hd)
        | ok p1 token =>
          obtain ⟨hlt, hle, hlit⟩ := dispatch_ok s hd h0
          refine ih h hle (contiguous_append _ hacc rfl hlt) ?_
          intro e he
          rcases List.mem_append.mp he with he | he
          · exact hspan e he
          · rw [List.mem_singleton.mp he]
            exact hlit
    · rename_i h0
      simp only [bne_iff_ne, ne_eq, not_not] at h0
      simp only [Option.some.injEq, Prod.mk.injEq, true_and] at h
      subst h
      have hpe : p = s.length := by
        by_contra hne
        have := hs.byteAt_pos (show p < s.length by omega)
        omega
      rw [← hpe]
      exact ⟨hacc, hspan⟩

/-- C5: on every C string on which `parse_format` succeeds, the ranges consumed
for the successive tokens are non-empty and contiguous, from offset 0 to the
end of the input; the Literal of the literal scanner spans exactly its
consumed range, and the Literal of `%%` has a one-byte span inside its
two-byte consumed range. -/
theorem parse_format_partition (fuel : Nat) (s : List Nat) (tokens : List token_t)
    (hs : CString s) (h : parse_format fuel s = some (parse_t.ok tokens)) :
    ∃ entries : List entry_t,
      parse_trace fuel s = some (0, entries) ∧ entries.map entry_t.token = tokens ∧
        contiguous 0 entries s.length ∧ ∀ e ∈ entries, literal_span s e := by
  unfold parse_format at h
  cases ht : parse_trace fuel s with
  | none =>
    rw [ht] at h
    cases h
  | some r =>
    obtain ⟨res, entries⟩ := r
    rw [ht] at h
    simp only at h
    split at h
    · cases h
    · rename_i hres
      simp only [bne_iff_ne, ne_eq, not_not] at hres
      subst hres
      simp only [Option.some.injEq, parse_t.ok.injEq] at h
      have hpart := format_loop_partition s hs ht (Nat.zero_le _) rfl (by simp)
      exact ⟨entries, rfl, h, hpart.1, hpart.2⟩

/-- C5, instance `"a %%"`: three tokens over the ranges 0..1, 1..2 and 2..4. -/
theorem parse_format_partition_witness :
    CString [97, 32, 37, 37] ∧
      ∃ entries : List entry_t,
        parse_trace 5 [97, 32, 37, 37] = some (0, entries) ∧
          entries.map entry_t.token =
          [{ type := token_type_t.TOK_LITERAL
             lit := some 0
             lit_len := 1
             is_suppress := false
             width := 0
             length := length_t.LEN_NONE
             spec := 0
             scanset_table := zero_table
             is_scanset_invert := false },
           { type := token_type_t.TOK_WS
             lit := none
             lit_len := 0
             is_suppress := false
             width := 0
             length := length_t.LEN_NONE
             spec := 0
             scanset_table := zero_table
             is_scanset_invert := false },
           { type := token_type_t.TOK_LITERAL
             lit := some 2
             lit_len := 1
             is_suppress := false
             width := 0
             length := length_t.LEN_NONE
             spec := 0
             scanset_table := zero_table
             is_scanset_invert := false }] ∧
          contiguous 0 entries [97, 32, 37, 37].length ∧
          ∀ e ∈ entries, literal_span [97, 32, 37, 37] e :=
  ⟨by decide,
    parse_format_partition 5 [97, 32, 37, 37]
      [{ type := token_type_t.TOK_LITERAL
         lit := some 0
         lit_len := 1
         is_suppress := false
         width := 0
         length := length_t.LEN_NONE
         spec := 0
         scanset_table := zero_table
         is_scanset_invert := false },
       { type := token_type_t.TOK_WS
         lit := none
         lit_len := 0
         is_suppress := false
         width := 0
         length := length_t.LEN_NONE
         spec := 0
         scanset_table := zero_table
         is_scanset_invert := false },
       { type := token_type_t.TOK_LITERAL
         lit := some 2
         lit_len := 1
         is_suppress := false
         width := 0
         length := length_t.LEN_NONE
         spec := 0
         scanset_table := zero_table
         is_scanset_invert := false }]
      (by decide) (by rfl)⟩

/-! ## Ranges with an upper bound below 255 -/

theorem range_loop_spec (e k : Nat) (he : e < 255) (c fuel : Nat) (table : List Nat)
    (hk : c + k = e + 1) (hfuel : k < fuel) :
    ∃ table1 : List Nat, range_loop fuel table c e = some table1 ∧
      table1.length = table.length ∧
      ∀ b : Nat, member table1 b = (decide (c ≤ b ∧ b ≤ e ∧ b < table.length) || member table b) := by
  induction k generalizing c fuel table with
  | zero =>
    cases fuel with
    | zero => omega
    | succ n =>
      refine ⟨table, ?_, rfl, ?_⟩
      · rw [range_loop, if_neg (by omega)]
      · intro b
        have : ¬ (c ≤ b ∧ b ≤ e ∧ b < table.length) := by omega
        simp [this]
  | succ k ih =>
    cases fuel with
    | zero => omega
    | succ n =>
      have hmod : (c + 1) % 256 = c + 1 := Nat.mod_eq_of_lt (by omega)
      obtain ⟨t1, h1, hlen, hmem⟩ := ih (c + 1) n (table.set c 1) (by omega) (by omega)
      refine ⟨t1, ?_, ?_, ?_⟩
      · rw [range_loop, if_pos (by omega), hmod]
        exact h1
      · rw [hlen, List.length_set]
      · intro b
        rw [hmem b, member_set, List.length_set]
        by_cases hb : member table b = true
        · simp [hb]
        · simp only [Bool.not_eq_true] at hb
          simp only [hb, Bool.or_false]
          rw [← Bool.decide_or]
          apply decide_eq_decide.mpr
          constructor
          · rintro (h | h) <;> omega
          · intro h
            by_cases hcb : c = b
            · exact Or.inr ⟨hcb, by omega⟩
            · exact Or.inl (by omega)

/-- A range with an upper bound below 255: for `lo ≤ hi ≤ 254`, `%[lo-hi]` parses to one scanset
Conversion token, not inverted, whose members are exactly the bytes `lo..hi`. -/
theorem parse_format_range_below_255 (fuel lo hi : Nat) (hle : lo ≤ hi) (hhi : hi < 255)
    (h0 : lo ≠ 0) (h93 : lo ≠ 93) (h94 : lo ≠ 94) (hhi93 : hi ≠ 93)
    (hfuel : hi - lo + 3 ≤ fuel) :
    ∃ table : List Nat,
      parse_format fuel ([37, 91] ++ [lo] ++ [45] ++ [hi] ++ [93])
        = some (parse_t.ok
            [{ type := token_type_t.TOK_CONV
               lit := none
               lit_len := 0
               is_suppress := false
               width := 0
               length := length_t.LEN_NONE
               spec := 91
               scanset_table := table
               is_scanset_invert := false }]) ∧
      ∀ b : Nat, member table b = true ↔ lo ≤ b ∧ b ≤ hi := by
  have hhi0 : hi ≠ 0 := by omega
  obtain ⟨n, rfl⟩ : ∃ n, fuel = n + 3 := ⟨fuel - 3, by omega⟩
  obtain ⟨t1, h1, hlen, hmem⟩ := range_loop_spec hi (hi + 1 - lo) hhi lo (n + 3)
    (zero_table.set lo 1) (by omega) (by omega)
  refine ⟨t1, ?_, ?_⟩
  · simp [parse_format, parse_trace, format_loop, dispatch, parse_conversion, width_loop,
      parse_length_modifier, parse_scanset, scanset_loop, byteAt, isspace, isdigit, h0, h93,
      h94, hhi0, hhi93, hle, h1]
  · intro b
    rw [hmem b, member_set, member_zero_table, List.length_set, zero_table_length]
    simp only [Bool.or_false, Bool.or_eq_true, decide_eq_true_eq]
    constructor
    · rintro (h | h) <;> omega
    · intro h
      exact Or.inl (by omega)

/-! ## Termination away from byte 255 -/

theorem byteAt_lt_255 {s : List Nat} (hs : ∀ b ∈ s, b < 255) (i : Nat) : byteAt s i < 255 := by
  by_cases hi : i < s.length
  · exact hs _ (byteAt_mem s i hi)
  · rw [byteAt_of_length_le s i (by omega)]
    decide

theorem whitespace_loop_total (s : List Nat) (fuel p : Nat) (hp : p ≤ s.length)
    (hfuel : s.length < p + fuel) : ∃ q : Nat, whitespace_loop s fuel p = some q := by
  induction fuel generalizing p with
  | zero => omega
  | succ n ih =>
    rw [whitespace_loop]
    split
    · rename_i hc
      have := lt_length_of_byteAt_ne_zero (isspace_ne_zero hc)
      exact ih (p + 1) (by omega) (by omega)
    · exact ⟨p, rfl⟩

theorem literal_loop_total (s : List Nat) (fuel p : Nat) (hp : p ≤ s.length)
    (hfuel : s.length < p + fuel) : ∃ q : Nat, literal_loop s fuel p = some q := by
  induction fuel generalizing p with
  | zero => omega
  | succ n ih =>
    rw [literal_loop]
    split
    · rename_i hc
      simp only [Bool.and_eq_true, bne_iff_ne, ne_eq] at hc
      have := lt_length_of_byteAt_ne_zero hc.1.1
      exact ih (p + 1) (by omega) (by omega)
    · exact ⟨p, rfl⟩

theorem width_loop_total (s : List Nat) (fuel p width : Nat) (hp : p ≤ s.length)
    (hfuel : s.length < p + fuel) :
    ∃ r : Int × Nat × Nat, width_loop s fuel p width = some r := by
  induction fuel generalizing p width with
  | zero => omega
  | succ n ih =>
    rw [width_loop]
    split
    · rename_i hc
      have := lt_length_of_byteAt_ne_zero (isdigit_ne_zero hc)
      split
      · exact ⟨_, rfl⟩
      · exact ih (p + 1) _ (by omega) (by omega)
    · exact ⟨_, rfl⟩

theorem scanset_loop_stops (s : List Nat) (budget : Nat) (hb : 256 ≤ budget) (fuel p : Nat)
    (first_char : Bool) (table : List Nat) (hs : ∀ i : Nat, p ≤ i → byteAt s i < 255)
    (hp : p ≤ s.length) (hfuel : s.length < p + fuel) :
    ∃ (q : Nat) (table1 : List Nat),
      scanset_loop budget s fuel p first_char table = some (q, table1) ∧ p ≤ q ∧
        (byteAt s q = 0 ∨ byteAt s q = 93) ∧
        ∀ i : Nat, p ≤ i → i < q → byteAt s i ≠ 0 ∧ byteAt s i ≠ 93 := by
  induction fuel generalizing p first_char table with
  | zero => omega
  | succ n ih =>
    rw [scanset_loop]
    split
    · rename_i hc
      simp only [Bool.and_eq_true, bne_iff_ne, ne_eq] at hc
      have hlt := lt_length_of_byteAt_ne_zero hc.1
      split
      · rename_i hr
        simp only [Bool.and_eq_true, bne_iff_ne, ne_eq] at hr
        have hlt1 := lt_length_of_byteAt_ne_zero hr.1.2
        have hrec : ∀ t : List Nat, ∃ (q : Nat) (table1 : List Nat),
            scanset_loop budget s n (p + 2) false t = some (q, table1) ∧ p ≤ q ∧
              (byteAt s q = 0 ∨ byteAt s q = 93) ∧
              ∀ i : Nat, p ≤ i → i < q → byteAt s i ≠ 0 ∧ byteAt s i ≠ 93 := by
          intro t
          obtain ⟨q, t1, h1, h2, h3, h4⟩ := ih (p + 2) false t
            (fun i hi => hs i (by omega)) (by omega) (by omega)
          refine ⟨q, t1, h1, by omega, h3, ?_⟩
          intro i hi hiq
          by_cases hip : i = p
          · subst hip
            exact hc
          · by_cases hip1 : i = p + 1
            · subst hip1
              exact ⟨hr.1.2, hr.2⟩
            · exact h4 i (by omega) hiq
        simp only
        split
        · rename_i hse
          have he := hs (p + 1) (by omega)
          obtain ⟨t1, h1, _, _⟩ := range_loop_spec (byteAt s (p + 1))
            (byteAt s (p + 1) + 1 - byteAt s (p - 1)) he (byteAt s (p - 1)) budget table
            (by omega) (by omega)
          rw [h1]
          exact hrec t1
        · exact hrec table
      · obtain ⟨q, t1, h1, h2, h3, h4⟩ := ih (p + 1) false (table.set (byteAt s p) 1)
          (fun i hi => hs i (by omega)) (by omega) (by omega)
        refine ⟨q, t1, h1, by omega, h3, ?_⟩
        intro i hi hiq
        by_cases hip : i = p
        · subst hip
          exact hc
        · exact h4 i (by omega) hiq
    · rename_i hc
      simp only [Bool.and_eq_true, bne_iff_ne, ne_eq, not_and, not_not] at hc
      refine ⟨p, table, rfl, le_refl _, ?_, ?_⟩
      · by_cases h0 : byteAt s p = 0
        · exact Or.inl h0
        · exact Or.inr (hc h0)
      · intro i hi hiq
        omega

theorem byteAt_append_left (a rest : List Nat) (j : Nat) (hj : j < a.length) :
    byteAt (a ++ rest) j = byteAt a j := by
  simp [byteAt, List.getElem?_append_left hj]

theorem byteAt_mem_middle (pre a rest : List Nat) (i : Nat) (h1 : pre.length ≤ i)
    (h2 : i < pre.length + a.length) : byteAt (pre ++ a ++ rest) i ∈ a := by
  obtain ⟨j, rfl⟩ : ∃ j, i = pre.length + j := ⟨i - pre.length, by omega⟩
  rw [List.append_assoc, byteAt_append_right, byteAt_append_left a rest j (by omega)]
  exact byteAt_mem a j (by omega)

theorem scanset_start_bounds (s : List Nat) (p : Nat) (hp : p ≤ s.length) :
    p ≤ (if (byteAt s p == 94) = true then p + 1 else p) ∧
      (if (byteAt s p == 94) = true then p + 1 else p) ≤ p + 1 ∧
      (if (byteAt s p == 94) = true then p + 1 else p) ≤ s.length := by
  split
  · rename_i hc
    simp only [beq_iff_eq] at hc
    have := @lt_length_of_byteAt_ne_zero s p (by omega)
    omega
  · omega

/-- Away from byte 255, failure side: entered on a remaining input
`r` without the byte 255 and without `]`, the scanset scanner fails with -5. -/
theorem parse_scanset_unterminated (fuel : Nat) (pre r : List Nat) (hr : ∀ b ∈ r, b < 255)
    (h93 : 93 ∉ r) (hf : 256 ≤ fuel) (hfuel : r.length < fuel) :
    parse_scanset fuel (pre ++ r) pre.length = some (scan_t.fail (-5)) := by
  have hlen : (pre ++ r).length = pre.length + r.length := List.length_append _ _
  have hs : ∀ i : Nat, pre.length ≤ i → byteAt (pre ++ r) i < 255 := by
    intro i hi
    obtain ⟨j, rfl⟩ : ∃ j, i = pre.length + j := ⟨i - pre.length, by omega⟩
    rw [byteAt_append_right]
    exact byteAt_lt_255 hr j
  obtain ⟨hp1, hp2, hp3⟩ := scanset_start_bounds (pre ++ r) pre.length (by omega)
  obtain ⟨q, t1, h1, h2, h3, _⟩ := scanset_loop_stops (pre ++ r) fuel hf fuel _ true zero_table
    (fun i hi => hs i (by omega)) hp3 (by omega)
  have hq := (scanset_loop_bounds (pre ++ r) h1 hp3).2
  have hne : byteAt (pre ++ r) q ≠ 93 := by
    intro h
    have hq1 := @lt_length_of_byteAt_ne_zero (pre ++ r) q (by omega)
    have := byteAt_mem_middle pre r [] q (by omega) (by omega)
    rw [List.append_nil, h] at this
    exact h93 this
  unfold parse_scanset
  simp only
  rw [h1]
  simp [hne]

/-- Away from byte 255, success side: entered on a remaining input
`a ++ "]" ++ b` without the byte 255, where `a` has no `]` and no NUL, the
scanset scanner succeeds and leaves the cursor just after that first `]`. -/
theorem parse_scanset_stops_at_bracket (fuel : Nat) (pre a b : List Nat)
    (hr : ∀ x ∈ a ++ 93 :: b, x < 255) (ha0 : 0 ∉ a) (ha93 : 93 ∉ a) (hf : 256 ≤ fuel)
    (hfuel : (a ++ 93 :: b).length < fuel) :
    ∃ token : token_t,
      parse_scanset fuel (pre ++ (a ++ 93 :: b)) pre.length
        = some (scan_t.ok (pre.length + a.length + 1) token) := by
  have hlen : (pre ++ (a ++ 93 :: b)).length = pre.length + (a ++ 93 :: b).length :=
    List.length_append _ _
  have hlen2 : (a ++ 93 :: b).length = a.length + (b.length + 1) := by simp
  have hs : ∀ i : Nat, pre.length ≤ i → byteAt (pre ++ (a ++ 93 :: b)) i < 255 := by
    intro i hi
    obtain ⟨j, rfl⟩ : ∃ j, i = pre.length + j := ⟨i - pre.length, by omega⟩
    rw [byteAt_append_right]
    exact byteAt_lt_255 hr j
  have hbr : byteAt (pre ++ (a ++ 93 :: b)) (pre.length + a.length) = 93 := by
    rw [byteAt_append_right, byteAt_append_length, byteAt_cons_zero]
  have hin : ∀ i : Nat, pre.length ≤ i → i < pre.length + a.length →
      byteAt (pre ++ (a ++ 93 :: b)) i ≠ 0 ∧ byteAt (pre ++ (a ++ 93 :: b)) i ≠ 93 := by
    intro i h1 h2
    have hm := byteAt_mem_middle pre a (93 :: b) i h1 h2
    rw [List.append_assoc] at hm
    exact ⟨fun h => ha0 (h ▸ hm), fun h => ha93 (h ▸ hm)⟩
  obtain ⟨hp1, hp2, hp3⟩ := scanset_start_bounds (pre ++ (a ++ 93 :: b)) pre.length (by omega)
  have hp4 : (if (byteAt (pre ++ (a ++ 93 :: b)) pre.length == 94) = true then pre.length + 1
      else pre.length) ≤ pre.length + a.length := by
    split
    · rename_i hc
      simp only [beq_iff_eq] at hc
      have : a.length ≠ 0 := by
        intro h0
        rw [h0, Nat.add_zero, hc] at hbr
        omega
      omega
    · omega
  obtain ⟨q, t1, h1, h2, h3, h4⟩ := scanset_loop_stops (pre ++ (a ++ 93 :: b)) fuel hf fuel _
    true zero_table (fun i hi => hs i (by omega)) hp3 (by omega)
  have hq : q = pre.length + a.length := by
    rcases Nat.lt_trichotomy q (pre.length + a.length) with hlt | heq | hgt
    · have := hin q (by omega) hlt
      rcases h3 with h3 | h3
      · exact absurd h3 this.1
      · exact absurd h3 this.2
    · exact heq
    · exact absurd hbr (h4 _ hp4 hgt).2
  subst hq
  unfold parse_scanset
  simp only
  rw [h1]
  simp only [hbr, bne_self_eq_false, Bool.false_eq_true, if_false]
  exact ⟨_, rfl⟩

theorem parse_scanset_total (fuel : Nat) (s : List Nat) (p : Nat) (hs : ∀ b ∈ s, b < 255)
    (hp : p ≤ s.length) (hf : 256 ≤ fuel) (hfuel : s.length < fuel) :
    ∃ r : scan_t, parse_scanset fuel s p = some r := by
  obtain ⟨hp1, hp2, hp3⟩ := scanset_start_bounds s p hp
  obtain ⟨q, t1, h1, _, _, _⟩ := scanset_loop_stops s fuel hf fuel _ true zero_table
    (fun i _ => byteAt_lt_255 hs i) hp3 (by omega)
  unfold parse_scanset
  simp only
  rw [h1]
  simp only
  split <;> exact ⟨_, rfl⟩

theorem parse_conversion_total (fuel : Nat) (s : List Nat) (p : Nat) (hs : ∀ b ∈ s, b < 255)
    (hf : 256 ≤ fuel) (hfuel : s.length < fuel) :
    ∃ r : scan_t, parse_conversion fuel s p = some r := by
  unfold parse_conversion
  split
  · exact ⟨_, rfl⟩
  · rename_i h0
    simp only [beq_iff_eq] at h0
    have hlt := lt_length_of_byteAt_ne_zero h0
    split
    · exact ⟨_, rfl⟩
    · simp only
      have hp1 : (if (byteAt s p == 42) = true then p + 1 else p) ≤ s.length := by
        split <;> omega
      obtain ⟨⟨res, p2, width⟩, hw⟩ := width_loop_total s fuel _ 0 hp1 (by omega)
      rw [hw]
      simp only
      have hb2 := width_loop_bounds s hw hp1
      have hb3 := parse_length_modifier_bounds s p2 hb2.2
      split
      · exact ⟨_, rfl⟩
      · split
        · exact ⟨_, rfl⟩
        · rename_i hz
          simp only [beq_iff_eq] at hz
          have hlt3 := lt_length_of_byteAt_ne_zero hz
          split
          · obtain ⟨r2, hps⟩ := parse_scanset_total fuel s ((parse_length_modifier s p2).2 + 1)
              hs (by omega) hf hfuel
            rw [hps]
            cases r2 <;> exact ⟨_, rfl⟩
          · exact ⟨_, rfl⟩

theorem dispatch_total (fuel : Nat) (s : List Nat) (p : Nat) (hs : ∀ b ∈ s, b < 255)
    (hp : p < s.length) (hf : 256 ≤ fuel) (hfuel : s.length < fuel) :
    ∃ r : scan_t, dispatch fuel s p = some r := by
  unfold dispatch
  split
  · obtain ⟨q, hq⟩ := whitespace_loop_total s fuel p (by omega) (by omega)
    unfold parse_whitespace
    rw [hq]
    exact ⟨_, rfl⟩
  · split
    · exact parse_conversion_total fuel s (p + 1) hs hf hfuel
    · obtain ⟨q, hq⟩ := literal_loop_total s fuel p (by omega) (by omega)
      unfold parse_literal
      simp only
      rw [hq]
      exact ⟨_, rfl⟩

theorem format_loop_total (budget : Nat) (s : List Nat) (hs : ∀ b ∈ s, b < 255)
    (hf : 256 ≤ budget) (hbudget : s.length < budget) (fuel p : Nat) (acc : List entry_t)
    (hp : p ≤ s.length) (hfuel : s.length < p + fuel) :
    ∃ r : Int × List entry_t, format_loop budget s fuel p acc = some r := by
  induction fuel generalizing p acc with
  | zero => omega
  | succ n ih =>
    rw [format_loop]
    split
    · rename_i h0
      simp only [bne_iff_ne, ne_eq] at h0
      have hlt := lt_length_of_byteAt_ne_zero h0
      obtain ⟨r, hd⟩ := dispatch_total budget s p hs hlt hf hbudget
      rw [hd]
      cases r with
      | fail res => exact ⟨_, rfl⟩
      | ok p1 token =>
        obtain ⟨h1, h2, _⟩ := dispatch_ok s hd h0
        exact ih p1 _ h2 (by omega)
    · exact ⟨_, rfl⟩

/-- Termination away from byte 255: on every input without the byte 255,
`parse_format` returns at any fuel above the input length and 255; the
dispatcher loop runs at most once per input byte, plus its exit test. -/
theorem parse_format_terminates (fuel : Nat) (s : List Nat) (hs : ∀ b ∈ s, b < 255)
    (hf : 256 ≤ fuel) (hfuel : s.length < fuel) :
    ∃ r : parse_t, parse_format fuel s = some r := by
  obtain ⟨⟨res, entries⟩, h⟩ := format_loop_total fuel s hs hf hfuel fuel 0 [] (Nat.zero_le _)
    (by omega)
  unfold parse_format parse_trace
  rw [h]
  simp only
  split <;> exact ⟨_, rfl⟩

/-! ## The escaped percent -/

/-- C11: a `%%` pair met by the dispatcher at cursor `p` yields one Literal
token of length 1 whose spanned byte is the `%` at offset `p`, and consumes
exactly the two bytes `p` and `p + 1`; `"%%"` parses to that one Literal, and
`"%d%%"` to a Conversion `d` followed by it. -/
theorem dispatch_percent_pair (budget fuel : Nat) (s : List Nat) (p : Nat)
    (acc : List entry_t) (h1 : byteAt s p = 37) (h2 : byteAt s (p + 1) = 37) :
    (∃ token : token_t,
      dispatch budget s p = some (scan_t.ok (p + 2) token) ∧
        format_loop budget s (fuel + 1) p acc
          = format_loop budget s fuel (p + 2)
              (acc ++ [{ start := p, stop := p + 2, token := token }]) ∧
        token
          = { type := token_type_t.TOK_LITERAL
              lit := some p
              lit_len := 1
              is_suppress := false
              width := 0
              length := length_t.LEN_NONE
              spec := 0
              scanset_table := List.replicate 256 0
              is_scanset_invert := false } ∧
        byteAt s p = 37) ∧
      (∀ f : Nat, 2 ≤ f →
        parse_format f [37, 37]
          = some (parse_t.ok
              [{ type := token_type_t.TOK_LITERAL
                 lit := some 0
                 lit_len := 1
                 is_suppress := false
                 width := 0
                 length := length_t.LEN_NONE
                 spec := 0
                 scanset_table := List.replicate 256 0
                 is_scanset_invert := false }])) ∧
      (∀ f : Nat, 3 ≤ f →
        parse_format f [37, 100, 37, 37]
          = some (parse_t.ok
              [{ type := token_type_t.TOK_CONV
                 lit := none
                 lit_len := 0
                 is_suppress := false
                 width := 0
                 length := length_t.LEN_NONE
                 spec := 100
                 scanset_table := List.replicate 256 0
                 is_scanset_invert := false },
               { type := token_type_t.TOK_LITERAL
                 lit := some 2
                 lit_len := 1
                 is_suppress := false
                 width := 0
                 length := length_t.LEN_NONE
                 spec := 0
                 scanset_table := List.replicate 256 0
                 is_scanset_invert := false }])) := by
  have hd : dispatch budget s p = some (scan_t.ok (p + 2)
      { type := token_type_t.TOK_LITERAL
        lit := some p
        lit_len := 1
        is_suppress := false
        width := 0
        length := length_t.LEN_NONE
        spec := 0
        scanset_table := zero_table
        is_scanset_invert := false }) := by
    simp [dispatch, parse_conversion, h1, h2, isspace]
  refine ⟨⟨_, hd, ?_, rfl, h1⟩, ?_, ?_⟩
  · rw [format_loop]
    simp [h1, hd]
  · intro f hf
    exact parse_format_mono _ (by rfl) hf
  · intro f hf
    exact parse_format_mono _ (by rfl) hf

/-- C11, instance: the pair at offset 2 of `"%d%%"`. -/
theorem dispatch_percent_pair_witness :
    dispatch 3 [37, 100, 37, 37] 2
      = some (scan_t.ok 4
          { type := token_type_t.TOK_LITERAL
            lit := some 2
            lit_len := 1
            is_suppress := false
            width := 0
            length := length_t.LEN_NONE
            spec := 0
            scanset_table := List.replicate 256 0
            is_scanset_invert := false }) := by
  obtain ⟨⟨token, hd, _, ht, _⟩, _⟩ :=
    dispatch_percent_pair 3 0 [37, 100, 37, 37] 2 [] (by decide) (by decide)
  rw [hd, ht]

/-! ## The length modifier -/

theorem byteAt_drop (s : List Nat) (p i : Nat) : byteAt (s.drop p) i = byteAt s (p + i) := by
  simp [byteAt, List.getElem?_drop]

theorem parse_length_modifier_drop (s : List Nat) (p : Nat) :
    parse_length_modifier s p
      = ((parse_length_modifier (s.drop p) 0).1, p + (parse_length_modifier (s.drop p) 0).2) := by
  have h0 := byteAt_drop s p 0
  have h1 := byteAt_drop s p 1
  simp only [Nat.add_zero] at h0
  unfold parse_length_modifier
  simp only [Nat.zero_add, h0, h1]
  split
  · rfl
  · split
    · rfl
    · split
      · rfl
      · split
        · rfl
        · split <;> rfl

theorem parse_length_modifier_head (l : List Nat) :
    parse_length_modifier l 0 = longest_length_modifier l := by
  match l with
  | [] => simp [parse_length_modifier, longest_length_modifier, byteAt]
  | [a] =>
    unfold longest_length_modifier
    split <;> simp_all [parse_length_modifier, byteAt]
  | a :: b :: rest =>
    unfold longest_length_modifier
    split
    all_goals (try simp_all [parse_length_modifier, byteAt])
    · rename_i t hx heq
      obtain ⟨_, rfl⟩ := heq
      have := hx rest
      simpa using this
    · rename_i t hx heq
      obtain ⟨_, rfl⟩ := heq
      have := hx rest
      simpa using this

/-- C15: `parse_length_modifier` is total and is the longest match on the bytes
at the cursor, in the order `hh`, `ll`, `h`, `l`, `L`, none, advancing by the
length of the match; so `%hhx` and `%lld` give one Conversion token each, with
length HH and LL. -/
theorem parse_length_modifier_longest_match (s : List Nat) (p : Nat) :
    parse_length_modifier s p
        = ((longest_length_modifier (s.drop p)).1,
            p + (longest_length_modifier (s.drop p)).2) ∧
      (∀ f : Nat, 2 ≤ f →
        parse_format f [37, 104, 104, 120]
          = some (parse_t.ok
              [{ type := token_type_t.TOK_CONV
                 lit := none
                 lit_len := 0
                 is_suppress := false
                 width := 0
                 length := length_t.LEN_HH
                 spec := 120
                 scanset_table := List.replicate 256 0
                 is_scanset_invert := false }])) ∧
      (∀ f : Nat, 2 ≤ f →
        parse_format f [37, 108, 108, 100]
          = some (parse_t.ok
              [{ type := token_type_t.TOK_CONV
                 lit := none
                 lit_len := 0
                 is_suppress := false
                 width := 0
                 length := length_t.LEN_LL
                 spec := 100
                 scanset_table := List.replicate 256 0
                 is_scanset_invert := false }])) := by
  refine ⟨?_, ?_, ?_⟩
  · rw [parse_length_modifier_drop, parse_length_modifier_head]
  · intro f hf
    exact parse_format_mono _ (by rfl) hf
  · intro f hf
    exact parse_format_mono _ (by rfl) hf

/-! ## How entries are produced -/

theorem parse_conversion_produced (s : List Nat) {f p p1 : Nat} {token : token_t}
    (hp : byteAt s p = 37)
    (h : parse_conversion f s (p + 1) = some (scan_t.ok p1 token)) :
    produced f s { start := p, stop := p1, token := token } := by
  unfold parse_conversion at h
  split at h
  · cases h
  · rename_i hnz
    simp only [beq_iff_eq] at hnz
    have hlt := lt_length_of_byteAt_ne_zero hnz
    split at h
    · rename_i h37
      simp only [beq_iff_eq] at h37
      simp only [Option.some.injEq, scan_t.ok.injEq] at h
      obtain ⟨h1, h2⟩ := h
      subst h1 h2
      exact produced.percent p hp h37
    · simp only at h
      have hp1 : p + 1 ≤ (if (byteAt s (p + 1) == 42) = true then p + 1 + 1 else p + 1) := by
        split <;> omega
      have hp2 : (if (byteAt s (p + 1) == 42) = true then p + 1 + 1 else p + 1) ≤ s.length := by
        split <;> omega
      cases hw : width_loop s f (if (byteAt s (p + 1) == 42) = true then p + 1 + 1 else p + 1) 0 with
      | none =>
        rw [hw] at h
        cases h
      | some r =>
        obtain ⟨res, p2, width⟩ := r
        rw [hw] at h
        have hb2 := width_loop_bounds s hw hp2
        have hb3 := parse_length_modifier_bounds s p2 hb2.2
        simp only at h
        split at h
        · cases h
        · split at h
          · cases h
          · rename_i hz
            simp only [beq_iff_eq] at hz
            split at h
            · rename_i h91
              simp only [beq_iff_eq] at h91
              cases hps : parse_scanset f s ((parse_length_modifier s p2).2 + 1) with
              | none =>
                rw [hps] at h
                cases h
              | some r2 =>
                rw [hps] at h
                cases r2 with
                | fail res1 => cases h
                | ok p5 token5 =>
                  simp only [Option.some.injEq, scan_t.ok.injEq] at h
                  obtain ⟨h1, h2⟩ := h
                  subst h1 h2
                  exact produced.scanset p _ _ _ _ _ token5 hp (by omega) h91 hps
            · rename_i h91
              simp only [beq_iff_eq] at h91
              simp only [Option.some.injEq, scan_t.ok.injEq] at h
              obtain ⟨h1, h2⟩ := h
              subst h1 h2
              exact produced.conversion p _ _ _ _ hp (by omega) hz h91

theorem dispatch_produced (s : List Nat) {f p p1 : Nat} {token : token_t}
    (h : dispatch f s p = some (scan_t.ok p1 token)) (h0 : byteAt s p ≠ 0) :
    produced f s { start := p, stop := p1, token := token } := by
  unfold dispatch at h
  split at h
  · rename_i hsp
    unfold parse_whitespace at h
    cases hl : whitespace_loop s f p with
    | none =>
      rw [hl] at h
      cases h
    | some q =>
      rw [hl] at h
      simp only [Option.some.injEq, scan_t.ok.injEq] at h
      obtain ⟨h1, h2⟩ := h
      subst h1 h2
      exact produced.whitespace p q hsp hl
  · rename_i hsp
    simp only [Bool.not_eq_true] at hsp
    split at h
    · rename_i h37
      simp only [beq_iff_eq] at h37
      exact parse_conversion_produced s h37 h
    · rename_i h37
      simp only [beq_iff_eq] at h37
      unfold parse_literal at h
      simp only at h
      cases hl : literal_loop s f p with
      | none =>
        rw [hl] at h
        cases h
      | some q =>
        rw [hl] at h
        simp only [Option.some.injEq, scan_t.ok.injEq] at h
        obtain ⟨h1, h2⟩ := h
        subst h1 h2
        exact produced.literal p q h0 hsp h37 hl

theorem format_loop_produced (s : List Nat) {b f p : Nat} {acc entries : List entry_t}
    (h : format_loop b s f p acc = some (0, entries)) (hacc : ∀ e ∈ acc, produced b s e) :
    ∀ e ∈ entries, produced b s e := by
  induction f generalizing p acc with
  | zero => simp [format_loop] at h
  | succ n ih =>
    rw [format_loop] at h
    split at h
    · rename_i h0
      simp only [bne_iff_ne, ne_eq] at h0
      cases hd : dispatch b s p with
      | none =>
        rw [hd] at h
        cases h
      | some r =>
        rw [hd] at h
        cases r with
        | fail res =>
          simp only [Option.some.injEq, Prod.mk.injEq] at h
          exact absurd h.1 (dispatch_fail_ne_zero s hd)
        | ok p1 token =>
          refine ih h ?_
          intro e he
          rcases List.mem_append.mp he with he | he
          · exact hacc e he
          · rw [List.mem_singleton.mp he]
            exact dispatch_produced s hd h0
    · simp only [Option.some.injEq, Prod.mk.injEq, true_and] at h
      subst h
      exact hacc

theorem parse_format_entries {fuel : Nat} {s : List Nat} {tokens : List token_t}
    (h : parse_format fuel s = some (parse_t.ok tokens)) :
    ∃ entries : List entry_t,
      parse_trace fuel s = some (0, entries) ∧ entries.map entry_t.token = tokens := by
  unfold parse_format at h
  cases ht : parse_trace fuel s with
  | none =>
    rw [ht] at h
    cases h
  | some r =>
    obtain ⟨res, entries⟩ := r
    rw [ht] at h
    simp only at h
    split at h
    · cases h
    · rename_i hres
      simp only [bne_iff_ne, ne_eq, not_not] at hres
      subst hres
      simp only [Option.some.injEq, parse_t.ok.injEq] at h
      exact ⟨entries, rfl, h⟩

theorem parse_trace_produced {fuel : Nat} {s : List Nat} {entries : List entry_t}
    (h : parse_trace fuel s = some (0, entries)) : ∀ e ∈ entries, produced fuel s e :=
  format_loop_produced s h (by simp)

theorem parse_trace_contiguous {fuel : Nat} {s : List Nat} {entries : List entry_t}
    (hs : CString s) (h : parse_trace fuel s = some (0, entries)) :
    contiguous 0 entries s.length :=
  (format_loop_partition s hs h (Nat.zero_le _) rfl (by simp)).1

/-! ## Token count -/

theorem contiguous_length {a b : Nat} {es : List entry_t} (h : contiguous a es b) :
    a + es.length ≤ b := by
  induction es generalizing a with
  | nil =>
    simp only [contiguous] at h
    simp [h]
  | cons e es ih =>
    simp only [contiguous] at h
    have := ih h.2.2
    simp only [List.length_cons]
    omega

/-- C19: on every C string on which `parse_format` succeeds, the token count is
at most the length of the input, and it is 0 exactly when the input is
empty. -/
theorem parse_format_token_count (fuel : Nat) (s : List Nat) (tokens : List token_t)
    (hs : CString s) (h : parse_format fuel s = some (parse_t.ok tokens)) :
    tokens.length ≤ s.length ∧ (tokens.length = 0 ↔ s = []) := by
  obtain ⟨entries, htr, hmap⟩ := parse_format_entries h
  have hc := parse_trace_contiguous hs htr
  have hlen : tokens.length = entries.length := by
    rw [← hmap, List.length_map]
  have hle := contiguous_length hc
  refine ⟨by omega, ?_, ?_⟩
  · intro h0
    have he : entries = [] := List.length_eq_zero.mp (by omega)
    subst he
    simp only [contiguous] at hc
    exact List.length_eq_zero.mp hc.symm
  · intro h0
    subst h0
    simp only [List.length_nil] at hle
    omega

/-- C19, instance `"a %%"`: three tokens for four bytes. -/
theorem parse_format_token_count_witness :
    parse_format 5 [97, 32, 37, 37]
        = some (parse_t.ok [literal_token 0 1, whitespace_token, literal_token 2 1]) ∧
      [literal_token 0 1, whitespace_token, literal_token 2 1].length
        ≤ [97, 32, 37, 37].length ∧
      ([literal_token 0 1, whitespace_token, literal_token 2 1].length = 0
        ↔ [97, 32, 37, 37] = []) :=
  ⟨by rfl,
    parse_format_token_count 5 [97, 32, 37, 37]
      [literal_token 0 1, whitespace_token, literal_token 2 1] (by decide) (by rfl)⟩

/-! ## Whitespace tokens -/

theorem whitespace_loop_stop (s : List Nat) {f p q : Nat}
    (h : whitespace_loop s f p = some q) : isspace (byteAt s q) = false := by
  induction f generalizing p with
  | zero => simp [whitespace_loop] at h
  | succ n ih =>
    rw [whitespace_loop] at h
    split at h
    · exact ih h
    · rename_i hc
      simp only [Option.some.injEq] at h
      subst h
      simpa using hc

theorem produced_type_whitespace {f : Nat} {s : List Nat} {e : entry_t} (h : produced f s e)
    (ht : e.token.type = token_type_t.TOK_WS) :
    isspace (byteAt s e.start) = true ∧ isspace (byteAt s e.stop) = false := by
  cases h with
  | whitespace p p1 hsp hl => exact ⟨hsp, whitespace_loop_stop s hl⟩
  | literal p p1 h0 hsp h37 hl => cases ht
  | percent p h1 h2 => cases ht
  | conversion p q sup w m h1 hq h0 h91 => cases ht
  | scanset p q p1 sup w m token h1 hq h91 hs =>
    have hlt := @lt_length_of_byteAt_ne_zero s q (by omega)
    have hok := parse_scanset_ok s hs (by omega)
    simp only [hok.2.2] at ht
    cases ht

theorem no_adjacent_whitespace {f : Nat} {s : List Nat} {a b : Nat} {es : List entry_t}
    (hc : contiguous a es b) (hp : ∀ e ∈ es, produced f s e) :
    List.Chain' (fun t1 t2 : token_t =>
      ¬ (t1.type = token_type_t.TOK_WS ∧ t2.type = token_type_t.TOK_WS))
      (es.map entry_t.token) := by
  induction es generalizing a with
  | nil => simp
  | cons e1 rest ih =>
    cases rest with
    | nil => simp
    | cons e2 rest2 =>
      simp only [contiguous] at hc
      have hrest := ih hc.2.2 (fun e he => hp e (List.mem_cons_of_mem _ he))
      simp only [List.map_cons, List.chain'_cons] at hrest ⊢
      refine ⟨?_, hrest⟩
      rintro ⟨ht1, ht2⟩
      have h1 := produced_type_whitespace (hp e1 (by simp)) ht1
      have h2 := produced_type_whitespace (hp e2 (by simp)) ht2
      rw [hc.2.2.1, h1.2] at h2
      cases h2.1

theorem whitespace_loop_all (s : List Nat) (k p fuel : Nat) (hk : p + k = s.length)
    (hfuel : k < fuel) (hall : ∀ b ∈ s, isspace b = true) :
    whitespace_loop s fuel p = some s.length := by
  induction k generalizing p fuel with
  | zero =>
    cases fuel with
    | zero => omega
    | succ n =>
      have h0 : byteAt s p = 0 := byteAt_of_length_le s p (by omega)
      have hp : p = s.length := by omega
      rw [whitespace_loop, h0]
      simp [isspace, hp]
  | succ k ih =>
    cases fuel with
    | zero => omega
    | succ n =>
      have hsp := hall _ (byteAt_mem s p (by omega))
      rw [whitespace_loop, if_pos hsp]
      exact ih (p + 1) n (by omega) (by omega)

/-- C12: in the token sequence of a successful parse of a C string no two
adjacent tokens are both Whitespace, and the byte that follows the run consumed
for a Whitespace token is not a whitespace byte; and, with no parse assumed, an
input made of one or more whitespace bytes parses, at every fuel above its
length, to exactly one Whitespace token. -/
theorem whitespace_tokens_maximal (s : List Nat) :
    (∀ (fuel : Nat) (tokens : List token_t), CString s →
      parse_format fuel s = some (parse_t.ok tokens) →
        List.Chain' (fun t1 t2 : token_t =>
            ¬ (t1.type = token_type_t.TOK_WS ∧ t2.type = token_type_t.TOK_WS)) tokens ∧
          ∃ entries : List entry_t,
            parse_trace fuel s = some (0, entries) ∧ entries.map entry_t.token = tokens ∧
              ∀ e ∈ entries, e.token.type = token_type_t.TOK_WS →
                isspace (byteAt s e.stop) = false) ∧
      (s ≠ [] → (∀ b ∈ s, isspace b = true) → ∀ f : Nat, s.length < f →
        parse_format f s
          = some (parse_t.ok
              [{ type := token_type_t.TOK_WS
                 lit := none
                 lit_len := 0
                 is_suppress := false
                 width := 0
                 length := length_t.LEN_NONE
                 spec := 0
                 scanset_table := List.replicate 256 0
                 is_scanset_invert := false }])) := by
  refine ⟨?_, ?_⟩
  · intro fuel tokens hs h
    obtain ⟨entries, htr, hmap⟩ := parse_format_entries h
    have hc := parse_trace_contiguous hs htr
    have hp := parse_trace_produced htr
    refine ⟨?_, entries, htr, hmap, ?_⟩
    · rw [← hmap]
      exact no_adjacent_whitespace hc hp
    · intro e he ht
      exact (produced_type_whitespace (hp e he) ht).2
  · intro hne hall f hf
    have hlen : 0 < s.length := List.length_pos.mpr hne
    obtain ⟨n, rfl⟩ : ∃ n, f = n + 2 := ⟨f - 2, by omega⟩
    have hsp := hall _ (byteAt_mem s 0 hlen)
    have hloop := whitespace_loop_all s s.length 0 (n + 2) (by omega) (by omega) hall
    have hd : dispatch (n + 2) s 0 = some (scan_t.ok s.length whitespace_token) := by
      simp [dispatch, hsp, parse_whitespace, hloop, whitespace_token]
    have htr2 := format_loop_last (n + 2) n s 0 s.length [] _ (isspace_ne_zero hsp) hd
      (byteAt_of_length_le s _ (le_refl _))
    rw [parse_format_of_trace (n + 2) _ _ htr2]
    rfl

/-- C12, instances: `"  a "` parses to Whitespace, Literal, Whitespace, with no
two adjacent Whitespace tokens; `"   "` parses to one Whitespace token. -/
theorem whitespace_tokens_maximal_witness :
    (parse_format 5 [32, 32, 97, 32]
        = some (parse_t.ok [whitespace_token, literal_token 2 1, whitespace_token]) ∧
      List.Chain' (fun t1 t2 : token_t =>
        ¬ (t1.type = token_type_t.TOK_WS ∧ t2.type = token_type_t.TOK_WS))
        [whitespace_token, literal_token 2 1, whitespace_token]) ∧
      parse_format 4 [32, 9, 10] = some (parse_t.ok [whitespace_token]) :=
  ⟨⟨by rfl,
    ((whitespace_tokens_maximal [32, 32, 97, 32]).1 5
      [whitespace_token, literal_token 2 1, whitespace_token] (by decide) (by rfl)).1⟩,
    (whitespace_tokens_maximal [32, 9, 10]).2 (by decide) (by decide) 4 (by decide)⟩

/-! ## Literal tokens -/

theorem literal_loop_span (s : List Nat) {f p q : Nat} (h : literal_loop s f p = some q) :
    ∀ i : Nat, p ≤ i → i < q →
      byteAt s i ≠ 0 ∧ isspace (byteAt s i) = false ∧ byteAt s i ≠ 37 := by
  induction f generalizing p with
  | zero => simp [literal_loop] at h
  | succ n ih =>
    rw [literal_loop] at h
    split at h
    · rename_i hc
      simp only [Bool.and_eq_true, bne_iff_ne, ne_eq, Bool.not_eq_true'] at hc
      intro i hi hiq
      by_cases hip : i = p
      · subst hip
        exact ⟨hc.1.1, hc.1.2, hc.2⟩
      · exact ih h i (by omega) hiq
    · simp only [Option.some.injEq] at h
      intro i hi hiq
      omega

theorem produced_type_literal {f : Nat} {s : List Nat} {e : entry_t} (h : produced f s e)
    (ht : e.token.type = token_type_t.TOK_LITERAL) :
    ∃ l : Nat, e.token.lit = some l ∧ 1 ≤ e.token.lit_len ∧
      l + e.token.lit_len ≤ s.length ∧
      (∀ i : Nat, l ≤ i → i < l + e.token.lit_len → isspace (byteAt s i) = false) ∧
      ((∃ i : Nat, l ≤ i ∧ i < l + e.token.lit_len ∧ byteAt s i = 37) →
        e.token.lit_len = 1 ∧ byteAt s l = 37 ∧ byteAt s (l + 1) = 37) := by
  cases h with
  | whitespace p p1 hsp hl => cases ht
  | literal p p1 h0 hsp h37 hl =>
    have hlt := lt_length_of_byteAt_ne_zero h0
    have hspan := literal_loop_span s hl
    have hb := literal_loop_bounds s hl (by omega)
    have hpos : p < p1 := by
      cases f with
      | zero => simp [literal_loop] at hl
      | succ n =>
        have hcond : (byteAt s p != 0 && !isspace (byteAt s p) && byteAt s p != 37) = true := by
          simp [h0, hsp, h37]
        rw [literal_loop, if_pos hcond] at hl
        have := literal_loop_bounds s hl (by omega)
        omega
    refine ⟨p, rfl, ?_, ?_, ?_, ?_⟩
    · simp only [literal_token]
      omega
    · simp only [literal_token]
      omega
    · intro i hi hiq
      simp only [literal_token] at hiq
      exact (hspan i hi (by omega)).2.1
    · rintro ⟨i, hi, hiq, h⟩
      simp only [literal_token] at hiq
      exact absurd h (hspan i hi (by omega)).2.2
  | percent p h1 h2 =>
    have hlt := @lt_length_of_byteAt_ne_zero s p (by omega)
    refine ⟨p, rfl, le_refl _, ?_, ?_, ?_⟩
    · simp only [literal_token]
      omega
    · intro i hi hiq
      simp only [literal_token] at hiq
      have : i = p := by omega
      subst this
      rw [h1]
      decide
    · intro _
      exact ⟨rfl, h1, h2⟩
  | conversion p q sup w m h1 hq h0 h91 => cases ht
  | scanset p q p1 sup w m token h1 hq h91 hs =>
    have hlt := @lt_length_of_byteAt_ne_zero s q (by omega)
    have hok := parse_scanset_ok s hs (by omega)
    simp only [hok.2.2] at ht
    cases ht

/-- C13: every Literal token of a successful parse has a length of at least 1
and a span inside the input, no byte of its span is a whitespace byte, and the
span holds a `%` only when the token is the length-1 Literal of an escaped
`%%` (the `%` at the span and a `%` right after it). -/
theorem literal_tokens_well_formed (fuel : Nat) (s : List Nat) (tokens : List token_t)
    (h : parse_format fuel s = some (parse_t.ok tokens)) :
    ∀ t ∈ tokens, t.type = token_type_t.TOK_LITERAL →
      ∃ l : Nat, t.lit = some l ∧ 1 ≤ t.lit_len ∧ l + t.lit_len ≤ s.length ∧
        (∀ i : Nat, l ≤ i → i < l + t.lit_len → isspace (byteAt s i) = false) ∧
        ((∃ i : Nat, l ≤ i ∧ i < l + t.lit_len ∧ byteAt s i = 37) →
          t.lit_len = 1 ∧ byteAt s l = 37 ∧ byteAt s (l + 1) = 37) := by
  obtain ⟨entries, htr, hmap⟩ := parse_format_entries h
  have hp := parse_trace_produced htr
  intro t ht htype
  rw [← hmap] at ht
  obtain ⟨e, he, rfl⟩ := List.mem_map.mp ht
  exact produced_type_literal (hp e he) htype

/-- C13, instance: the Literal `ab` of `"ab%%"`. -/
theorem literal_tokens_well_formed_witness :
    parse_format 4 [97, 98, 37, 37]
        = some (parse_t.ok [literal_token 0 2, literal_token 2 1]) ∧
      ∃ l : Nat, (literal_token 0 2).lit = some l ∧ 1 ≤ (literal_token 0 2).lit_len ∧
        l + (literal_token 0 2).lit_len ≤ [97, 98, 37, 37].length ∧
        (∀ i : Nat, l ≤ i → i < l + (literal_token 0 2).lit_len →
          isspace (byteAt [97, 98, 37, 37] i) = false) ∧
        ((∃ i : Nat, l ≤ i ∧ i < l + (literal_token 0 2).lit_len ∧
            byteAt [97, 98, 37, 37] i = 37) →
          (literal_token 0 2).lit_len = 1 ∧ byteAt [97, 98, 37, 37] l = 37 ∧
            byteAt [97, 98, 37, 37] (l + 1) = 37) :=
  ⟨by rfl,
    literal_tokens_well_formed 4 [97, 98, 37, 37] [literal_token 0 2, literal_token 2 1]
      (by rfl) (literal_token 0 2) (by simp) rfl⟩

/-! ## Scanset data -/

theorem parse_scanset_shape (s : List Nat) {f p p1 : Nat} {token : token_t}
    (h : parse_scanset f s p = some (scan_t.ok p1 token)) :
    token.type = token_type_t.TOK_CONV ∧ token.spec = 91 ∧ byteAt s (p1 - 1) = 93 := by
  unfold parse_scanset at h
  simp only at h
  cases hl : scanset_loop f s f (if (byteAt s p == 94) = true then p + 1 else p) true zero_table with
  | none =>
    rw [hl] at h
    cases h
  | some r =>
    obtain ⟨q, table⟩ := r
    rw [hl] at h
    simp only at h
    split at h
    · cases h
    · rename_i hc
      simp only [bne_iff_ne, ne_eq, not_not] at hc
      simp only [Option.some.injEq, scan_t.ok.injEq] at h
      obtain ⟨h1, h2⟩ := h
      subst h1 h2
      exact ⟨rfl, rfl, by simpa using hc⟩

theorem produced_scanset_data {f : Nat} {s : List Nat} {e : entry_t} (h : produced f s e) :
    ((e.token.type ≠ token_type_t.TOK_CONV ∨ e.token.spec ≠ 91) →
        e.token.scanset_table = zero_table ∧ e.token.is_scanset_invert = false) ∧
      (e.token.spec = 91 →
        e.token.type = token_type_t.TOK_CONV ∧ byteAt s (e.stop - 1) = 93 ∧
          ∃ (q : Nat) (token : token_t), e.start < q ∧ byteAt s q = 91 ∧
            parse_scanset f s (q + 1) = some (scan_t.ok e.stop token) ∧
            e.token.scanset_table = token.scanset_table ∧
            e.token.is_scanset_invert = token.is_scanset_invert) := by
  cases h with
  | whitespace p p1 hsp hl =>
    exact ⟨fun _ => ⟨rfl, rfl⟩, fun h => by cases h⟩
  | literal p p1 h0 hsp h37 hl =>
    exact ⟨fun _ => ⟨rfl, rfl⟩, fun h => by cases h⟩
  | percent p h1 h2 =>
    exact ⟨fun _ => ⟨rfl, rfl⟩, fun h => by cases h⟩
  | conversion p q sup w m h1 hq h0 h91 =>
    exact ⟨fun _ => ⟨rfl, rfl⟩, fun h => absurd h h91⟩
  | scanset p q p1 sup w m token h1 hq h91 hs =>
    have hsh := parse_scanset_shape s hs
    refine ⟨?_, ?_⟩
    · rintro (h | h)
      · exact absurd hsh.1 h
      · exact absurd hsh.2.1 h
    · intro _
      exact ⟨hsh.1, hsh.2.2, q, token, hq, h91, hs, rfl, rfl⟩

/-- C14: in the token sequence of a successful parse, every Literal or
Whitespace token and every Conversion token whose spec is not `[` has an
all-zero table and no inversion; every token whose spec is `[` is a Conversion
that the scanset scanner produced from the `[` of its directive, and the last
byte it consumed is a `]`. -/
theorem scanset_data_only_on_bracket (fuel : Nat) (s : List Nat) (tokens : List token_t)
    (h : parse_format fuel s = some (parse_t.ok tokens)) :
    (∀ t ∈ tokens, (t.type ≠ token_type_t.TOK_CONV ∨ t.spec ≠ 91) →
        t.scanset_table = List.replicate 256 0 ∧ t.is_scanset_invert = false) ∧
      ∃ entries : List entry_t,
        parse_trace fuel s = some (0, entries) ∧ entries.map entry_t.token = tokens ∧
          ∀ e ∈ entries, e.token.spec = 91 →
            e.token.type = token_type_t.TOK_CONV ∧ byteAt s (e.stop - 1) = 93 ∧
              ∃ (q : Nat) (token : token_t), e.start < q ∧ byteAt s q = 91 ∧
                parse_scanset fuel s (q + 1) = some (scan_t.ok e.stop token) ∧
                e.token.scanset_table = token.scanset_table ∧
                e.token.is_scanset_invert = token.is_scanset_invert := by
  obtain ⟨entries, htr, hmap⟩ := parse_format_entries h
  have hp := parse_trace_produced htr
  refine ⟨?_, entries, htr, hmap, ?_⟩
  · intro t ht hcond
    rw [← hmap] at ht
    obtain ⟨e, he, rfl⟩ := List.mem_map.mp ht
    exact (produced_scanset_data (hp e he)).1 hcond
  · intro e he hspec
    exact (produced_scanset_data (hp e he)).2 hspec

/-- C14, instance `"%[ab]x"`: the Literal `x` carries no scanset data. -/
theorem scanset_data_only_on_bracket_witness :
    parse_format 4 [37, 91, 97, 98, 93, 120]
        = some (parse_t.ok
            [{ conversion_token false 0 length_t.LEN_NONE 91 with
                scanset_table := (zero_table.set 97 1).set 98 1 },
              literal_token 5 1]) ∧
      ∀ t ∈ [{ conversion_token false 0 length_t.LEN_NONE 91 with
                scanset_table := (zero_table.set 97 1).set 98 1 },
              literal_token 5 1],
        (t.type ≠ token_type_t.TOK_CONV ∨ t.spec ≠ 91) →
          t.scanset_table = List.replicate 256 0 ∧ t.is_scanset_invert = false :=
  ⟨by rfl,
    (scanset_data_only_on_bracket 4 [37, 91, 97, 98, 93, 120]
      [{ conversion_token false 0 length_t.LEN_NONE 91 with
          scanset_table := (zero_table.set 97 1).set 98 1 },
        literal_token 5 1] (by rfl)).1⟩

/-! ## The literal dash of a scanset -/

theorem member_set_of_member (table : List Nat) (i b : Nat) (h : member table b = true) :
    member (table.set i 1) b = true := by
  rw [member_set, h, Bool.or_true]

theorem range_loop_grows {f c e : Nat} {table table1 : List Nat}
    (h : range_loop f table c e = some table1) :
    table1.length = table.length ∧
      ∀ b : Nat, member table b = true → member table1 b = true := by
  induction f generalizing c table with
  | zero => simp [range_loop] at h
  | succ n ih =>
    rw [range_loop] at h
    split at h
    · obtain ⟨h1, h2⟩ := ih h
      refine ⟨by rw [h1, List.length_set], ?_⟩
      intro b hb
      exact h2 b (member_set_of_member table c b hb)
    · simp only [Option.some.injEq] at h
      subst h
      exact ⟨rfl, fun _ hb => hb⟩

theorem range_loop_member {f c e : Nat} {table table1 : List Nat}
    (h : range_loop f table c e = some table1) (he : e < 255) :
    ∀ x : Nat, member table1 x
      = (decide (c ≤ x ∧ x ≤ e ∧ x < table.length) || member table x) := by
  induction f generalizing c table with
  | zero => simp [range_loop] at h
  | succ n ih =>
    rw [range_loop] at h
    split at h
    · rename_i hce
      have hmod : (c + 1) % 256 = c + 1 := Nat.mod_eq_of_lt (by omega)
      rw [hmod] at h
      intro x
      rw [ih h x, member_set, List.length_set]
      by_cases hx : member table x = true
      · simp [hx]
      · simp only [Bool.not_eq_true] at hx
        simp only [hx, Bool.or_false]
        rw [← Bool.decide_or]
        apply decide_eq_decide.mpr
        constructor
        · rintro (h1 | h1) <;> omega
        · intro h1
          by_cases hcx : c = x
          · exact Or.inr ⟨hcx, by omega⟩
          · exact Or.inl (by omega)
    · rename_i hce
      simp only [Option.some.injEq] at h
      subst h
      intro x
      have : ¬ (c ≤ x ∧ x ≤ e ∧ x < table.length) := by omega
      simp [this]

theorem scanset_loop_grows (s : List Nat) {b f p q : Nat} {first_char : Bool}
    {table table1 : List Nat} (h : scanset_loop b s f p first_char table = some (q, table1)) :
    table1.length = table.length ∧ p ≤ q ∧ (byteAt s q = 0 ∨ byteAt s q = 93) ∧
      ∀ x : Nat, member table x = true → member table1 x = true := by
  induction f generalizing p first_char table with
  | zero => simp [scanset_loop] at h
  | succ n ih =>
    rw [scanset_loop] at h
    split at h
    · split at h
      · simp only at h
        split at h
        · cases hrl : range_loop b table (byteAt s (p - 1)) (byteAt s (p + 1)) with
          | none =>
            rw [hrl] at h
            cases h
          | some t1 =>
            rw [hrl] at h
            obtain ⟨h1, h2, h3, h4⟩ := ih h
            obtain ⟨g1, g2⟩ := range_loop_grows hrl
            exact ⟨by rw [h1, g1], by omega, h3, fun x hx => h4 x (g2 x hx)⟩
        · obtain ⟨h1, h2, h3, h4⟩ := ih h
          exact ⟨h1, by omega, h3, h4⟩
      · obtain ⟨h1, h2, h3, h4⟩ := ih h
        exact ⟨by rw [h1, List.length_set], by omega, h3,
          fun x hx => h4 x (member_set_of_member table _ x hx)⟩
    · rename_i hc
      simp only [Bool.and_eq_true, bne_iff_ne, ne_eq, not_and, not_not] at hc
      simp only [Option.some.injEq, Prod.mk.injEq] at h
      obtain ⟨h1, h2⟩ := h
      subst h1 h2
      refine ⟨rfl, le_refl _, ?_, fun _ hx => hx⟩
      by_cases h0 : byteAt s p = 0
      · exact Or.inl h0
      · exact Or.inr (hc h0)

theorem scanset_loop_marks_current (s : List Nat) {b f p q : Nat} {table table1 : List Nat}
    (first_char : Bool) (h : scanset_loop b s f p first_char table = some (q, table1))
    (hlen : table.length = 256) (h45 : byteAt s p = 45)
    (hlit : first_char = true ∨ byteAt s (p + 1) = 93) : member table1 45 = true := by
  cases f with
  | zero => simp [scanset_loop] at h
  | succ n =>
    rw [scanset_loop] at h
    have hc : (byteAt s p != 0 && byteAt s p != 93) = true := by simp [h45]
    have hr : ¬ (byteAt s p == 45 && !first_char && byteAt s (p + 1) != 0
        && byteAt s (p + 1) != 93) = true := by
      rcases hlit with hf | h93
      · simp [hf]
      · simp [h93]
    rw [if_pos hc, if_neg hr, h45] at h
    refine (scanset_loop_grows s h).2.2.2 45 ?_
    rw [member_set]
    simp [hlen]

theorem scanset_loop_marks_last (s : List Nat) {b f p q : Nat} {first_char : Bool}
    {table table1 : List Nat} (h : scanset_loop b s f p first_char table = some (q, table1))
    (hlen : table.length = 256) (hpq : p + 1 ≤ q) (h93 : byteAt s q = 93)
    (h45 : byteAt s (q - 1) = 45) (hprev : p + 1 = q ∨ byteAt s (q - 2) ≠ 45) :
    member table1 45 = true := by
  induction f generalizing p first_char table with
  | zero => simp [scanset_loop] at h
  | succ n ih =>
    by_cases hlast : p + 1 = q
    · have hq : q - 1 = p := by omega
      rw [hq] at h45
      rw [← hlast] at h93
      exact scanset_loop_marks_current s first_char h hlen h45 (Or.inr h93)
    · have hne : byteAt s (q - 2) ≠ 45 := by
        rcases hprev with h1 | h1
        · exact absurd h1 hlast
        · exact h1
      rw [scanset_loop] at h
      split at h
      · split at h
        · rename_i hr
          simp only [Bool.and_eq_true, bne_iff_ne, ne_eq, beq_iff_eq] at hr
          have hp2 : p + 2 ≠ q := by
            intro h2
            have : q - 2 = p := by omega
            rw [this] at hne
            exact hne hr.1.1.1
          have hb : ∀ t : List Nat, t.length = 256 →
              scanset_loop b s n (p + 2) false t = some (q, table1) →
              member table1 45 = true := by
            intro t ht hrec
            have hle := (scanset_loop_grows s hrec).2.1
            exact ih hrec ht (by omega) (Or.inr hne)
          simp only at h
          split at h
          · cases hrl : range_loop b table (byteAt s (p - 1)) (byteAt s (p + 1)) with
            | none =>
              rw [hrl] at h
              cases h
            | some t1 =>
              rw [hrl] at h
              exact hb t1 (by rw [(range_loop_grows hrl).1, hlen]) h
          · exact hb table hlen h
        · exact ih h (by rw [List.length_set, hlen]) (by omega) (Or.inr hne)
      · simp only [Option.some.injEq, Prod.mk.injEq] at h
        omega

theorem mem_members_from (table : List Nat) (i b : Nat) :
    b ∈ members_from i table ↔ i ≤ b ∧ member table (b - i) = true := by
  induction table generalizing i with
  | nil => simp [members_from, member]
  | cons c cells ih =>
    rw [members_from]
    by_cases hb : b = i
    · subst hb
      by_cases hc : c = 0
      · have : ¬ b + 1 ≤ b := by omega
        simp [hc, ih, member, this]
      · simp [hc, member]
    · have hsub : i ≤ b → b - i = (b - (i + 1)) + 1 := by omega
      by_cases hc : c = 0
      · simp only [hc, bne_self_eq_false, Bool.false_eq_true, if_false, ih]
        constructor
        · rintro ⟨h1, h2⟩
          refine ⟨by omega, ?_⟩
          rw [hsub (by omega)]
          simpa [member] using h2
        · rintro ⟨h1, h2⟩
          refine ⟨by omega, ?_⟩
          rw [hsub h1] at h2
          simpa [member] using h2
      · simp only [bne_iff_ne, ne_eq, hc, not_false_eq_true, if_true, List.mem_cons, hb, false_or, ih]
        constructor
        · rintro ⟨h1, h2⟩
          refine ⟨by omega, ?_⟩
          rw [hsub (by omega)]
          simpa [member] using h2
        · rintro ⟨h1, h2⟩
          refine ⟨by omega, ?_⟩
          rw [hsub h1] at h2
          simpa [member] using h2

theorem mem_members (table : List Nat) (b : Nat) : b ∈ members table ↔ member table b = true := by
  simp [members, mem_members_from]

set_option maxRecDepth 4000 in
theorem members_set_97 : members (zero_table.set 97 1) = [97] := by
  rfl

set_option maxRecDepth 4000 in
theorem parse_format_dash_last :
    ∃ t : token_t, parse_format 27 [37, 91, 97, 45, 122, 45, 93] = some (parse_t.ok [t]) ∧
      t.spec = 91 ∧ t.is_scanset_invert = false ∧
      members t.scanset_table = 45 :: List.range' 97 26 :=
  ⟨_, by rfl, rfl, rfl, by rfl⟩

set_option maxRecDepth 4000 in
theorem parse_format_dash_first :
    ∃ t : token_t, parse_format 27 [37, 91, 45, 97, 45, 122, 93] = some (parse_t.ok [t]) ∧
      t.spec = 91 ∧ t.is_scanset_invert = false ∧
      members t.scanset_table = 45 :: List.range' 97 26 :=
  ⟨_, by rfl, rfl, rfl, by rfl⟩

/-- C17, counterexample: `%[a--]` parses, the byte before its closing `]` is
`-`, and `-` is not a member of the table: the second `-` is taken as the
upper bound of the reversed range `a--`. -/
theorem parse_format_dash_as_upper_bound :
    parse_format 4 [37, 91, 97, 45, 45, 93]
        = some (parse_t.ok
            [{ type := token_type_t.TOK_CONV
               lit := none
               lit_len := 0
               is_suppress := false
               width := 0
               length := length_t.LEN_NONE
               spec := 91
               scanset_table := zero_table.set 97 1
               is_scanset_invert := false }]) ∧
      byteAt [37, 91, 97, 45, 45, 93] 4 = 45 ∧ byteAt [37, 91, 97, 45, 45, 93] 5 = 93 ∧
      member (zero_table.set 97 1) 45 = false ∧ members (zero_table.set 97 1) = [97] := by
  exact ⟨by rfl, by decide, by decide, by rfl, members_set_97⟩

theorem scanset_loop_reaches (s : List Nat) {b f p q d : Nat} {first_char : Bool}
    {table table1 : List Nat} (h : scanset_loop b s f p first_char table = some (q, table1))
    (hlen : table.length = 256) (hpd : p ≤ d) (hdq : d < q) :
    (∃ (g : Nat) (fc : Bool) (t : List Nat),
        scanset_loop b s g d fc t = some (q, table1) ∧ t.length = 256) ∨
      (p < d ∧ byteAt s (d - 1) = 45 ∧
        ∃ (g : Nat) (t : List Nat),
          scanset_loop b s g (d - 1) false t = some (q, table1) ∧ t.length = 256) := by
  induction f generalizing p first_char table with
  | zero => simp [scanset_loop] at h
  | succ n ih =>
    by_cases hd : d = p
    · subst hd
      exact Or.inl ⟨n + 1, first_char, table, h, hlen⟩
    · have h0 := h
      rw [scanset_loop] at h
      split at h
      · split at h
        · rename_i hr
          simp only [Bool.and_eq_true, bne_iff_ne, ne_eq, beq_iff_eq, Bool.not_eq_true'] at hr
          by_cases hd1 : d = p + 1
          · subst hd1
            refine Or.inr ⟨by omega, by simpa using hr.1.1.1, n + 1, table, ?_, hlen⟩
            have hfc : first_char = false := hr.1.1.2
            subst hfc
            simpa using h0
          · have hb : ∀ t : List Nat, t.length = 256 →
                scanset_loop b s n (p + 2) false t = some (q, table1) → _ :=
              fun t ht hrec => ih hrec ht (by omega)
            simp only at h
            split at h
            · cases hrl : range_loop b table (byteAt s (p - 1)) (byteAt s (p + 1)) with
              | none =>
                rw [hrl] at h
                cases h
              | some t1 =>
                rw [hrl] at h
                rcases hb t1 (by rw [(range_loop_grows hrl).1, hlen]) h with h1 | h1
                · exact Or.inl h1
                · exact Or.inr ⟨by omega, h1.2⟩
            · rcases hb table hlen h with h1 | h1
              · exact Or.inl h1
              · exact Or.inr ⟨by omega, h1.2⟩
        · rcases ih h (by rw [List.length_set, hlen]) (by omega) with h1 | h1
          · exact Or.inl h1
          · exact Or.inr ⟨by omega, h1.2⟩
      · simp only [Option.some.injEq, Prod.mk.injEq] at h
        omega

theorem scanset_loop_marks_range (s : List Nat) {b f p q : Nat} {table table1 : List Nat}
    (h : scanset_loop b s f p false table = some (q, table1))
    (hlen : table.length = 256) (h45 : byteAt s p = 45) (hnext : byteAt s (p + 1) = 45)
    (hlo : byteAt s (p - 1) ≤ 45) : member table1 45 = true := by
  cases f with
  | zero => simp [scanset_loop] at h
  | succ n =>
    rw [scanset_loop] at h
    have hc : (byteAt s p != 0 && byteAt s p != 93) = true := by simp [h45]
    have hr : (byteAt s p == 45 && !false && byteAt s (p + 1) != 0
        && byteAt s (p + 1) != 93) = true := by simp [h45, hnext]
    rw [if_pos hc, if_pos hr] at h
    simp only [hnext, if_pos hlo] at h
    cases hrl : range_loop b table (byteAt s (p - 1)) 45 with
    | none =>
      rw [hrl] at h
      cases h
    | some t1 =>
      rw [hrl] at h
      refine (scanset_loop_grows s h).2.2.2 45 ?_
      rw [range_loop_member hrl (by omega)]
      simp [hlo, hlen]


set_option maxRecDepth 4000 in
theorem parse_format_dash_after_low_byte :
    ∃ t : token_t, parse_format 20 [37, 91, 33, 45, 45, 93] = some (parse_t.ok [t]) ∧
      t.spec = 91 ∧ t.is_scanset_invert = false ∧
      members t.scanset_table = List.range' 33 13 :=
  ⟨_, by rfl, rfl, rfl, by rfl⟩

set_option maxRecDepth 4000 in
theorem parse_format_three_dashes :
    ∃ t : token_t, parse_format 4 [37, 91, 97, 45, 45, 45, 93] = some (parse_t.ok [t]) ∧
      t.spec = 91 ∧ t.is_scanset_invert = false ∧
      members t.scanset_table = [45, 97] :=
  ⟨_, by rfl, rfl, rfl, by rfl⟩

set_option maxRecDepth 4000 in
theorem parse_format_four_dashes :
    ∃ t : token_t, parse_format 4 [37, 91, 97, 45, 45, 45, 45, 93] = some (parse_t.ok [t]) ∧
      t.spec = 91 ∧ t.is_scanset_invert = false ∧
      members t.scanset_table = [45, 97] :=
  ⟨_, by rfl, rfl, rfl, by rfl⟩

/-- C17, amended: in a successfully parsed scanset, `-` is a member of the
table when the first byte of the set (after the optional `^`) is `-`, or when
the byte before the closing `]` is a `-` of the set, unless that `-` is the
second of two `-` that follow, within the set, a byte greater than `-` (the
scanner then takes it as the upper bound of a reversed range); `%[a-z-]` and
`%[-a-z]` both give exactly `-` and the 26 lowercase letters. -/
theorem scanset_dash_member :
    (∀ (fuel : Nat) (s : List Nat) (p p1 : Nat) (token : token_t),
      parse_scanset fuel s p = some (scan_t.ok p1 token) →
      (byteAt s (if byteAt s p = 94 then p + 1 else p) = 45 ∨
        ((if byteAt s p = 94 then p + 1 else p) + 2 ≤ p1 ∧ byteAt s (p1 - 2) = 45 ∧
          ¬ ((if byteAt s p = 94 then p + 1 else p) + 4 ≤ p1 ∧ byteAt s (p1 - 3) = 45 ∧
            45 < byteAt s (p1 - 4)))) →
      member token.scanset_table 45 = true) ∧
      (∀ f : Nat, 27 ≤ f →
        ∃ t : token_t, parse_format f [37, 91, 97, 45, 122, 45, 93] = some (parse_t.ok [t]) ∧
          t.spec = 91 ∧ t.is_scanset_invert = false ∧
          members t.scanset_table = 45 :: List.range' 97 26) ∧
      (∀ f : Nat, 27 ≤ f →
        ∃ t : token_t, parse_format f [37, 91, 45, 97, 45, 122, 93] = some (parse_t.ok [t]) ∧
          t.spec = 91 ∧ t.is_scanset_invert = false ∧
          members t.scanset_table = 45 :: List.range' 97 26) := by
  refine ⟨?_, ?_, ?_⟩
  · intro fuel s p p1 token h hd
    unfold parse_scanset at h
    simp only [beq_iff_eq] at h
    cases hl : scanset_loop fuel s fuel (if byteAt s p = 94 then p + 1 else p) true zero_table with
    | none =>
      rw [hl] at h
      cases h
    | some r =>
      obtain ⟨q, table⟩ := r
      rw [hl] at h
      simp only at h
      split at h
      · cases h
      · rename_i hc
        simp only [bne_iff_ne, ne_eq, not_not] at hc
        simp only [Option.some.injEq, scan_t.ok.injEq] at h
        obtain ⟨h1, h2⟩ := h
        subst h1 h2
        simp only
        have hfirst : byteAt s (if byteAt s p = 94 then p + 1 else p) = 45 →
            member table 45 = true :=
          fun h45 => scanset_loop_marks_current s true hl zero_table_length h45 (Or.inl rfl)
        rcases hd with h45 | ⟨hlen, h45, hnot⟩
        · exact hfirst h45
        · generalize (if byteAt s p = 94 then p + 1 else p) = p0 at hl hlen hnot hfirst
          have e2 : q + 1 - 2 = q - 1 := by omega
          have e3 : q + 1 - 3 = q - 1 - 1 := by omega
          have e4 : q + 1 - 4 = q - 1 - 1 - 1 := by omega
          rw [e2] at h45
          rw [e3, e4] at hnot
          rcases scanset_loop_reaches s hl zero_table_length (show p0 ≤ q - 1 by omega)
            (by omega) with ⟨g, fc, t, hv, ht⟩ | ⟨hlt, hprev, g, t, hv, ht⟩
          · refine scanset_loop_marks_current s fc hv ht h45 (Or.inr ?_)
            rw [show q - 1 + 1 = q by omega]
            exact hc
          · by_cases hp0 : p0 = q - 1 - 1
            · exact hfirst (by rw [hp0]; exact hprev)
            · refine scanset_loop_marks_range s hv ht hprev ?_ ?_
              · rw [show q - 1 - 1 + 1 = q - 1 by omega]
                exact h45
              · by_contra hgt
                exact hnot ⟨by omega, hprev, by omega⟩
  · intro f hf
    obtain ⟨t, h1, h2⟩ := parse_format_dash_last
    exact ⟨t, parse_format_mono _ h1 hf, h2⟩
  · intro f hf
    obtain ⟨t, h1, h2⟩ := parse_format_dash_first
    exact ⟨t, parse_format_mono _ h1 hf, h2⟩

/-- C17, amended, instance: the scanset of `%[!--]`, entered at offset 2; the
last `-` is the upper bound of the range from `!`, which holds `-`. -/
theorem scanset_dash_member_witness :
    ∃ token : token_t,
      parse_scanset 20 [37, 91, 33, 45, 45, 93] 2 = some (scan_t.ok 6 token) ∧
        member token.scanset_table 45 = true :=
  ⟨_, by rfl,
    scanset_dash_member.1 20 [37, 91, 33, 45, 45, 93] 2 6 _ (by rfl)
      (Or.inr ⟨by decide, by decide, by decide⟩)⟩

/-! ## The two scanset strategies -/

theorem two_pass_mark_loop_idle (budget fuel : Nat) (s : List Nat) (p : Nat)
    (first_char_in_set : Bool) (table : List Nat) :
    TwoPass.mark_loop budget s p (fuel + 1) p first_char_in_set table = some table := by
  rw [TwoPass.mark_loop, if_neg (Nat.lt_irrefl p)]

/-- Whatever the set, the scanset token of `format_parser.h` has an all-zero
table, and its cursor stops one byte after the start of the set. -/
theorem two_pass_table_empty (f : Nat) (s : List Nat) (p p1 : Nat) (token : token_t)
    (h : TwoPass.parse_scanset f s p = some (scan_t.ok p1 token)) :
    token.scanset_table = zero_table ∧
      p1 = (if byteAt s p == 94 then p + 1 else p) + 1 := by
  unfold TwoPass.parse_scanset at h
  dsimp only at h
  cases hfind : TwoPass.find_loop s f (if (byteAt s p == 94) = true then p + 1 else p) with
  | none =>
    rw [hfind] at h
    cases h
  | some current_ptr =>
    rw [hfind] at h
    cases f with
    | zero => simp [TwoPass.find_loop] at hfind
    | succ n =>
      rw [two_pass_mark_loop_idle] at h
      dsimp only at h
      split at h
      · cases h
      · injection h with h
        injection h with h1 h2
        subst h1 h2
        exact ⟨rfl, rfl⟩

set_option maxRecDepth 4000 in
theorem members_abc : members (((zero_table.set 97 1).set 98 1).set 99 1) = [97, 98, 99] := by
  rfl

/-- C18: on `%[abc]`, whose scanset has no `-`, the two implementations
disagree. The one of `format_parser.c` returns one Conversion token whose table
holds `a`, `b`, `c`; the one of `format_parser.h` never enters its marking loop
and moves the cursor by one byte only, so it returns a Conversion token with an
all-zero table followed by a Literal token for `bc]`. -/
theorem two_pass_disagrees :
    45 ∉ [37, 91, 97, 98, 99, 93] ∧
      parse_format 4 [37, 91, 97, 98, 99, 93]
        = some (parse_t.ok
            [{ type := token_type_t.TOK_CONV
               lit := none
               lit_len := 0
               is_suppress := false
               width := 0
               length := length_t.LEN_NONE
               spec := 91
               scanset_table := ((zero_table.set 97 1).set 98 1).set 99 1
               is_scanset_invert := false }]) ∧
      members (((zero_table.set 97 1).set 98 1).set 99 1) = [97, 98, 99] ∧
      TwoPass.parse_format 4 [37, 91, 97, 98, 99, 93]
        = some (parse_t.ok
            [{ type := token_type_t.TOK_CONV
               lit := none
               lit_len := 0
               is_suppress := false
               width := 0
               length := length_t.LEN_NONE
               spec := 91
               scanset_table := zero_table
               is_scanset_invert := false },
             { type := token_type_t.TOK_LITERAL
               lit := some 3
               lit_len := 3
               is_suppress := false
               width := 0
               length := length_t.LEN_NONE
               spec := 0
               scanset_table := zero_table
               is_scanset_invert := false }]) ∧
      TwoPass.parse_format 4 [37, 91, 97, 98, 99, 93]
        ≠ parse_format 4 [37, 91, 97, 98, 99, 93] := by
  refine ⟨by decide, by rfl, members_abc, by rfl, ?_⟩
  have h1 : TwoPass.parse_format 4 [37, 91, 97, 98, 99, 93]
      = some (parse_t.ok [conversion_token false 0 length_t.LEN_NONE 91, literal_token 3 3]) := by
    rfl
  have h2 : parse_format 4 [37, 91, 97, 98, 99, 93]
      = some (parse_t.ok
          [{ conversion_token false 0 length_t.LEN_NONE 91 with
              scanset_table := ((zero_table.set 97 1).set 98 1).set 99 1 }]) := by
    rfl
  rw [h1, h2]
  intro h
  simp only [Option.some.injEq, parse_t.ok.injEq] at h
  have := congrArg List.length h
  simp at this

/-! ## The scanset scanner against the algorithm of the specification -/

theorem drop_step (s : List Nat) (p : Nat) (h : p < s.length) :
    s.drop p = byteAt s p :: s.drop (p + 1) := by
  rw [List.drop_eq_getElem_cons h]
  simp [byteAt, List.getElem?_eq_getElem h]

theorem headD_drop (s : List Nat) (p : Nat) : (s.drop p).headD 0 = byteAt s p := by
  have h := byteAt_drop s p 0
  rw [Nat.add_zero] at h
  rw [← h]
  cases s.drop p <;> simp [byteAt]

theorem reference_loop_nil (update : Bool) (slot : Option Nat) (first : Bool)
    (table : Nat → Bool) : reference_loop update [] slot first table = table := by
  unfold reference_loop
  rfl

theorem reference_loop_stop (update : Bool) (rest : List Nat) (slot : Option Nat)
    (first : Bool) (table : Nat → Bool) :
    reference_loop update (93 :: rest) slot first table = table := by
  unfold reference_loop
  simp

theorem reference_loop_range (update : Bool) (hi : Nat) (rest2 : List Nat) (slot : Option Nat)
    (table : Nat → Bool) (h93 : hi ≠ 93) :
    reference_loop update (45 :: hi :: rest2) slot false table
      = reference_loop update rest2 (if update then some hi else slot) false
          (if slot.getD 0 ≤ hi then
            fun b => table b || (decide (slot.getD 0 ≤ b) && decide (b ≤ hi))
          else table) := by
  conv => lhs; unfold reference_loop
  simp [h93]

theorem reference_loop_mark (update : Bool) (c : Nat) (rest : List Nat) (slot : Option Nat)
    (first : Bool) (table : Nat → Bool) (h93 : c ≠ 93)
    (hcond : ¬ (c = 45 ∧ first = false ∧ rest ≠ [] ∧ rest.headD 0 ≠ 93)) :
    reference_loop update (c :: rest) slot first table
      = reference_loop update rest (some c) false (fun b => table b || b == c) := by
  conv => lhs; unfold reference_loop
  rw [if_neg h93, if_neg hcond]

theorem member_set_fun (table : List Nat) (c : Nat) (hlen : table.length = 256)
    (hc : c < 256) :
    (fun x => member (table.set c 1) x) = fun x => member table x || x == c := by
  funext x
  rw [member_set, hlen, Bool.or_comm]
  congr 1
  by_cases hcx : c = x
  · subst hcx
    simp [hc]
  · have : ¬ x = c := fun h => hcx h.symm
    simp [hcx, this]

theorem scanset_loop_refines (s : List Nat) {b f p q : Nat} {first_char : Bool}
    {table table1 : List Nat} (slot : Option Nat)
    (h : scanset_loop b s f p first_char table = some (q, table1))
    (hbytes : ∀ i : Nat, p ≤ i → byteAt s i < 255)
    (hnz : ∀ i : Nat, p ≤ i → i < s.length → byteAt s i ≠ 0)
    (hlen : table.length = 256)
    (hslot : first_char = false → slot = some (byteAt s (p - 1))) :
    (fun x => member table1 x)
      = reference_loop true (s.drop p) slot first_char (fun x => member table x) := by
  induction f generalizing p first_char table slot with
  | zero => simp [scanset_loop] at h
  | succ n ih =>
    rw [scanset_loop] at h
    split at h
    · rename_i hc
      simp only [Bool.and_eq_true, bne_iff_ne, ne_eq] at hc
      have hlt := lt_length_of_byteAt_ne_zero hc.1
      rw [drop_step s p hlt]
      have hcond : (byteAt s p = 45 ∧ first_char = false ∧ s.drop (p + 1) ≠ [] ∧
          (s.drop (p + 1)).headD 0 ≠ 93)
          ↔ (byteAt s p = 45 ∧ first_char = false ∧ byteAt s (p + 1) ≠ 0 ∧
            byteAt s (p + 1) ≠ 93) := by
        rw [headD_drop]
        constructor
        · rintro ⟨h1, h2, h3, h4⟩
          refine ⟨h1, h2, ?_, h4⟩
          have : p + 1 < s.length := by
            by_contra hge
            exact h3 (List.drop_eq_nil_of_le (by omega))
          exact hnz _ (by omega) this
        · rintro ⟨h1, h2, h3, h4⟩
          refine ⟨h1, h2, ?_, h4⟩
          have := lt_length_of_byteAt_ne_zero h3
          intro hnil
          have := congrArg List.length hnil
          simp at this
          omega
      split at h
      · rename_i hr
        simp only [Bool.and_eq_true, bne_iff_ne, ne_eq, beq_iff_eq, Bool.not_eq_true'] at hr
        have hr2 : byteAt s p = 45 ∧ first_char = false ∧ byteAt s (p + 1) ≠ 0 ∧
            byteAt s (p + 1) ≠ 93 := ⟨hr.1.1.1, hr.1.1.2, hr.1.2, hr.2⟩
        have hlt1 := lt_length_of_byteAt_ne_zero hr2.2.2.1
        rw [drop_step s (p + 1) hlt1, hr2.1, hr2.2.1,
          reference_loop_range true _ _ _ _ hr2.2.2.2, hslot hr2.2.1]
        simp only [if_true, Option.getD_some]
        have he := hbytes (p + 1) (by omega)
        simp only at h
        split at h
        · rename_i hse
          rw [if_pos hse]
          cases hrl : range_loop b table (byteAt s (p - 1)) (byteAt s (p + 1)) with
          | none =>
            rw [hrl] at h
            cases h
          | some t1 =>
            rw [hrl] at h
            have hrec := ih (some (byteAt s (p + 1))) h (fun i hi => hbytes i (by omega))
              (fun i hi => hnz i (by omega)) (by rw [(range_loop_grows hrl).1, hlen])
              (fun _ => by simp)
            have htab : (fun x => member t1 x)
                = fun x => member table x
                    || (decide (byteAt s (p - 1) ≤ x) && decide (x ≤ byteAt s (p + 1))) := by
              funext x
              rw [range_loop_member hrl he x, hlen, Bool.or_comm]
              congr 1
              rw [← Bool.decide_and]
              apply decide_eq_decide.mpr
              constructor
              · rintro ⟨h1, h2, _⟩
                exact ⟨h1, h2⟩
              · rintro ⟨h1, h2⟩
                exact ⟨h1, h2, by omega⟩
            rw [hrec, htab]
        · rename_i hse
          rw [if_neg hse]
          exact ih (some (byteAt s (p + 1))) h (fun i hi => hbytes i (by omega))
            (fun i hi => hnz i (by omega)) hlen (fun _ => by simp)
      · rename_i hr
        have hr2 : ¬ (byteAt s p = 45 ∧ first_char = false ∧ byteAt s (p + 1) ≠ 0 ∧
            byteAt s (p + 1) ≠ 93) := by
          intro hh
          apply hr
          simp [hh.1, hh.2.1, hh.2.2.1, hh.2.2.2]
        rw [reference_loop_mark true _ _ _ _ _ hc.2 (fun hh => hr2 (hcond.mp hh))]
        have hrec := ih (some (byteAt s p)) h (fun i hi => hbytes i (by omega))
          (fun i hi => hnz i (by omega)) (by rw [List.length_set, hlen]) (fun _ => by simp)
        rw [hrec, member_set_fun table _ hlen (by have := hbytes p (le_refl _); omega)]
    · rename_i hc
      simp only [Bool.and_eq_true, bne_iff_ne, ne_eq, not_and, not_not] at hc
      simp only [Option.some.injEq, Prod.mk.injEq] at h
      obtain ⟨h1, h2⟩ := h
      subst h1 h2
      by_cases hlt : p < s.length
      · have h93 := hc (hnz p (le_refl _) hlt)
        rw [drop_step s p hlt, h93, reference_loop_stop]
      · rw [List.drop_eq_nil_of_le (by omega), reference_loop_nil]

theorem reference_scanset_caret (update : Bool) (body : List Nat) :
    reference_scanset update (94 :: body)
      = (true, reference_loop update body none true (fun _ => false)) := by
  unfold reference_scanset
  rfl

theorem reference_scanset_plain (update : Bool) (r : List Nat) (h : byteAt r 0 ≠ 94) :
    reference_scanset update r
      = (false, reference_loop update r none true (fun _ => false)) := by
  unfold reference_scanset
  split
  · simp [byteAt] at h
  · rfl

set_option maxRecDepth 4000 in
theorem parse_format_chained_reversed :
    parse_format 4 [37, 91, 122, 45, 97, 45, 99, 93]
        = some (parse_t.ok
            [{ conversion_token false 0 length_t.LEN_NONE 91 with
                scanset_table := (((zero_table.set 122 1).set 97 1).set 98 1).set 99 1 }]) ∧
      members ((((zero_table.set 122 1).set 97 1).set 98 1).set 99 1) = [97, 98, 99, 122] :=
  ⟨by rfl, by rfl⟩

set_option maxRecDepth 4000 in
theorem parse_format_chained_ranges :
    ∃ t : token_t, parse_format 6 [37, 91, 97, 45, 99, 45, 101, 93] = some (parse_t.ok [t]) ∧
      members t.scanset_table = [97, 98, 99, 100, 101] :=
  ⟨_, by rfl, by rfl⟩

/-- The scanner in terms of a marking loop that keeps a slot: on every remaining
input `a ++ "]" ++ b` that is a C string without the byte 255, where `a` has no
`]`, the scanner succeeds and its invert flag and table are those of the marking
loop in which a range step records its upper bound in the slot, that is, in
which the lower bound of a range is the byte before its `-`. -/
theorem parse_scanset_lower_bound_before_dash (fuel : Nat) (pre a b : List Nat)
    (hr : ∀ x ∈ a ++ 93 :: b, 0 < x ∧ x < 255) (ha93 : 93 ∉ a) (hf : 256 ≤ fuel)
    (hfuel : (a ++ 93 :: b).length < fuel) :
    ∃ token : token_t,
      parse_scanset fuel (pre ++ (a ++ 93 :: b)) pre.length
          = some (scan_t.ok (pre.length + a.length + 1) token) ∧
        token.is_scanset_invert = (reference_scanset true (a ++ 93 :: b)).1 ∧
        ∀ x : Nat, member token.scanset_table x
          = (reference_scanset true (a ++ 93 :: b)).2 x := by
  have ha0 : 0 ∉ a := by
    intro h0
    have := (hr 0 (List.mem_append_left _ h0)).1
    omega
  obtain ⟨token, htok⟩ := parse_scanset_stops_at_bracket fuel pre a b
    (fun x hx => (hr x hx).2) ha0 ha93 hf hfuel
  refine ⟨token, htok, ?_⟩
  have hdrop : (pre ++ (a ++ 93 :: b)).drop pre.length = a ++ 93 :: b := by simp
  have hfirst : byteAt (pre ++ (a ++ 93 :: b)) pre.length = byteAt (a ++ 93 :: b) 0 :=
    byteAt_append_length _ _
  have hbytes : ∀ i : Nat, pre.length ≤ i → byteAt (pre ++ (a ++ 93 :: b)) i < 255 := by
    intro i hi
    obtain ⟨j, rfl⟩ : ∃ j, i = pre.length + j := ⟨i - pre.length, by omega⟩
    rw [byteAt_append_right]
    exact byteAt_lt_255 (fun x hx => (hr x hx).2) j
  have hnz : ∀ i : Nat, pre.length ≤ i → i < (pre ++ (a ++ 93 :: b)).length →
      byteAt (pre ++ (a ++ 93 :: b)) i ≠ 0 := by
    intro i hi hlt
    rw [List.length_append] at hlt
    have hm := byteAt_mem_middle pre (a ++ 93 :: b) [] i hi hlt
    rw [List.append_nil] at hm
    have := (hr _ hm).1
    omega
  have hzero : (fun x => member zero_table x) = fun _ => false := by
    funext x
    exact member_zero_table x
  unfold parse_scanset at htok
  simp only at htok
  cases hl : scanset_loop fuel (pre ++ (a ++ 93 :: b)) fuel
      (if (byteAt (pre ++ (a ++ 93 :: b)) pre.length == 94) = true then pre.length + 1
        else pre.length) true zero_table with
  | none =>
    rw [hl] at htok
    cases htok
  | some r =>
    obtain ⟨q, table⟩ := r
    rw [hl] at htok
    simp only at htok
    split at htok
    · cases htok
    · simp only [Option.some.injEq, scan_t.ok.injEq] at htok
      obtain ⟨_, h2⟩ := htok
      subst h2
      simp only
      by_cases h94 : byteAt (pre ++ (a ++ 93 :: b)) pre.length = 94
      · have hb : (byteAt (pre ++ (a ++ 93 :: b)) pre.length == 94) = true := by simp [h94]
        rw [if_pos hb] at hl
        have hsim := scanset_loop_refines _ none hl (fun i hi => hbytes i (by omega))
          (fun i hi => hnz i (by omega)) zero_table_length (fun h => by cases h)
        have hlt := @lt_length_of_byteAt_ne_zero (pre ++ (a ++ 93 :: b)) pre.length (by omega)
        have hstep := drop_step _ _ hlt
        rw [hdrop, h94] at hstep
        have href : reference_scanset true (a ++ 93 :: b)
            = (true, fun x => member table x) := by
          rw [hstep, reference_scanset_caret, ← hzero, ← hsim]
        rw [href]
        exact ⟨hb, fun _ => rfl⟩
      · have hb : ¬ (byteAt (pre ++ (a ++ 93 :: b)) pre.length == 94) = true := by simp [h94]
        rw [if_neg hb] at hl
        have hsim := scanset_loop_refines _ none hl hbytes hnz zero_table_length
          (fun h => by cases h)
        rw [hdrop] at hsim
        have href : reference_scanset true (a ++ 93 :: b)
            = (false, fun x => member table x) := by
          rw [reference_scanset_plain _ _ (by rw [← hfirst]; exact h94), ← hzero, ← hsim]
        rw [href]
        exact ⟨by simpa using h94, fun _ => rfl⟩

/-- C16, counterexample: on the body `z-a-c` the scanner marks `a`, `b`, `c`
and `z`, because the lower bound of the second range is the byte `a` before its
`-`; the algorithm of the specification, whose slot still holds `z`, marks `z`
only. -/
theorem scanset_differs_from_reference :
    parse_format 4 [37, 91, 122, 45, 97, 45, 99, 93]
        = some (parse_t.ok
            [{ type := token_type_t.TOK_CONV
               lit := none
               lit_len := 0
               is_suppress := false
               width := 0
               length := length_t.LEN_NONE
               spec := 91
               scanset_table := (((zero_table.set 122 1).set 97 1).set 98 1).set 99 1
               is_scanset_invert := false }]) ∧
      members ((((zero_table.set 122 1).set 97 1).set 98 1).set 99 1) = [97, 98, 99, 122] ∧
      (List.range 256).filter (reference_scanset false [122, 45, 97, 45, 99, 93]).2 = [122] ∧
      member ((((zero_table.set 122 1).set 97 1).set 98 1).set 99 1) 97 = true ∧
      (reference_scanset false [122, 45, 97, 45, 99, 93]).2 97 = false := by
  refine ⟨parse_format_chained_reversed.1, parse_format_chained_reversed.2, by decide, by rfl,
    by decide⟩

theorem no_range_after_reversed_loop_range (hi : Nat) (rest2 : List Nat) (slot : Option Nat)
    (reversed : Bool) (h93 : hi ≠ 93) :
    no_range_after_reversed_loop (45 :: hi :: rest2) slot false reversed
      = (!reversed &&
          no_range_after_reversed_loop rest2 slot false (decide (hi < slot.getD 0))) := by
  conv => lhs; unfold no_range_after_reversed_loop
  simp [h93]

theorem no_range_after_reversed_loop_mark (c : Nat) (rest : List Nat) (slot : Option Nat)
    (first reversed : Bool) (h93 : c ≠ 93)
    (hcond : ¬ (c = 45 ∧ first = false ∧ rest ≠ [] ∧ rest.headD 0 ≠ 93)) :
    no_range_after_reversed_loop (c :: rest) slot first reversed
      = no_range_after_reversed_loop rest (some c) false false := by
  conv => lhs; unfold no_range_after_reversed_loop
  rw [if_neg h93, if_neg hcond]

theorem no_range_to_255_loop_range (hi : Nat) (rest2 : List Nat) (h93 : hi ≠ 93) :
    no_range_to_255_loop (45 :: hi :: rest2) false
      = (hi != 255 && no_range_to_255_loop rest2 false) := by
  conv => lhs; unfold no_range_to_255_loop
  simp [h93]

theorem no_range_to_255_loop_mark (c : Nat) (rest : List Nat) (first : Bool) (h93 : c ≠ 93)
    (hcond : ¬ (c = 45 ∧ first = false ∧ rest ≠ [] ∧ rest.headD 0 ≠ 93)) :
    no_range_to_255_loop (c :: rest) first = no_range_to_255_loop rest false := by
  conv => lhs; unfold no_range_to_255_loop
  rw [if_neg h93, if_neg hcond]

theorem range_condition_drop (s : List Nat) (p : Nat) (first_char : Bool)
    (hnz : ∀ i : Nat, p ≤ i → i < s.length → byteAt s i ≠ 0) :
    (byteAt s p = 45 ∧ first_char = false ∧ s.drop (p + 1) ≠ [] ∧
        (s.drop (p + 1)).headD 0 ≠ 93)
      ↔ (byteAt s p = 45 ∧ first_char = false ∧ byteAt s (p + 1) ≠ 0 ∧
        byteAt s (p + 1) ≠ 93) := by
  rw [headD_drop]
  constructor
  · rintro ⟨h1, h2, h3, h4⟩
    refine ⟨h1, h2, ?_, h4⟩
    have : p + 1 < s.length := by
      by_contra hge
      exact h3 (List.drop_eq_nil_of_le (by omega))
    exact hnz _ (by omega) this
  · rintro ⟨h1, h2, h3, h4⟩
    refine ⟨h1, h2, ?_, h4⟩
    have := lt_length_of_byteAt_ne_zero h3
    intro hnil
    have := congrArg List.length hnil
    simp at this
    omega

theorem scanset_loop_span (s : List Nat) {b f p q : Nat} {first_char : Bool}
    {table table1 : List Nat} (h : scanset_loop b s f p first_char table = some (q, table1)) :
    ∀ i : Nat, p ≤ i → i < q → byteAt s i ≠ 0 ∧ byteAt s i ≠ 93 := by
  induction f generalizing p first_char table with
  | zero => simp [scanset_loop] at h
  | succ n ih =>
    rw [scanset_loop] at h
    split at h
    · rename_i hc
      simp only [Bool.and_eq_true, bne_iff_ne, ne_eq] at hc
      split at h
      · rename_i hr
        simp only [Bool.and_eq_true, bne_iff_ne, ne_eq] at hr
        have hb : ∀ t : List Nat, scanset_loop b s n (p + 2) false t = some (q, table1) →
            ∀ i : Nat, p ≤ i → i < q → byteAt s i ≠ 0 ∧ byteAt s i ≠ 93 := by
          intro t hrec i hi hiq
          by_cases hip : i = p
          · subst hip
            exact hc
          · by_cases hip1 : i = p + 1
            · subst hip1
              exact ⟨hr.1.2, hr.2⟩
            · exact ih hrec i (by omega) hiq
        simp only at h
        split at h
        · cases hrl : range_loop b table (byteAt s (p - 1)) (byteAt s (p + 1)) with
          | none =>
            rw [hrl] at h
            cases h
          | some t1 =>
            rw [hrl] at h
            exact hb t1 h
        · exact hb table h
      · intro i hi hiq
        by_cases hip : i = p
        · subst hip
          exact hc
        · exact ih h i (by omega) hiq
    · simp only [Option.some.injEq, Prod.mk.injEq] at h
      intro i hi hiq
      omega

theorem scanset_loop_reference (s : List Nat) (b : Nat) (hb : 256 ≤ b) (f p : Nat)
    (first_char : Bool) (table : List Nat) (slot : Option Nat) (reversed : Bool)
    (hbytes : ∀ i : Nat, p ≤ i → byteAt s i < 256)
    (hnz : ∀ i : Nat, p ≤ i → i < s.length → byteAt s i ≠ 0)
    (hlen : table.length = 256) (hp : p ≤ s.length) (hfuel : s.length < p + f)
    (hrev : no_range_after_reversed_loop (s.drop p) slot first_char reversed = true)
    (h255 : no_range_to_255_loop (s.drop p) first_char = true)
    (hsync : first_char = false → reversed = false →
      ∃ lo : Nat, slot = some lo ∧ lo ≤ byteAt s (p - 1) ∧
        ∀ x : Nat, lo ≤ x → x ≤ byteAt s (p - 1) → member table x = true) :
    ∃ (q : Nat) (table1 : List Nat),
      scanset_loop b s f p first_char table = some (q, table1) ∧
        (fun x => member table1 x)
          = reference_loop false (s.drop p) slot first_char (fun x => member table x) := by
  induction f generalizing p first_char table slot reversed with
  | zero => omega
  | succ n ih =>
    rw [scanset_loop]
    split
    · rename_i hc
      simp only [Bool.and_eq_true, bne_iff_ne, ne_eq] at hc
      have hlt := lt_length_of_byteAt_ne_zero hc.1
      rw [drop_step s p hlt] at hrev h255 ⊢
      have hcond := range_condition_drop s p first_char hnz
      split
      · rename_i hr
        simp only [Bool.and_eq_true, bne_iff_ne, ne_eq, beq_iff_eq, Bool.not_eq_true'] at hr
        have hr2 : byteAt s p = 45 ∧ first_char = false ∧ byteAt s (p + 1) ≠ 0 ∧
            byteAt s (p + 1) ≠ 93 := ⟨hr.1.1.1, hr.1.1.2, hr.1.2, hr.2⟩
        have hlt1 := lt_length_of_byteAt_ne_zero hr2.2.2.1
        have hfc := hr2.2.1
        subst hfc
        rw [drop_step s (p + 1) hlt1, hr2.1] at hrev h255 ⊢
        rw [no_range_after_reversed_loop_range _ _ _ _ hr2.2.2.2] at hrev
        rw [no_range_to_255_loop_range _ _ hr2.2.2.2] at h255
        rw [reference_loop_range false _ _ _ _ hr2.2.2.2]
        simp only [Bool.and_eq_true, Bool.not_eq_true', bne_iff_ne, ne_eq] at hrev h255
        obtain ⟨lo, hslot, hlo, hmarked⟩ := hsync rfl hrev.1
        subst hslot
        simp only [Option.getD_some, Bool.false_eq_true, if_false] at hrev ⊢
        have e1 : p + 2 - 1 = p + 1 := by omega
        have he : byteAt s (p + 1) < 255 := by
          have := hbytes (p + 1) (by omega)
          omega
        split
        · rename_i hse
          obtain ⟨t1, h1, hlen1, hmem⟩ := range_loop_spec (byteAt s (p + 1))
            (byteAt s (p + 1) + 1 - byteAt s (p - 1)) he (byteAt s (p - 1)) b table
            (by omega) (by omega)
          rw [h1]
          simp only
          have hle : lo ≤ byteAt s (p + 1) := by omega
          have hnr : decide (byteAt s (p + 1) < lo) = false := by simp [hle]
          rw [hnr] at hrev
          obtain ⟨q, t2, h2, hsim⟩ := ih (p + 2) false t1 (some lo) false
            (fun i hi => hbytes i (by omega)) (fun i hi => hnz i (by omega))
            (by rw [hlen1, hlen]) (by omega) (by omega) hrev.2 h255.2
            (fun _ _ => ⟨lo, rfl, by rw [e1]; exact hle, by
              intro x hx1 hx2
              rw [e1] at hx2
              rw [hmem x]
              by_cases hx : x ≤ byteAt s (p - 1)
              · rw [hmarked x hx1 hx, Bool.or_true]
              · have : byteAt s (p - 1) ≤ x ∧ x ≤ byteAt s (p + 1) ∧ x < table.length := by
                  omega
                simp [this]⟩)
          have htab : (fun x => member t1 x)
              = fun x => member table x
                  || (decide (lo ≤ x) && decide (x ≤ byteAt s (p + 1))) := by
            funext x
            rw [hmem x, hlen, Bool.or_comm]
            by_cases hx : member table x = true
            · simp [hx]
            · simp only [Bool.not_eq_true] at hx
              simp only [hx, Bool.false_or]
              rw [← Bool.decide_and]
              apply decide_eq_decide.mpr
              constructor
              · rintro ⟨g1, g2, _⟩
                exact ⟨by omega, g2⟩
              · rintro ⟨g1, g2⟩
                refine ⟨?_, g2, by omega⟩
                by_contra hcon
                rw [hmarked x g1 (by omega)] at hx
                cases hx
          refine ⟨q, t2, h2, ?_⟩
          rw [hsim, if_pos hle, htab]
        · rename_i hse
          by_cases hle : lo ≤ byteAt s (p + 1)
          · have hnr : decide (byteAt s (p + 1) < lo) = false := by simp [hle]
            rw [hnr] at hrev
            obtain ⟨q, t2, h2, hsim⟩ := ih (p + 2) false table (some lo) false
              (fun i hi => hbytes i (by omega)) (fun i hi => hnz i (by omega))
              hlen (by omega) (by omega) hrev.2 h255.2
              (fun _ _ => ⟨lo, rfl, by rw [e1]; exact hle, fun x hx1 hx2 => hmarked x hx1 (by
                rw [e1] at hx2
                omega)⟩)
            have htab : (fun x => member table x)
                = fun x => member table x
                    || (decide (lo ≤ x) && decide (x ≤ byteAt s (p + 1))) := by
              funext x
              by_cases hx : lo ≤ x ∧ x ≤ byteAt s (p + 1)
              · rw [hmarked x hx.1 (by omega)]
                rfl
              · have : (decide (lo ≤ x) && decide (x ≤ byteAt s (p + 1))) = false := by
                  rw [← Bool.decide_and]
                  simpa using hx
                rw [this, Bool.or_false]
            refine ⟨q, t2, h2, ?_⟩
            rw [hsim, if_pos hle, ← htab]
          · obtain ⟨q, t2, h2, hsim⟩ := ih (p + 2) false table (some lo)
              (decide (byteAt s (p + 1) < lo))
              (fun i hi => hbytes i (by omega)) (fun i hi => hnz i (by omega))
              hlen (by omega) (by omega) hrev.2 h255.2
              (fun _ hd => by
                simp only [decide_eq_false_iff_not] at hd
                omega)
            refine ⟨q, t2, h2, ?_⟩
            rw [hsim, if_neg hle]
      · rename_i hr
        have hr2 : ¬ (byteAt s p = 45 ∧ first_char = false ∧ byteAt s (p + 1) ≠ 0 ∧
            byteAt s (p + 1) ≠ 93) := by
          intro hh
          apply hr
          simp [hh.1, hh.2.1, hh.2.2.1, hh.2.2.2]
        have hr3 := fun hh => hr2 (hcond.mp hh)
        rw [no_range_after_reversed_loop_mark _ _ _ _ _ hc.2 hr3] at hrev
        rw [no_range_to_255_loop_mark _ _ _ hc.2 hr3] at h255
        rw [reference_loop_mark false _ _ _ _ _ hc.2 hr3]
        have hc256 := hbytes p (le_refl _)
        obtain ⟨q, t2, h2, hsim⟩ := ih (p + 1) false (table.set (byteAt s p) 1)
          (some (byteAt s p)) false
          (fun i hi => hbytes i (by omega)) (fun i hi => hnz i (by omega))
          (by rw [List.length_set, hlen]) (by omega) (by omega) hrev h255
          (fun _ _ => ⟨byteAt s p, rfl, by simp, by
            intro x hx1 hx2
            have hxe : x = byteAt s p := by
              have : p + 1 - 1 = p := by omega
              rw [this] at hx2
              omega
            rw [hxe, member_set]
            simp [hlen, hc256]⟩)
        refine ⟨q, t2, h2, ?_⟩
        rw [hsim, member_set_fun table _ hlen hc256]
    · rename_i hc
      simp only [Bool.and_eq_true, bne_iff_ne, ne_eq, not_and, not_not] at hc
      refine ⟨p, table, rfl, ?_⟩
      by_cases hlt : p < s.length
      · have h93 := hc (hnz p (le_refl _) hlt)
        rw [drop_step s p hlt, h93, reference_loop_stop]
      · rw [List.drop_eq_nil_of_le (by omega), reference_loop_nil]


theorem no_range_after_reversed_caret (body : List Nat) :
    no_range_after_reversed (94 :: body) = no_range_after_reversed_loop body none true false := by
  unfold no_range_after_reversed
  rfl

theorem no_range_after_reversed_plain (r : List Nat) (h : byteAt r 0 ≠ 94) :
    no_range_after_reversed r = no_range_after_reversed_loop r none true false := by
  unfold no_range_after_reversed
  split
  · simp [byteAt] at h
  · rfl

theorem no_range_to_255_caret (body : List Nat) :
    no_range_to_255 (94 :: body) = no_range_to_255_loop body true := by
  unfold no_range_to_255
  rfl

theorem no_range_to_255_plain (r : List Nat) (h : byteAt r 0 ≠ 94) :
    no_range_to_255 r = no_range_to_255_loop r true := by
  unfold no_range_to_255
  split
  · simp [byteAt] at h
  · rfl

/-- C16, amended: on every remaining input `a ++ "]" ++ b` that is a C string,
where `a` has no `]`, in which no range step comes directly after a reversed
range step and no range step has the byte 255 as its upper bound, the scanner
succeeds and its invert flag and table are those of the algorithm of the
specification (section 4.7, the slot left unchanged by a range step); so for
consecutive ranges such as `a-c-e`. -/
theorem parse_scanset_refines_reference :
    (∀ (fuel : Nat) (pre a b : List Nat), (∀ x ∈ a ++ 93 :: b, 0 < x ∧ x < 256) → 93 ∉ a →
      no_range_after_reversed (a ++ 93 :: b) = true →
      no_range_to_255 (a ++ 93 :: b) = true → 256 ≤ fuel →
      (a ++ 93 :: b).length < fuel →
      ∃ token : token_t,
        parse_scanset fuel (pre ++ (a ++ 93 :: b)) pre.length
            = some (scan_t.ok (pre.length + a.length + 1) token) ∧
          token.is_scanset_invert = (reference_scanset false (a ++ 93 :: b)).1 ∧
          ∀ x : Nat, member token.scanset_table x
            = (reference_scanset false (a ++ 93 :: b)).2 x) ∧
      (∃ t : token_t,
        parse_format 6 [37, 91, 97, 45, 99, 45, 101, 93] = some (parse_t.ok [t]) ∧
          members t.scanset_table = [97, 98, 99, 100, 101] ∧
          (List.range 256).filter (reference_scanset false [97, 45, 99, 45, 101, 93]).2
            = [97, 98, 99, 100, 101]) := by
  refine ⟨?_, ?_⟩
  · intro fuel pre a b hr ha93 hrev h255 hf hfuel
    have hlen : (pre ++ (a ++ 93 :: b)).length = pre.length + (a ++ 93 :: b).length :=
      List.length_append _ _
    have hlen2 : (a ++ 93 :: b).length = a.length + (b.length + 1) := by simp
    have hdrop : (pre ++ (a ++ 93 :: b)).drop pre.length = a ++ 93 :: b := by simp
    have hfirst : byteAt (pre ++ (a ++ 93 :: b)) pre.length = byteAt (a ++ 93 :: b) 0 :=
      byteAt_append_length _ _
    have hbytes : ∀ i : Nat, pre.length ≤ i → byteAt (pre ++ (a ++ 93 :: b)) i < 256 := by
      intro i hi
      by_cases hlt : i < (pre ++ (a ++ 93 :: b)).length
      · rw [hlen] at hlt
        have hm := byteAt_mem_middle pre (a ++ 93 :: b) [] i hi hlt
        rw [List.append_nil] at hm
        exact (hr _ hm).2
      · rw [byteAt_of_length_le _ _ (by omega)]
        decide
    have hnz : ∀ i : Nat, pre.length ≤ i → i < (pre ++ (a ++ 93 :: b)).length →
        byteAt (pre ++ (a ++ 93 :: b)) i ≠ 0 := by
      intro i hi hlt
      rw [hlen] at hlt
      have hm := byteAt_mem_middle pre (a ++ 93 :: b) [] i hi hlt
      rw [List.append_nil] at hm
      have := (hr _ hm).1
      omega
    have hbr : byteAt (pre ++ (a ++ 93 :: b)) (pre.length + a.length) = 93 := by
      rw [byteAt_append_right, byteAt_append_length, byteAt_cons_zero]
    have hin : ∀ i : Nat, pre.length ≤ i → i < pre.length + a.length →
        byteAt (pre ++ (a ++ 93 :: b)) i ≠ 93 := by
      intro i h1 h2
      have hm := byteAt_mem_middle pre a (93 :: b) i h1 h2
      rw [List.append_assoc] at hm
      exact fun h => ha93 (h ▸ hm)
    have hzero : (fun x => member zero_table x) = fun _ => false := by
      funext x
      exact member_zero_table x
    have hfinish : ∀ (p0 q : Nat) (table : List Nat), pre.length ≤ p0 →
        p0 ≤ pre.length + a.length →
        scanset_loop fuel (pre ++ (a ++ 93 :: b)) fuel p0 true zero_table = some (q, table) →
        q = pre.length + a.length := by
      intro p0 q table h1 h2 hl
      obtain ⟨_, g2, g3, _⟩ := scanset_loop_grows _ hl
      have g4 := scanset_loop_span _ hl
      rcases Nat.lt_trichotomy q (pre.length + a.length) with hlt | heq | hgt
      · rcases g3 with g3 | g3
        · exact absurd g3 (hnz q (by omega) (by omega))
        · exact absurd g3 (hin q (by omega) hlt)
      · exact heq
      · exact absurd hbr (g4 _ h2 hgt).2
    unfold parse_scanset
    simp only
    by_cases h94 : byteAt (pre ++ (a ++ 93 :: b)) pre.length = 94
    · have hb : (byteAt (pre ++ (a ++ 93 :: b)) pre.length == 94) = true := by simp [h94]
      rw [if_pos hb]
      have hlt := @lt_length_of_byteAt_ne_zero (pre ++ (a ++ 93 :: b)) pre.length (by omega)
      have hstep := drop_step _ _ hlt
      rw [hdrop, h94] at hstep
      have ha : a.length ≠ 0 := by
        intro h0
        rw [h0, Nat.add_zero, h94] at hbr
        omega
      rw [hstep] at hrev h255
      rw [no_range_after_reversed_caret] at hrev
      rw [no_range_to_255_caret] at h255
      obtain ⟨q, table, hl, hsim⟩ := scanset_loop_reference (pre ++ (a ++ 93 :: b)) fuel hf fuel
        (pre.length + 1) true zero_table none false (fun i hi => hbytes i (by omega))
        (fun i hi => hnz i (by omega)) zero_table_length (by omega) (by omega) hrev h255
        (fun h => by cases h)
      have hq := hfinish _ _ _ (by omega) (by omega) hl
      subst hq
      rw [hl]
      simp only [hbr, bne_self_eq_false, Bool.false_eq_true, if_false]
      have href : reference_scanset false (a ++ 93 :: b)
          = (true, fun x => member table x) := by
        rw [hstep, reference_scanset_caret, ← hzero, ← hsim]
      rw [href]
      exact ⟨_, rfl, hb, fun _ => rfl⟩
    · have hb : ¬ (byteAt (pre ++ (a ++ 93 :: b)) pre.length == 94) = true := by simp [h94]
      rw [if_neg hb]
      have h94r : byteAt (a ++ 93 :: b) 0 ≠ 94 := by
        rw [← hfirst]
        exact h94
      rw [no_range_after_reversed_plain _ h94r, ← hdrop] at hrev
      rw [no_range_to_255_plain _ h94r, ← hdrop] at h255
      obtain ⟨q, table, hl, hsim⟩ := scanset_loop_reference (pre ++ (a ++ 93 :: b)) fuel hf fuel
        pre.length true zero_table none false hbytes hnz zero_table_length (by omega)
        (by omega) hrev h255 (fun h => by cases h)
      have hq := hfinish _ _ _ (le_refl _) (by omega) hl
      subst hq
      rw [hl]
      simp only [hbr, bne_self_eq_false, Bool.false_eq_true, if_false]
      rw [hdrop] at hsim
      have href : reference_scanset false (a ++ 93 :: b)
          = (false, fun x => member table x) := by
        rw [reference_scanset_plain _ _ h94r, ← hzero, ← hsim]
      rw [href]
      exact ⟨_, rfl, by simpa using h94, fun _ => rfl⟩
  · obtain ⟨t, h1, h2⟩ := parse_format_chained_ranges
    exact ⟨t, h1, h2, by decide⟩

/-- C16, amended, instances: the body `a-c-e` of `%[a-c-e]`, and the body
`z-a` followed by the byte 255, a reversed range and a marked byte 255. -/
theorem parse_scanset_refines_reference_witness :
    (∃ token : token_t,
      parse_scanset 256 ([37, 91] ++ ([97, 45, 99, 45, 101] ++ 93 :: [])) 2
          = some (scan_t.ok 8 token) ∧
        token.is_scanset_invert = (reference_scanset false [97, 45, 99, 45, 101, 93]).1 ∧
        ∀ x : Nat, member token.scanset_table x
          = (reference_scanset false [97, 45, 99, 45, 101, 93]).2 x) ∧
      (∃ token : token_t,
        parse_scanset 256 ([37, 91] ++ ([122, 45, 97, 255] ++ 93 :: [])) 2
            = some (scan_t.ok 7 token) ∧
          token.is_scanset_invert = (reference_scanset false [122, 45, 97, 255, 93]).1 ∧
          ∀ x : Nat, member token.scanset_table x
            = (reference_scanset false [122, 45, 97, 255, 93]).2 x) :=
  ⟨parse_scanset_refines_reference.1 256 [37, 91] [97, 45, 99, 45, 101] [] (by decide)
      (by decide) (by decide) (by decide) (by decide) (by decide),
    parse_scanset_refines_reference.1 256 [37, 91] [122, 45, 97, 255] [] (by decide)
      (by decide) (by decide) (by decide) (by decide) (by decide)⟩

/-! ## A width written as zero -/

theorem parse_conversion_eq_tail (fuel : Nat) (s : List Nat) (p : Nat)
    (h0 : byteAt s p ≠ 0) (h37 : byteAt s p ≠ 37) :
    parse_conversion fuel s p
      = match width_loop s fuel (if byteAt s p == 42 then p + 1 else p) 0 with
        | none => none
        | some r => conversion_tail fuel s (byteAt s p == 42) r := by
  unfold parse_conversion
  have e0 : ¬ (byteAt s p == 0) = true := by simpa using h0
  have e37 : ¬ (byteAt s p == 37) = true := by simpa using h37
  rw [if_neg e0, if_neg e37]
  dsimp only
  cases width_loop s fuel (if (byteAt s p == 42) = true then p + 1 else p) 0 with
  | none => rfl
  | some r =>
    obtain ⟨res, p2, width⟩ := r
    rfl

theorem shifted_cons (t : List Nat) : shifted (37 :: t) (37 :: 48 :: t) := by
  intro i hi
  obtain ⟨j, rfl⟩ : ∃ j, i = j + 1 := ⟨i - 1, by omega⟩
  simp [byteAt_cons_succ]

theorem whitespace_loop_shift {s1 s2 : List Nat} (hs : shifted s1 s2) (f p : Nat)
    (hp : 1 ≤ p) :
    whitespace_loop s2 f (p + 1) = (whitespace_loop s1 f p).map (fun q => q + 1) := by
  induction f generalizing p with
  | zero => rfl
  | succ n ih =>
    rw [whitespace_loop, whitespace_loop, hs p hp]
    split
    · exact ih (p + 1) (by omega)
    · rfl

theorem literal_loop_shift {s1 s2 : List Nat} (hs : shifted s1 s2) (f p : Nat)
    (hp : 1 ≤ p) :
    literal_loop s2 f (p + 1) = (literal_loop s1 f p).map (fun q => q + 1) := by
  induction f generalizing p with
  | zero => rfl
  | succ n ih =>
    rw [literal_loop, literal_loop, hs p hp]
    split
    · exact ih (p + 1) (by omega)
    · rfl

theorem width_loop_shift {s1 s2 : List Nat} (hs : shifted s1 s2) (f p width : Nat)
    (hp : 1 ≤ p) :
    width_loop s2 f (p + 1) width
      = (width_loop s1 f p width).map (fun r => (r.1, r.2.1 + 1, r.2.2)) := by
  induction f generalizing p width with
  | zero => rfl
  | succ n ih =>
    rw [width_loop, width_loop, hs p hp]
    split
    · split
      · rfl
      · exact ih (p + 1) _ (by omega)
    · rfl

theorem parse_length_modifier_shift {s1 s2 : List Nat} (hs : shifted s1 s2) (p : Nat)
    (hp : 1 ≤ p) :
    parse_length_modifier s2 (p + 1)
      = ((parse_length_modifier s1 p).1, (parse_length_modifier s1 p).2 + 1) := by
  unfold parse_length_modifier
  have h1 := hs p hp
  have h2 := hs (p + 1) (by omega)
  rw [h1, h2]
  split
  · rfl
  · split
    · rfl
    · split
      · rfl
      · split
        · rfl
        · split <;> rfl

theorem scanset_loop_shift {s1 s2 : List Nat} (hs : shifted s1 s2) (b f p : Nat)
    (first_char : Bool) (table : List Nat) (hp : 2 ≤ p) :
    scanset_loop b s2 f (p + 1) first_char table
      = (scanset_loop b s1 f p first_char table).map (fun r => (r.1 + 1, r.2)) := by
  induction f generalizing p first_char table with
  | zero => rfl
  | succ n ih =>
    have h0 := hs p (by omega)
    have h1 := hs (p + 1) (by omega)
    have h2 : byteAt s2 (p + 1 - 1) = byteAt s1 (p - 1) := by
      have := hs (p - 1) (by omega)
      rw [← this]
      congr 1
      omega
    rw [scanset_loop, scanset_loop, h0, h1, h2]
    split
    · split
      · simp only
        split
        · cases range_loop b table (byteAt s1 (p - 1)) (byteAt s1 (p + 1)) with
          | none => rfl
          | some t1 => exact ih (p + 2) false t1 (by omega)
        · exact ih (p + 2) false table (by omega)
      · exact ih (p + 1) false _ (by omega)
    · rfl

theorem parse_scanset_shift {s1 s2 : List Nat} (hs : shifted s1 s2) (f p : Nat)
    (hp : 2 ≤ p) :
    parse_scanset f s2 (p + 1) = (parse_scanset f s1 p).map shift_scan := by
  unfold parse_scanset
  dsimp only
  rw [hs p (by omega)]
  have hp0 : (if (byteAt s1 p == 94) = true then p + 1 + 1 else p + 1)
      = (if (byteAt s1 p == 94) = true then p + 1 else p) + 1 := by
    split <;> rfl
  have hge : 2 ≤ (if (byteAt s1 p == 94) = true then p + 1 else p) := by
    split <;> omega
  rw [hp0, scanset_loop_shift hs f f _ true zero_table hge]
  cases hl : scanset_loop f s1 f (if (byteAt s1 p == 94) = true then p + 1 else p) true
      zero_table with
  | none => rfl
  | some r =>
    obtain ⟨q, table⟩ := r
    have hq := (scanset_loop_grows s1 hl).2.1
    simp only [Option.map_some']
    rw [hs q (by omega)]
    split <;> rfl

theorem width_loop_ge (s : List Nat) {f p width p2 width2 : Nat} {res : Int}
    (h : width_loop s f p width = some (res, p2, width2)) : p ≤ p2 := by
  induction f generalizing p width with
  | zero => simp [width_loop] at h
  | succ n ih =>
    rw [width_loop] at h
    split at h
    · split at h
      · simp only [Option.some.injEq, Prod.mk.injEq] at h
        omega
      · have := ih h
        omega
    · simp only [Option.some.injEq, Prod.mk.injEq] at h
      omega

theorem parse_length_modifier_ge (s : List Nat) (p : Nat) :
    p ≤ (parse_length_modifier s p).2 := by
  unfold parse_length_modifier
  split
  · simp only
    omega
  · split
    · simp only
      omega
    · split
      · simp only
        omega
      · split
        · simp only
          omega
        · split <;> simp only <;> omega

theorem conversion_tail_shift {s1 s2 : List Nat} (hs : shifted s1 s2) (f : Nat)
    (sup : Bool) (res : Int) (p2 width : Nat) (hp : 1 ≤ p2) :
    conversion_tail f s2 sup (res, p2 + 1, width)
      = (conversion_tail f s1 sup (res, p2, width)).map shift_scan := by
  unfold conversion_tail
  dsimp only
  have hge := parse_length_modifier_ge s1 p2
  rw [parse_length_modifier_shift hs p2 hp]
  dsimp only
  rw [hs _ (by omega), parse_scanset_shift hs f _ (by omega)]
  split
  · rfl
  · split
    · rfl
    · split
      · cases parse_scanset f s1 ((parse_length_modifier s1 p2).2 + 1) with
        | none => rfl
        | some r =>
          cases r with
          | fail res1 => rfl
          | ok p5 token => rfl
      · rfl

theorem parse_conversion_shift {s1 s2 : List Nat} (hs : shifted s1 s2) (f p : Nat)
    (hp : 1 ≤ p) :
    parse_conversion f s2 (p + 1) = (parse_conversion f s1 p).map shift_scan := by
  by_cases h0 : byteAt s1 p = 0
  · unfold parse_conversion
    rw [hs p hp]
    simp [h0, shift_scan]
  · by_cases h37 : byteAt s1 p = 37
    · unfold parse_conversion
      rw [hs p hp]
      simp only [h37, beq_self_eq_true, if_true]
      have : p + 1 - 1 = p - 1 + 1 := by omega
      simp [shift_scan, shift_token, this]
    · rw [parse_conversion_eq_tail f s1 p h0 h37,
        parse_conversion_eq_tail f s2 (p + 1) (by rw [hs p hp]; exact h0)
          (by rw [hs p hp]; exact h37), hs p hp]
      have hp1 : (if (byteAt s1 p == 42) = true then p + 1 + 1 else p + 1)
          = (if (byteAt s1 p == 42) = true then p + 1 else p) + 1 := by
        split <;> rfl
      have hge : 1 ≤ (if (byteAt s1 p == 42) = true then p + 1 else p) := by
        split <;> omega
      rw [hp1, width_loop_shift hs f _ 0 hge]
      cases hw : width_loop s1 f (if (byteAt s1 p == 42) = true then p + 1 else p) 0 with
      | none => rfl
      | some r =>
        obtain ⟨res, p2, width⟩ := r
        have := width_loop_ge s1 hw
        simp only [Option.map_some']
        exact conversion_tail_shift hs f _ res p2 width (by omega)

theorem dispatch_shift {s1 s2 : List Nat} (hs : shifted s1 s2) (f p : Nat) (hp : 1 ≤ p) :
    dispatch f s2 (p + 1) = (dispatch f s1 p).map shift_scan := by
  unfold dispatch
  rw [hs p hp]
  split
  · unfold parse_whitespace
    rw [whitespace_loop_shift hs f p hp]
    cases whitespace_loop s1 f p with
    | none => rfl
    | some q => rfl
  · split
    · exact parse_conversion_shift hs f (p + 1) (by omega)
    · unfold parse_literal
      dsimp only
      rw [literal_loop_shift hs f p hp]
      cases literal_loop s1 f p with
      | none => rfl
      | some q =>
        have : q + 1 - (p + 1) = q - p := by omega
        simp [shift_scan, shift_token, this]

theorem format_loop_shift {s1 s2 : List Nat} (hs : shifted s1 s2) (b f p : Nat)
    (acc1 acc2 : List entry_t) (hp : 1 ≤ p)
    (hacc : acc2.map entry_t.token = acc1.map (fun e => shift_token e.token)) :
    (format_loop b s2 f (p + 1) acc2).map (fun r => (r.1, r.2.map entry_t.token))
      = (format_loop b s1 f p acc1).map
          (fun r => (r.1, r.2.map (fun e => shift_token e.token))) := by
  induction f generalizing p acc1 acc2 with
  | zero => rfl
  | succ n ih =>
    rw [format_loop, format_loop, hs p hp, dispatch_shift hs b p hp]
    split
    · rename_i h0
      simp only [bne_iff_ne, ne_eq] at h0
      cases hd : dispatch b s1 p with
      | none => rfl
      | some r =>
        cases r with
        | fail res => rfl
        | ok p1 token =>
          have hlt := (dispatch_ok s1 hd h0).1
          simp only [Option.map_some', shift_scan]
          exact ih p1 _ _ (by omega) (by simp [hacc])
    · simp [hacc]

theorem conversion_tail_mono (s : List Nat) {f g : Nat} {sup : Bool} {r : Int × Nat × Nat}
    {x : scan_t} (h : conversion_tail f s sup r = some x) (hle : f ≤ g) :
    conversion_tail g s sup r = some x := by
  obtain ⟨res, p2, width⟩ := r
  unfold conversion_tail at h ⊢
  dsimp only at h ⊢
  split at h
  · rename_i hc
    rw [if_pos hc]
    exact h
  · rename_i hc
    rw [if_neg hc]
    split at h
    · rename_i hz
      rw [if_pos hz]
      exact h
    · rename_i hz
      rw [if_neg hz]
      split at h
      · rename_i hsp
        rw [if_pos hsp]
        cases hps : parse_scanset f s ((parse_length_modifier s p2).2 + 1) with
        | none =>
          rw [hps] at h
          cases h
        | some r2 =>
          rw [hps] at h
          rw [parse_scanset_mono s hps hle]
          exact h
      · rename_i hsp
        rw [if_neg hsp]
        exact h

theorem conversion_tail_width {f : Nat} {s : List Nat} {sup : Bool} {res : Int}
    {p2 width p1 : Nat} {token : token_t}
    (h : conversion_tail f s sup (res, p2, width) = some (scan_t.ok p1 token)) :
    token.width = width := by
  unfold conversion_tail at h
  dsimp only at h
  split at h
  · cases h
  · split at h
    · cases h
    · split at h
      · cases hps : parse_scanset f s ((parse_length_modifier s p2).2 + 1) with
        | none =>
          rw [hps] at h
          cases h
        | some r2 =>
          rw [hps] at h
          cases r2 with
          | fail res1 => cases h
          | ok p5 token5 =>
            simp only [Option.some.injEq, scan_t.ok.injEq] at h
            rw [← h.2]
      · simp only [Option.some.injEq, scan_t.ok.injEq] at h
        rw [← h.2]

theorem format_loop_extends (s : List Nat) {b f p : Nat} {acc entries : List entry_t}
    {res : Int} (h : format_loop b s f p acc = some (res, entries)) (hres : res = 0) :
    ∃ more : List entry_t, entries = acc ++ more := by
  induction f generalizing p acc with
  | zero => simp [format_loop] at h
  | succ n ih =>
    rw [format_loop] at h
    split at h
    · cases hd : dispatch b s p with
      | none =>
        rw [hd] at h
        cases h
      | some r =>
        rw [hd] at h
        cases r with
        | fail res1 =>
          simp only [Option.some.injEq, Prod.mk.injEq] at h
          exact absurd (h.1.trans hres) (dispatch_fail_ne_zero s hd)
        | ok p1 token =>
          obtain ⟨more, hm⟩ := ih h
          exact ⟨{ start := p, stop := p1, token := token } :: more, by rw [hm]; simp⟩
    · simp only [Option.some.injEq, Prod.mk.injEq] at h
      exact ⟨[], by rw [← h.2]; simp⟩

theorem same_fields_shift (t : token_t) : same_fields t (shift_token t) :=
  ⟨rfl, rfl, rfl, rfl, rfl, rfl, rfl, rfl⟩

theorem forall₂_same_fields_shift (ts : List token_t) :
    List.Forall₂ same_fields ts (ts.map shift_token) := by
  induction ts with
  | nil => exact List.Forall₂.nil
  | cons t rest ih => exact List.Forall₂.cons (same_fields_shift t) ih

theorem width_loop_zero_digit (t : List Nat) (k : Nat) :
    width_loop (37 :: 48 :: t) (k + 1) 1 0 = width_loop (37 :: 48 :: t) k 2 0 := by
  rw [width_loop]
  have hb : byteAt (37 :: 48 :: t) 1 = 48 := rfl
  rw [hb]
  rfl

theorem parse_conversion_zero (t : List Nat) (f : Nat) :
    parse_conversion f (37 :: 48 :: t) 1
      = match width_loop (37 :: 48 :: t) f 1 0 with
        | none => none
        | some r => conversion_tail f (37 :: 48 :: t) false r := by
  have hb : byteAt (37 :: 48 :: t) 1 = 48 := rfl
  rw [parse_conversion_eq_tail f (37 :: 48 :: t) 1 (by rw [hb]; decide) (by rw [hb]; decide), hb]
  rfl

theorem parse_conversion_plain (t : List Nat) (f : Nat) (h0 : byteAt t 0 ≠ 0)
    (h37 : byteAt t 0 ≠ 37) (h42 : byteAt t 0 ≠ 42) :
    parse_conversion f (37 :: t) 1
      = match width_loop (37 :: t) f 1 0 with
        | none => none
        | some r => conversion_tail f (37 :: t) false r := by
  have hb : byteAt (37 :: t) 1 = byteAt t 0 := byteAt_cons_one 37 t
  have h42b : (byteAt t 0 == 42) = false := by simpa using h42
  rw [parse_conversion_eq_tail f (37 :: t) 1 (by rw [hb]; exact h0) (by rw [hb]; exact h37), hb,
    h42b]
  rfl

theorem first_directive_of_zero (t : List Nat) (f : Nat) (x2 : scan_t) (h0 : byteAt t 0 ≠ 0)
    (h37 : byteAt t 0 ≠ 37) (h42 : byteAt t 0 ≠ 42)
    (h : parse_conversion f (37 :: 48 :: t) 1 = some x2) :
    ∃ x1 : scan_t, parse_conversion f (37 :: t) 1 = some x1 ∧ x2 = shift_scan x1 := by
  rw [parse_conversion_zero] at h
  rw [parse_conversion_plain t f h0 h37 h42]
  cases f with
  | zero => simp [width_loop] at h
  | succ k =>
    rw [width_loop_zero_digit, width_loop_shift (shifted_cons t) k 1 0 (le_refl _)] at h
    cases hw : width_loop (37 :: t) k 1 0 with
    | none =>
      rw [hw] at h
      cases h
    | some r =>
      obtain ⟨res, p2, width⟩ := r
      have hge := width_loop_ge _ hw
      rw [hw] at h
      simp only [Option.map_some'] at h
      rw [conversion_tail_shift (shifted_cons t) (k + 1) false res p2 width hge] at h
      rw [width_loop_mono _ hw (Nat.le_succ k)]
      cases hc : conversion_tail (k + 1) (37 :: t) false (res, p2, width) with
      | none =>
        rw [hc] at h
        cases h
      | some x1 =>
        rw [hc] at h
        simp only [Option.map_some', Option.some.injEq] at h
        exact ⟨x1, hc, h.symm⟩

theorem first_directive_to_zero (t : List Nat) (f : Nat) (x1 : scan_t) (h0 : byteAt t 0 ≠ 0)
    (h37 : byteAt t 0 ≠ 37) (h42 : byteAt t 0 ≠ 42)
    (h : parse_conversion f (37 :: t) 1 = some x1) :
    parse_conversion (f + 1) (37 :: 48 :: t) 1 = some (shift_scan x1) := by
  rw [parse_conversion_plain t f h0 h37 h42] at h
  rw [parse_conversion_zero, width_loop_zero_digit,
    width_loop_shift (shifted_cons t) f 1 0 (le_refl _)]
  cases hw : width_loop (37 :: t) f 1 0 with
  | none =>
    rw [hw] at h
    cases h
  | some r =>
    obtain ⟨res, p2, width⟩ := r
    have hge := width_loop_ge _ hw
    rw [hw] at h
    simp only [Option.map_some']
    rw [conversion_tail_shift (shifted_cons t) (f + 1) false res p2 width hge,
      conversion_tail_mono _ h (Nat.le_succ f)]
    rfl

theorem first_directive_width (t : List Nat) (f p1 : Nat) (token : token_t)
    (h0 : byteAt t 0 ≠ 0) (h37 : byteAt t 0 ≠ 37) (h42 : byteAt t 0 ≠ 42)
    (hd : isdigit (byteAt t 0) = false)
    (h : parse_conversion f (37 :: t) 1 = some (scan_t.ok p1 token)) : token.width = 0 := by
  rw [parse_conversion_plain t f h0 h37 h42] at h
  cases f with
  | zero => simp [width_loop] at h
  | succ k =>
    have hb : byteAt (37 :: t) 1 = byteAt t 0 := byteAt_cons_one 37 t
    have hw : width_loop (37 :: t) (k + 1) 1 0 = some (0, 1, 0) := by
      rw [width_loop, hb, hd]
      rfl
    rw [hw] at h
    exact conversion_tail_width h

theorem dispatch_percent (s : List Nat) (f : Nat) (h : byteAt s 0 = 37) :
    dispatch f s 0 = parse_conversion f s 1 := by
  unfold dispatch
  rw [h]
  rfl

theorem parse_trace_of_zero (t : List Nat) (f : Nat) (res : Int) (e2 : List entry_t)
    (h0 : byteAt t 0 ≠ 0) (h37 : byteAt t 0 ≠ 37) (h42 : byteAt t 0 ≠ 42)
    (h : parse_trace f (37 :: 48 :: t) = some (res, e2)) :
    ∃ e1 : List entry_t, parse_trace f (37 :: t) = some (res, e1) ∧
      e2.map entry_t.token = e1.map (fun e => shift_token e.token) := by
  unfold parse_trace at h ⊢
  cases f with
  | zero => simp [format_loop] at h
  | succ k =>
    have hb2 : (byteAt (37 :: 48 :: t) 0 != 0) = true := rfl
    have hb1 : (byteAt (37 :: t) 0 != 0) = true := rfl
    rw [format_loop, if_pos hb2, dispatch_percent (37 :: 48 :: t) (k + 1) rfl] at h
    rw [format_loop, if_pos hb1, dispatch_percent (37 :: t) (k + 1) rfl]
    cases hx2 : parse_conversion (k + 1) (37 :: 48 :: t) 1 with
    | none =>
      rw [hx2] at h
      cases h
    | some x2 =>
      obtain ⟨x1, hx1, rfl⟩ := first_directive_of_zero t (k + 1) x2 h0 h37 h42 hx2
      rw [hx2] at h
      rw [hx1]
      cases x1 with
      | fail r =>
        simp only [shift_scan, Option.some.injEq, Prod.mk.injEq] at h
        exact ⟨[], by rw [h.1], by rw [← h.2]; rfl⟩
      | ok p1 token =>
        have hp1 := (parse_conversion_ok _ hx1).1
        simp only [shift_scan] at h
        have hsh := format_loop_shift (shifted_cons t) (k + 1) k p1
          ([] ++ [{ start := 0, stop := p1, token := token }])
          ([] ++ [{ start := 0, stop := p1 + 1, token := shift_token token }]) (by omega)
          (by simp)
        rw [h] at hsh
        cases hf1 : format_loop (k + 1) (37 :: t) k p1
            ([] ++ [{ start := 0, stop := p1, token := token }]) with
        | none =>
          rw [hf1] at hsh
          cases hsh
        | some r1 =>
          obtain ⟨res1, e1⟩ := r1
          rw [hf1] at hsh
          simp only [Option.map_some', Option.some.injEq, Prod.mk.injEq] at hsh
          exact ⟨e1, by rw [hsh.1]; exact hf1, hsh.2⟩

theorem parse_trace_to_zero (t : List Nat) (f : Nat) (res : Int) (e1 : List entry_t)
    (h0 : byteAt t 0 ≠ 0) (h37 : byteAt t 0 ≠ 37) (h42 : byteAt t 0 ≠ 42)
    (h : parse_trace f (37 :: t) = some (res, e1)) :
    ∃ e2 : List entry_t, parse_trace (f + 1) (37 :: 48 :: t) = some (res, e2) ∧
      e2.map entry_t.token = e1.map (fun e => shift_token e.token) := by
  unfold parse_trace at h ⊢
  cases f with
  | zero => simp [format_loop] at h
  | succ k =>
    have hb2 : (byteAt (37 :: 48 :: t) 0 != 0) = true := rfl
    have hb1 : (byteAt (37 :: t) 0 != 0) = true := rfl
    rw [format_loop, if_pos hb1, dispatch_percent (37 :: t) (k + 1) rfl] at h
    rw [format_loop, if_pos hb2, dispatch_percent (37 :: 48 :: t) (k + 1 + 1) rfl]
    cases hx1 : parse_conversion (k + 1) (37 :: t) 1 with
    | none =>
      rw [hx1] at h
      cases h
    | some x1 =>
      rw [hx1] at h
      rw [first_directive_to_zero t (k + 1) x1 h0 h37 h42 hx1]
      cases x1 with
      | fail r =>
        simp only [Option.some.injEq, Prod.mk.injEq] at h
        exact ⟨[], by rw [← h.1]; rfl, by rw [← h.2]; rfl⟩
      | ok p1 token =>
        have hp1 := (parse_conversion_ok _ hx1).1
        simp only at h
        have hmono := format_loop_mono _ h (Nat.le_succ (k + 1)) (Nat.le_succ k)
        have hsh := format_loop_shift (shifted_cons t) (k + 1 + 1) (k + 1) p1
          ([] ++ [{ start := 0, stop := p1, token := token }])
          ([] ++ [{ start := 0, stop := p1 + 1, token := shift_token token }]) (by omega)
          (by simp)
        rw [hmono] at hsh
        simp only [shift_scan]
        cases hf2 : format_loop (k + 1 + 1) (37 :: 48 :: t) (k + 1) (p1 + 1)
            ([] ++ [{ start := 0, stop := p1 + 1, token := shift_token token }]) with
        | none =>
          rw [hf2] at hsh
          cases hsh
        | some r2 =>
          obtain ⟨res2, e2⟩ := r2
          rw [hf2] at hsh
          simp only [Option.map_some', Option.some.injEq, Prod.mk.injEq] at hsh
          exact ⟨e2, by rw [hsh.1], hsh.2⟩

theorem parse_format_eq_of_trace {f : Nat} {s : List Nat} {res : Int} {e : List entry_t}
    (h : parse_trace f s = some (res, e)) :
    parse_format f s
      = some (if res != 0 then parse_t.fail res else parse_t.ok (e.map entry_t.token)) := by
  unfold parse_format
  rw [h]
  dsimp only
  split <;> rfl

theorem parse_format_trace {f : Nat} {s : List Nat} {r : parse_t}
    (h : parse_format f s = some r) :
    ∃ (res : Int) (e : List entry_t), parse_trace f s = some (res, e) ∧
      r = if res != 0 then parse_t.fail res else parse_t.ok (e.map entry_t.token) := by
  cases ht : parse_trace f s with
  | none =>
    unfold parse_format at h
    rw [ht] at h
    cases h
  | some x =>
    obtain ⟨res, e⟩ := x
    rw [parse_format_eq_of_trace ht] at h
    exact ⟨res, e, rfl, (Option.some.inj h).symm⟩

theorem same_result_shift (res : Int) (e1 e2 : List entry_t)
    (h : e2.map entry_t.token = e1.map (fun e => shift_token e.token)) :
    same_result (if res != 0 then parse_t.fail res else parse_t.ok (e1.map entry_t.token))
      (if res != 0 then parse_t.fail res else parse_t.ok (e2.map entry_t.token)) := by
  split
  · rfl
  · rw [h]
    have : e1.map (fun e => shift_token e.token) = (e1.map entry_t.token).map shift_token := by
      simp
    rw [this]
    exact forall₂_same_fields_shift _

theorem parse_format_zero_width_instance :
    parse_format 2 [37, 48, 100] = some (parse_t.ok [conversion_token false 0 length_t.LEN_NONE 100]) ∧
      parse_format 2 [37, 100] = some (parse_t.ok [conversion_token false 0 length_t.LEN_NONE 100]) :=
  ⟨by rfl, by rfl⟩

/-- C20: for a non-empty C string `t` whose first byte is neither `%` nor `*`,
`"%0" ++ t` and `"%" ++ t` parse alike. Whatever `parse_format` returns on the
one, it returns on the other (with one more unit of fuel for the extra digit)
the same failure code or a token sequence of the same length whose tokens agree
in type, lit_len, is_suppress, width, length, spec, table and invert flag. When
`t` does not start with a digit the leading token has width 0. `"%0d"` and
`"%d"` give the same token sequence. -/
theorem zero_width_indistinguishable (fuel : Nat) (t : List Nat) (hne : t ≠ [])
    (hs : CString t) (h37 : byteAt t 0 ≠ 37) (h42 : byteAt t 0 ≠ 42) :
    (∀ r2 : parse_t, parse_format fuel ([37, 48] ++ t) = some r2 →
        ∃ r1 : parse_t, parse_format fuel ([37] ++ t) = some r1 ∧ same_result r1 r2) ∧
      (∀ r1 : parse_t, parse_format fuel ([37] ++ t) = some r1 →
        ∃ r2 : parse_t, parse_format (fuel + 1) ([37, 48] ++ t) = some r2 ∧
          same_result r1 r2) ∧
      (isdigit (byteAt t 0) = false → ∀ tokens : List token_t,
        parse_format fuel ([37] ++ t) = some (parse_t.ok tokens) →
          ∃ (t0 : token_t) (rest : List token_t), tokens = t0 :: rest ∧ t0.width = 0) ∧
      parse_format 2 [37, 48, 100] = parse_format 2 [37, 100] := by
  have h0 : byteAt t 0 ≠ 0 := by
    have := hs.byteAt_pos (List.length_pos.mpr hne)
    omega
  refine ⟨?_, ?_, ?_, ?_⟩
  · intro r2 h
    obtain ⟨res, e2, ht, rfl⟩ := parse_format_trace h
    obtain ⟨e1, ht1, hmap⟩ := parse_trace_of_zero t fuel res e2 h0 h37 h42 ht
    exact ⟨_, parse_format_eq_of_trace ht1, same_result_shift res e1 e2 hmap⟩
  · intro r1 h
    obtain ⟨res, e1, ht, rfl⟩ := parse_format_trace h
    obtain ⟨e2, ht2, hmap⟩ := parse_trace_to_zero t fuel res e1 h0 h37 h42 ht
    exact ⟨_, parse_format_eq_of_trace ht2, same_result_shift res e1 e2 hmap⟩
  · intro hd tokens h
    obtain ⟨entries, ht, hmap⟩ := parse_format_entries h
    unfold parse_trace at ht
    cases fuel with
    | zero => simp [format_loop] at ht
    | succ k =>
      have hb1 : (byteAt (37 :: t) 0 != 0) = true := rfl
      change format_loop (k + 1) (37 :: t) (k + 1) 0 [] = some (0, entries) at ht
      rw [format_loop, if_pos hb1, dispatch_percent (37 :: t) (k + 1) rfl] at ht
      cases hx1 : parse_conversion (k + 1) (37 :: t) 1 with
      | none =>
        rw [hx1] at ht
        cases ht
      | some x1 =>
        rw [hx1] at ht
        cases x1 with
        | fail r =>
          simp only [Option.some.injEq, Prod.mk.injEq] at ht
          exact absurd ht.1 (parse_conversion_fail_ne_zero _ hx1)
        | ok p1 token =>
          have hw := first_directive_width t (k + 1) p1 token h0 h37 h42 hd hx1
          obtain ⟨more, hm⟩ := format_loop_extends _ ht rfl
          refine ⟨token, more.map entry_t.token, ?_, hw⟩
          rw [← hmap, hm]
          simp
  · rw [parse_format_zero_width_instance.1, parse_format_zero_width_instance.2]

/-- C20, instance `"%05d x"` against `"%5d x"`: both give width 5, then
Whitespace and the Literal `x`. -/
theorem zero_width_indistinguishable_witness :
    ∃ r1 : parse_t, parse_format 4 ([37] ++ [53, 100, 32, 120]) = some r1 ∧
      same_result r1
        (parse_t.ok [conversion_token false 5 length_t.LEN_NONE 100, whitespace_token,
          literal_token 5 1]) :=
  (zero_width_indistinguishable 4 [53, 100, 32, 120] (by decide) (by decide) (by decide)
    (by decide)).1 _ (by rfl)

end FormatParser
